import Mathlib

/-!
The in-memory filesystem engine of `cgofuse_v2/cgofuse.go`.

A shallow embedding of the Go program.

* Go strings and `[]byte` values are byte sequences: `Bytes = List Nat`.
* `*node_t` pointers are addresses into an explicit heap `Nat → node_t`;
  a nullable pointer is `Option Nat` and `nil` is `none`.  Fresh addresses
  come from the bump counter `next`.
* A Go map is an association list; a map that may be `nil` is wrapped in
  `Option`.  Reading a `nil` map yields the zero value, deleting from it is
  a no-op, assigning into it panics.
* A `[]byte` slice is its backing array (a function on indices), its length
  and its capacity.
* `int64` arithmetic on offsets and sizes wraps (`wrap64`), and the link
  count `Nlink` (`uint32`) wraps modulo `2^32` (`wrap32`).  The counters
  `ino` (`uint64`) and `opencnt` (`int`) are unbounded integers; `ino` is
  only ever incremented and leaves the range of its Go type after `2^64`
  nodes were made, `opencnt` after `2^63` calls.
* A Go panic is an `Except.error`; every operation returns its result
  together with the engine state at the moment it returned or panicked.
* What a call takes from its environment is the record `Ctx` passed to each
  operation: `fuse.Getcontext()`, `fuse.Now()`, the memory that the
  operating system can give the run-time during the call, and the order in
  which `range` visits the keys of a map.
* `make([]byte, len, cap)` in `resize` has three outcomes: it panics when
  the sizes are out of range or above the allocation limit of the run-time
  (`maxAlloc`), which `resize` recovers and raises as `ENOSPC`; it ends the
  process with a fatal error, which nothing recovers, when the operating
  system does not have the memory (`Panic.fatal`, with the state as the
  call found it); otherwise it returns the buffer.  The other allocations
  (a node, a map entry, the payload of a symbolic link) are small or of the
  size of an argument, and are taken to succeed.
* Locking and logging are not modelled.
-/

namespace Cgofuse

/-! ## Constants of the `fuse` package (Linux values) -/

def ENOENT : Int := 2
def EIO : Int := 5
def EEXIST : Int := 17
def ENOTDIR : Int := 20
def EISDIR : Int := 21
def EINVAL : Int := 22
def ENOSPC : Int := 28
def ERANGE : Int := 34
def ENAMETOOLONG : Int := 36
def ENOTEMPTY : Int := 39
def ENOATTR : Int := 61
def ENOTSUP : Int := 95

def S_IFMT : Nat := 0o170000
def S_IFDIR : Nat := 0o040000
def S_IFLNK : Nat := 0o120000

def XATTR_CREATE : Int := 1
def XATTR_REPLACE : Int := 2

/-- The all-ones `uint64`, the handle value meaning "no handle". -/
def noHandle : Nat := 2 ^ 64 - 1

/-- The all-ones `uint32`, the uid/gid value meaning "leave unchanged". -/
def noId : Nat := 2 ^ 32 - 1

/-! ## Basic data -/

abbrev Bytes := List Nat

abbrev Ptr := Option Nat

deriving instance DecidableEq for Except

/-- The byte string of an ASCII literal. -/
def str (s : String) : Bytes := s.data.map Char.toNat

/-- A Go panic: either `panic(fuse.Error(errc))` or a run-time error; or a fatal error of the
run-time (out of memory), which ends the process. -/
inductive Panic where
  | fuseError (errc : Int)
  | nilMapWrite
  | nilDeref
  | outOfRange
  | fatal
  deriving DecidableEq, Repr

structure Timespec where
  Sec : Int
  Nsec : Int
  deriving DecidableEq, Repr

structure Stat_t where
  Dev : Nat
  Ino : Nat
  Mode : Nat
  Nlink : Nat
  Uid : Nat
  Gid : Nat
  Size : Int
  Atim : Timespec
  Mtim : Timespec
  Ctim : Timespec
  Birthtim : Timespec
  Flags : Nat
  deriving DecidableEq, Repr

/-- A byte slice: backing array, length, capacity. -/
structure slice_t where
  arr : Nat → Nat
  len : Nat
  cap : Nat

/-- The `nil` slice. -/
def nilSlice : slice_t := { arr := fun _ => 0, len := 0, cap := 0 }

/-- The bytes `[0, len)` of a slice. -/
def slice_t.toList (s : slice_t) : Bytes := (List.range s.len).map s.arr

/-- The slice `make([]byte, len(d))` after `copy(_, d)`. -/
def sliceOf (d : Bytes) : slice_t :=
  { arr := fun i => d.getD i 0, len := d.length, cap := d.length }

/-! ## Go maps as association lists -/

def mapGet {κ α : Type} [DecidableEq κ] : List (κ × α) → κ → Option α
  | [], _ => none
  | (k', v) :: r, k => if k' = k then some v else mapGet r k

def mapDel {κ α : Type} [DecidableEq κ] : List (κ × α) → κ → List (κ × α)
  | [], _ => []
  | (k', v) :: r, k => if k' = k then mapDel r k else (k', v) :: mapDel r k

def mapSet {κ α : Type} [DecidableEq κ] (m : List (κ × α)) (k : κ) (v : α) : List (κ × α) :=
  (k, v) :: mapDel m k

/-! ## Nodes and the engine -/

structure node_t where
  stat : Stat_t
  xatr : Option (List (Bytes × Bytes))
  chld : Option (List (Bytes × Nat))
  data : slice_t
  opencnt : Int

/-- The environment of a call: `fuse.Getcontext()` and `fuse.Now()`, the number of bytes
that the operating system can give the run-time for one buffer during the call, and the
order in which `range` visits the keys of a map during the call. -/
structure Ctx where
  uid : Nat
  gid : Nat
  now : Timespec
  avail : Nat
  order : List Bytes

structure Memfs where
  ino : Nat
  root : Nat
  openmap : List (Nat × Nat)
  heap : Nat → node_t
  next : Nat

def split (path : Bytes) : List Bytes :=
  go path []
where
  go : Bytes → Bytes → List Bytes
    | [], acc => [acc.reverse]
    | c :: cs, acc => if c = 47 then acc.reverse :: go cs [] else go cs (c :: acc)

def wrap64 (x : Int) : Int := (x + 2 ^ 63) % 2 ^ 64 - 2 ^ 63

/-- The value of a `uint32` after an increment or a decrement. -/
def wrap32 (x : Int) : Nat := (x % 2 ^ 32).toNat

/-- The entries of the map `m` in the order in which `for k, v := range m` visits them: every
entry once, in an order that the run-time chooses anew for each loop.  The choice is the
list `order` of keys: the entries under these keys come first, in the order of the list, and
the other entries follow. -/
def rangeOrder {α : Type} : List Bytes → List (Bytes × α) → List (Bytes × α)
  | [], m => m
  | k :: order, m =>
    match mapGet m k with
    | none => rangeOrder order m
    | some v => (k, v) :: rangeOrder order (mapDel m k)

def allocunit : Int := 64 * 1024

/-- The allocation limit of the Go run-time on 64-bit Linux (`runtime.maxAlloc`): `make`
panics when asked for more bytes. -/
def maxAlloc : Nat := 2 ^ 48

def resize (ctx : Ctx) (slice : slice_t) (size : Int) (zeroinit : Bool) :
    Except Panic slice_t :=
  let allocsize := Int.tdiv (wrap64 (size + allocunit - 1)) allocunit * allocunit
  if (slice.cap : Int) ≠ allocsize then
    -- newslice = make([]byte, size, allocsize); a panic becomes ENOSPC
    if size < 0 ∨ allocsize < size ∨ (maxAlloc : Int) < allocsize then
      .error (.fuseError (-ENOSPC))
    else if (ctx.avail : Int) < allocsize then .error .fatal
    else
      -- copy(newslice, slice)
      .ok { arr := fun i => if i < min size.toNat slice.len then slice.arr i else 0
            len := size.toNat
            cap := allocsize.toNat }
  else if zeroinit then
    -- slice = slice[:size]
    if size < 0 ∨ (slice.cap : Int) < size then .error .outOfRange
    else
      .ok { arr := fun i => if slice.len ≤ i ∧ i < size.toNat then 0 else slice.arr i
            len := size.toNat
            cap := slice.cap }
  else .ok slice

def newNode (dev ino mode uid gid : Nat) (tmsp : Timespec) : node_t :=
  { stat := { Dev := dev, Ino := ino, Mode := mode, Nlink := 1, Uid := uid, Gid := gid
              Size := 0, Atim := tmsp, Mtim := tmsp, Ctim := tmsp, Birthtim := tmsp
              Flags := 0 }
    xatr := none
    chld := if S_IFDIR = mode &&& S_IFMT then some [] else none
    data := nilSlice
    opencnt := 0 }

/-- Whether the node has directory type bits. -/
def node_t.isDir (n : node_t) : Bool := decide (S_IFDIR = n.stat.Mode &&& S_IFMT)

/-- The value of `node.chld[c]`. -/
def node_t.child (n : node_t) (c : Bytes) : Ptr :=
  match n.chld with
  | none => none
  | some m => mapGet m c

/-- The value of `len(node.chld)`. -/
def node_t.nchld (n : node_t) : Nat :=
  match n.chld with
  | none => 0
  | some m => m.length

/-- The content of a heap cell that was never allocated. -/
def zeroNode : node_t :=
  { stat := { Dev := 0, Ino := 0, Mode := 0, Nlink := 0, Uid := 0, Gid := 0, Size := 0
              Atim := ⟨0, 0⟩, Mtim := ⟨0, 0⟩, Ctim := ⟨0, 0⟩, Birthtim := ⟨0, 0⟩
              Flags := 0 }
    xatr := none
    chld := none
    data := nilSlice
    opencnt := 0 }

/-- Update the node at address `p`. -/
def Memfs.upd (self : Memfs) (p : Nat) (f : node_t → node_t) : Memfs :=
  { self with heap := fun q => if q = p then f (self.heap p) else self.heap q }

/-- Place a new node on the heap; returns its address. -/
def Memfs.alloc (self : Memfs) (n : node_t) : Nat × Memfs :=
  (self.next,
   { self with heap := fun q => if q = self.next then n else self.heap q
               next := self.next + 1 })

def NewMemfs (now : Timespec) : Memfs :=
  { ino := 1
    root := 0
    openmap := []
    heap := fun q => if q = 0 then newNode 0 1 (S_IFDIR ||| 0o777) 0 0 now else zeroNode
    next := 1 }

/-- The loop of `lookupNode` over the components still to be visited. -/
def lookupLoop (heap : Nat → node_t) (ancestor : Ptr) :
    List Bytes → Ptr → Bytes → Ptr → Except Panic (Ptr × Bytes × Ptr)
  | [], prnt, name, node => .ok (prnt, name, node)
  | c :: cs, prnt, name, node =>
    if c ≠ [] then
      if 255 < c.length then .error (.fuseError (-ENAMETOOLONG))
      else
        match node with
        | none => .ok (none, c, none)
        | some p =>
          let node1 := (heap p).child c
          if ancestor ≠ none ∧ node1 = ancestor then .ok (some p, [], node1)
          else lookupLoop heap ancestor cs (some p) c node1
    else lookupLoop heap ancestor cs prnt name node

def Memfs.lookupNode (self : Memfs) (path : Bytes) (ancestor : Ptr) :
    Except Panic (Ptr × Bytes × Ptr) :=
  lookupLoop self.heap ancestor (split path) (some self.root) [] (some self.root)

/-! ## Mutation primitives -/

def Memfs.makeNode (self : Memfs) (ctx : Ctx) (path : Bytes) (mode dev : Nat)
    (data : Option Bytes) : Except Panic Int × Memfs :=
  match self.lookupNode path none with
  | .error e => (.error e, self)
  | .ok (prnt, name, node) =>
    match prnt with
    | none => (.ok (-ENOENT), self)
    | some pp =>
      if node ≠ none then (.ok (-EEXIST), self)
      else
        let s1 := { self with ino := self.ino + 1 }
        let n0 := newNode dev s1.ino mode ctx.uid ctx.gid ctx.now
        let n1 := match data with
          | none => n0
          | some d => { n0 with data := sliceOf d, stat := { n0.stat with Size := d.length } }
        let a := (s1.alloc n1).1
        let s2 := (s1.alloc n1).2
        -- prnt.chld[name] = node
        match (s2.heap pp).chld with
        | none => (.error .nilMapWrite, s2)
        | some m =>
          (.ok 0, s2.upd pp fun nd =>
            { nd with chld := some (mapSet m name a)
                      stat := { nd.stat with Ctim := (s2.heap a).stat.Ctim
                                             Mtim := (s2.heap a).stat.Ctim } })

def Memfs.removeNode (self : Memfs) (ctx : Ctx) (path : Bytes) (dir : Bool) :
    Except Panic Int × Memfs :=
  match self.lookupNode path none with
  | .error e => (.error e, self)
  | .ok (prnt, name, node) =>
    match node with
    | none => (.ok (-ENOENT), self)
    | some n =>
      if dir = false ∧ (self.heap n).isDir = true then (.ok (-EISDIR), self)
      else if dir = true ∧ (self.heap n).isDir = false then (.ok (-ENOTDIR), self)
      else if 0 < (self.heap n).nchld then (.ok (-ENOTEMPTY), self)
      else
        let s1 := self.upd n fun nd =>
          { nd with stat := { nd.stat with Nlink := wrap32 (nd.stat.Nlink - 1) } }
        match prnt with
        | none => (.error .nilDeref, s1)
        | some pp =>
          -- delete(prnt.chld, name)
          let s2 := s1.upd pp fun nd => { nd with chld := nd.chld.map fun m => mapDel m name }
          let s3 := s2.upd n fun nd => { nd with stat := { nd.stat with Ctim := ctx.now } }
          (.ok 0, s3.upd pp fun nd =>
            { nd with stat := { nd.stat with Ctim := ctx.now, Mtim := ctx.now } })

def Memfs.openNode (self : Memfs) (path : Bytes) (dir : Bool) :
    Except Panic (Int × Nat) × Memfs :=
  match self.lookupNode path none with
  | .error e => (.error e, self)
  | .ok (_, _, node) =>
    match node with
    | none => (.ok (-ENOENT, noHandle), self)
    | some n =>
      if dir = false ∧ (self.heap n).isDir = true then (.ok (-EISDIR, noHandle), self)
      else if dir = true ∧ (self.heap n).isDir = false then (.ok (-ENOTDIR, noHandle), self)
      else
        let s1 := self.upd n fun nd => { nd with opencnt := nd.opencnt + 1 }
        let s2 := if (s1.heap n).opencnt = 1 then
            { s1 with openmap := mapSet s1.openmap (s1.heap n).stat.Ino n }
          else s1
        (.ok (0, (s2.heap n).stat.Ino), s2)

def Memfs.closeNode (self : Memfs) (fh : Nat) : Except Panic Int × Memfs :=
  match mapGet self.openmap fh with
  | none => (.error .nilDeref, self)
  | some n =>
    let s1 := self.upd n fun nd => { nd with opencnt := nd.opencnt - 1 }
    let s2 := if (s1.heap n).opencnt = 0 then
        { s1 with openmap := mapDel s1.openmap (s1.heap n).stat.Ino }
      else s1
    (.ok 0, s2)

def Memfs.getNode (self : Memfs) (path : Bytes) (fh : Nat) : Except Panic Ptr :=
  if noHandle = fh then
    match self.lookupNode path none with
    | .error e => .error e
    | .ok (_, _, node) => .ok node
  else .ok (mapGet self.openmap fh)

/-! ## Operations -/

def Memfs.Mknod (self : Memfs) (ctx : Ctx) (path : Bytes) (mode dev : Nat) :
    Except Panic Int × Memfs :=
  self.makeNode ctx path mode dev none

def Memfs.Mkdir (self : Memfs) (ctx : Ctx) (path : Bytes) (mode : Nat) :
    Except Panic Int × Memfs :=
  self.makeNode ctx path (S_IFDIR ||| (mode &&& 0o7777)) 0 none

def Memfs.Unlink (self : Memfs) (ctx : Ctx) (path : Bytes) : Except Panic Int × Memfs :=
  self.removeNode ctx path false

def Memfs.Rmdir (self : Memfs) (ctx : Ctx) (path : Bytes) : Except Panic Int × Memfs :=
  self.removeNode ctx path true

def Memfs.Link (self : Memfs) (ctx : Ctx) (oldpath newpath : Bytes) :
    Except Panic Int × Memfs :=
  match self.lookupNode oldpath none with
  | .error e => (.error e, self)
  | .ok (_, _, oldnode) =>
    match oldnode with
    | none => (.ok (-ENOENT), self)
    | some old =>
      match self.lookupNode newpath none with
      | .error e => (.error e, self)
      | .ok (newprnt, newname, newnode) =>
        match newprnt with
        | none => (.ok (-ENOENT), self)
        | some np =>
          if newnode ≠ none then (.ok (-EEXIST), self)
          else
            let s1 := self.upd old fun nd =>
              { nd with stat := { nd.stat with Nlink := wrap32 (nd.stat.Nlink + 1) } }
            -- newprnt.chld[newname] = oldnode
            match (s1.heap np).chld with
            | none => (.error .nilMapWrite, s1)
            | some m =>
              let s2 := s1.upd np fun nd => { nd with chld := some (mapSet m newname old) }
              let s3 := s2.upd old fun nd => { nd with stat := { nd.stat with Ctim := ctx.now } }
              (.ok 0, s3.upd np fun nd =>
                { nd with stat := { nd.stat with Ctim := ctx.now, Mtim := ctx.now } })

def Memfs.Symlink (self : Memfs) (ctx : Ctx) (target newpath : Bytes) :
    Except Panic Int × Memfs :=
  self.makeNode ctx newpath (S_IFLNK ||| 0o777) 0 (some target)

def Memfs.Readlink (self : Memfs) (path : Bytes) : Except Panic (Int × Bytes) × Memfs :=
  match self.lookupNode path none with
  | .error e => (.error e, self)
  | .ok (_, _, node) =>
    match node with
    | none => (.ok (-ENOENT, []), self)
    | some n =>
      if S_IFLNK ≠ (self.heap n).stat.Mode &&& S_IFMT then (.ok (-EINVAL, []), self)
      else (.ok (0, (self.heap n).data.toList), self)

/-- The last two statements of `Rename`: `delete(oldprnt.chld, oldname)` and
`newprnt.chld[newname] = oldnode`, then `return 0`. -/
def Memfs.moveEntry (self : Memfs) (oldprnt : Ptr) (oldname : Bytes) (np : Nat)
    (newname : Bytes) (old : Nat) : Except Panic Int × Memfs :=
  match oldprnt with
  | none => (.error .nilDeref, self)
  | some op =>
    -- delete(oldprnt.chld, oldname)
    let s2 := self.upd op fun nd => { nd with chld := nd.chld.map fun m => mapDel m oldname }
    -- newprnt.chld[newname] = oldnode
    match (s2.heap np).chld with
    | none => (.error .nilMapWrite, s2)
    | some m => (.ok 0, s2.upd np fun nd => { nd with chld := some (mapSet m newname old) })

def Memfs.Rename (self : Memfs) (ctx : Ctx) (oldpath newpath : Bytes) :
    Except Panic Int × Memfs :=
  match self.lookupNode oldpath none with
  | .error e => (.error e, self)
  | .ok (oldprnt, oldname, oldnode) =>
    match oldnode with
    | none => (.ok (-ENOENT), self)
    | some old =>
      match self.lookupNode newpath (some old) with
      | .error e => (.error e, self)
      | .ok (newprnt, newname, newnode) =>
        match newprnt with
        | none => (.ok (-ENOENT), self)
        | some np =>
          if newname = [] then (.ok (-EINVAL), self)
          else if oldprnt = some np ∧ oldname = newname then (.ok 0, self)
          else
            let r := if newnode ≠ none then self.removeNode ctx newpath (self.heap old).isDir
              else (.ok 0, self)
            match r with
            | (.error e, s1) => (.error e, s1)
            | (.ok errc, s1) =>
              if errc ≠ 0 then (.ok errc, s1)
              else s1.moveEntry oldprnt oldname np newname old

def Memfs.Chmod (self : Memfs) (ctx : Ctx) (path : Bytes) (mode : Nat) :
    Except Panic Int × Memfs :=
  match self.lookupNode path none with
  | .error e => (.error e, self)
  | .ok (_, _, node) =>
    match node with
    | none => (.ok (-ENOENT), self)
    | some n =>
      (.ok 0, self.upd n fun nd =>
        { nd with stat := { nd.stat with Mode := (nd.stat.Mode &&& S_IFMT) ||| (mode &&& 0o7777)
                                         Ctim := ctx.now } })

def Memfs.Chown (self : Memfs) (ctx : Ctx) (path : Bytes) (uid gid : Nat) :
    Except Panic Int × Memfs :=
  match self.lookupNode path none with
  | .error e => (.error e, self)
  | .ok (_, _, node) =>
    match node with
    | none => (.ok (-ENOENT), self)
    | some n =>
      (.ok 0, self.upd n fun nd =>
        { nd with stat := { nd.stat with Uid := if noId ≠ uid then uid else nd.stat.Uid
                                         Gid := if noId ≠ gid then gid else nd.stat.Gid
                                         Ctim := ctx.now } })

def Memfs.Utimens (self : Memfs) (ctx : Ctx) (path : Bytes) (tmsp : Option (List Timespec)) :
    Except Panic Int × Memfs :=
  match self.lookupNode path none with
  | .error e => (.error e, self)
  | .ok (_, _, node) =>
    match node with
    | none => (.ok (-ENOENT), self)
    | some n =>
      let s1 := self.upd n fun nd => { nd with stat := { nd.stat with Ctim := ctx.now } }
      let tmsp1 := match tmsp with
        | none => [(s1.heap n).stat.Ctim, (s1.heap n).stat.Ctim]
        | some l => l
      match tmsp1 with
      | [] => (.error .outOfRange, s1)
      | [t0] =>
        (.error .outOfRange, s1.upd n fun nd => { nd with stat := { nd.stat with Atim := t0 } })
      | t0 :: t1 :: _ =>
        (.ok 0, s1.upd n fun nd => { nd with stat := { nd.stat with Atim := t0, Mtim := t1 } })

def Memfs.Open (self : Memfs) (path : Bytes) (flags : Int) :
    Except Panic (Int × Nat) × Memfs :=
  let _ := flags
  self.openNode path false

def Memfs.Getattr (self : Memfs) (path : Bytes) (fh : Nat) :
    Except Panic (Int × Option Stat_t) × Memfs :=
  match self.getNode path fh with
  | .error e => (.error e, self)
  | .ok none => (.ok (-ENOENT, none), self)
  | .ok (some n) => (.ok (0, some (self.heap n).stat), self)

def Memfs.Truncate (self : Memfs) (ctx : Ctx) (path : Bytes) (size : Int) (fh : Nat) :
    Except Panic Int × Memfs :=
  match self.getNode path fh with
  | .error e => (.error e, self)
  | .ok none => (.ok (-ENOENT), self)
  | .ok (some n) =>
    match resize ctx (self.heap n).data size true with
    | .error e => (.error e, self)
    | .ok d =>
      (.ok 0, self.upd n fun nd =>
        { nd with data := d
                  stat := { nd.stat with Size := size, Ctim := ctx.now, Mtim := ctx.now } })

def Memfs.Read (self : Memfs) (ctx : Ctx) (path : Bytes) (buff : Bytes) (ofst : Int) (fh : Nat) :
    Except Panic (Int × Bytes) × Memfs :=
  match self.getNode path fh with
  | .error e => (.error e, self)
  | .ok none => (.ok (-ENOENT, buff), self)
  | .ok (some n) =>
    let endofst0 := wrap64 (ofst + buff.length)
    let endofst := if endofst0 > (self.heap n).stat.Size then (self.heap n).stat.Size else endofst0
    if endofst < ofst then (.ok (0, buff), self)
    else
      -- node.data[ofst:endofst]
      if ofst < 0 ∨ ((self.heap n).data.cap : Int) < endofst then (.error .outOfRange, self)
      else
        let k := min buff.length (endofst - ofst).toNat
        let buff1 := (List.range k).map (fun i => (self.heap n).data.arr (ofst.toNat + i))
          ++ buff.drop k
        (.ok (k, buff1), self.upd n fun nd => { nd with stat := { nd.stat with Atim := ctx.now } })

def Memfs.Write (self : Memfs) (ctx : Ctx) (path : Bytes) (buff : Bytes) (ofst : Int) (fh : Nat) :
    Except Panic Int × Memfs :=
  match self.getNode path fh with
  | .error e => (.error e, self)
  | .ok none => (.ok (-ENOENT), self)
  | .ok (some n) =>
    let endofst := wrap64 (ofst + buff.length)
    let r : Except Panic Memfs :=
      if endofst > (self.heap n).stat.Size then
        match resize ctx (self.heap n).data endofst true with
        | .error e => .error e
        | .ok d =>
          .ok (self.upd n fun nd => { nd with data := d, stat := { nd.stat with Size := endofst } })
      else .ok self
    match r with
    | .error e => (.error e, self)
    | .ok s1 =>
      -- node.data[ofst:endofst]
      if ofst < 0 ∨ endofst < ofst ∨ ((s1.heap n).data.cap : Int) < endofst then
        (.error .outOfRange, s1)
      else
        let k := min (endofst - ofst).toNat buff.length
        (.ok k, s1.upd n fun nd =>
          { nd with data := { nd.data with arr := fun i =>
                                if ofst.toNat ≤ i ∧ i < ofst.toNat + k
                                then buff.getD (i - ofst.toNat) 0 else nd.data.arr i }
                    stat := { nd.stat with Ctim := ctx.now, Mtim := ctx.now } })

def Memfs.Release (self : Memfs) (path : Bytes) (fh : Nat) : Except Panic Int × Memfs :=
  let _ := path
  self.closeNode fh

def Memfs.Opendir (self : Memfs) (path : Bytes) : Except Panic (Int × Nat) × Memfs :=
  self.openNode path true

/-- One call of the `fill` callback of `Readdir`: name, stat, offset. -/
abbrev FillCall := Bytes × Option Stat_t × Int

/-- The loop of `Readdir` over the children, given in the order in which `range` visits them;
`hist` is the list of calls made so far, which the callback's answer may depend on. -/
def readdirLoop (heap : Nat → node_t) (fill : List FillCall → FillCall → Bool) :
    List (Bytes × Nat) → List FillCall → List FillCall
  | [], hist => hist
  | (name, c) :: r, hist =>
    let call : FillCall := (name, some (heap c).stat, 0)
    if fill hist call then readdirLoop heap fill r (hist ++ [call]) else hist ++ [call]

def Memfs.Readdir (self : Memfs) (ctx : Ctx) (path : Bytes)
    (fill : List FillCall → FillCall → Bool) (ofst : Int) (fh : Nat) :
    Except Panic (Int × List FillCall) × Memfs :=
  let _ := (path, ofst)
  match mapGet self.openmap fh with
  | none => (.error .nilDeref, self)
  | some n =>
    let c1 : FillCall := (str ".", some (self.heap n).stat, 0)
    let c2 : FillCall := (str "..", none, 0)
    (.ok (0, readdirLoop self.heap fill (rangeOrder ctx.order ((self.heap n).chld.getD []))
      [c1, c2]), self)

def Memfs.Releasedir (self : Memfs) (path : Bytes) (fh : Nat) : Except Panic Int × Memfs :=
  let _ := path
  self.closeNode fh

/-- The value of `node.xatr[name]` with its presence flag. -/
def node_t.xattr (n : node_t) (name : Bytes) : Option Bytes :=
  match n.xatr with
  | none => none
  | some m => mapGet m name

def resourceFork : Bytes := str "com.apple.ResourceFork"

def Memfs.Setxattr (self : Memfs) (path : Bytes) (name : Bytes) (value : Bytes) (flags : Int) :
    Except Panic Int × Memfs :=
  match self.lookupNode path none with
  | .error e => (.error e, self)
  | .ok (_, _, node) =>
    match node with
    | none => (.ok (-ENOENT), self)
    | some n =>
      if resourceFork = name then (.ok (-ENOTSUP), self)
      else
        let refused : Option Int :=
          if XATTR_CREATE = flags then
            if ((self.heap n).xattr name).isSome then some (-EEXIST) else none
          else if XATTR_REPLACE = flags then
            if ((self.heap n).xattr name).isNone then some (-ENOATTR) else none
          else none
        match refused with
        | some errc => (.ok errc, self)
        | none =>
          (.ok 0, self.upd n fun nd =>
            { nd with xatr := some (mapSet (nd.xatr.getD []) name value) })

def Memfs.Getxattr (self : Memfs) (path : Bytes) (name : Bytes) :
    Except Panic (Int × Option Bytes) × Memfs :=
  match self.lookupNode path none with
  | .error e => (.error e, self)
  | .ok (_, _, node) =>
    match node with
    | none => (.ok (-ENOENT, none), self)
    | some n =>
      if resourceFork = name then (.ok (-ENOTSUP, none), self)
      else
        match (self.heap n).xattr name with
        | none => (.ok (-ENOATTR, none), self)
        | some v => (.ok (0, some v), self)

def Memfs.Removexattr (self : Memfs) (path : Bytes) (name : Bytes) : Except Panic Int × Memfs :=
  match self.lookupNode path none with
  | .error e => (.error e, self)
  | .ok (_, _, node) =>
    match node with
    | none => (.ok (-ENOENT), self)
    | some n =>
      if resourceFork = name then (.ok (-ENOTSUP), self)
      else if ((self.heap n).xattr name).isNone then (.ok (-ENOATTR), self)
      else
        (.ok 0, self.upd n fun nd => { nd with xatr := nd.xatr.map fun m => mapDel m name })

/-- The loop of `Listxattr` over the attributes, given in the order in which `range` visits
them; `hist` is the list of names passed to `fill` so far. -/
def listxattrLoop (fill : List Bytes → Bytes → Bool) : List (Bytes × Bytes) → List Bytes → Int
  | [], _ => 0
  | (name, _) :: r, hist =>
    if fill hist name then listxattrLoop fill r (hist ++ [name]) else -ERANGE

def Memfs.Listxattr (self : Memfs) (ctx : Ctx) (path : Bytes)
    (fill : List Bytes → Bytes → Bool) : Except Panic Int × Memfs :=
  match self.lookupNode path none with
  | .error e => (.error e, self)
  | .ok (_, _, node) =>
    match node with
    | none => (.ok (-ENOENT), self)
    | some n =>
      (.ok (listxattrLoop fill (rangeOrder ctx.order ((self.heap n).xatr.getD [])) []), self)

def Memfs.Chflags (self : Memfs) (ctx : Ctx) (path : Bytes) (flags : Nat) :
    Except Panic Int × Memfs :=
  match self.lookupNode path none with
  | .error e => (.error e, self)
  | .ok (_, _, node) =>
    match node with
    | none => (.ok (-ENOENT), self)
    | some n =>
      (.ok 0, self.upd n fun nd =>
        { nd with stat := { nd.stat with Flags := flags, Ctim := ctx.now } })

def Memfs.Setcrtime (self : Memfs) (ctx : Ctx) (path : Bytes) (tmsp : Timespec) :
    Except Panic Int × Memfs :=
  match self.lookupNode path none with
  | .error e => (.error e, self)
  | .ok (_, _, node) =>
    match node with
    | none => (.ok (-ENOENT), self)
    | some n =>
      (.ok 0, self.upd n fun nd =>
        { nd with stat := { nd.stat with Birthtim := tmsp, Ctim := ctx.now } })

def Memfs.Setchgtime (self : Memfs) (path : Bytes) (tmsp : Timespec) :
    Except Panic Int × Memfs :=
  match self.lookupNode path none with
  | .error e => (.error e, self)
  | .ok (_, _, node) =>
    match node with
    | none => (.ok (-ENOENT), self)
    | some n =>
      (.ok 0, self.upd n fun nd => { nd with stat := { nd.stat with Ctim := tmsp } })

/-! ## The engine as a transition system -/

/-- One call of an operation of the engine, with its arguments. -/
inductive Op where
  | Mknod (path : Bytes) (mode dev : Nat)
  | Mkdir (path : Bytes) (mode : Nat)
  | Unlink (path : Bytes)
  | Rmdir (path : Bytes)
  | Link (oldpath newpath : Bytes)
  | Symlink (target newpath : Bytes)
  | Readlink (path : Bytes)
  | Rename (oldpath newpath : Bytes)
  | Chmod (path : Bytes) (mode : Nat)
  | Chown (path : Bytes) (uid gid : Nat)
  | Utimens (path : Bytes) (tmsp : Option (List Timespec))
  | Open (path : Bytes) (flags : Int)
  | Getattr (path : Bytes) (fh : Nat)
  | Truncate (path : Bytes) (size : Int) (fh : Nat)
  | Read (path : Bytes) (buff : Bytes) (ofst : Int) (fh : Nat)
  | Write (path : Bytes) (buff : Bytes) (ofst : Int) (fh : Nat)
  | Release (path : Bytes) (fh : Nat)
  | Opendir (path : Bytes)
  | Readdir (path : Bytes) (fill : List FillCall → FillCall → Bool) (ofst : Int) (fh : Nat)
  | Releasedir (path : Bytes) (fh : Nat)
  | Setxattr (path name value : Bytes) (flags : Int)
  | Getxattr (path name : Bytes)
  | Removexattr (path name : Bytes)
  | Listxattr (path : Bytes) (fill : List Bytes → Bytes → Bool)
  | Chflags (path : Bytes) (flags : Nat)
  | Setcrtime (path : Bytes) (tmsp : Timespec)
  | Setchgtime (path : Bytes) (tmsp : Timespec)

/-- Keep the integer return code (errc or byte count) of a result. -/
def code {α : Type} (f : α → Int) (r : Except Panic α × Memfs) : Except Panic Int × Memfs :=
  (r.1.map f, r.2)

/-- Run one operation: its integer return code, or the panic it ended in, and the engine
state it left. -/
def Memfs.step (self : Memfs) (ctx : Ctx) : Op → Except Panic Int × Memfs
  | .Mknod path mode dev => self.Mknod ctx path mode dev
  | .Mkdir path mode => self.Mkdir ctx path mode
  | .Unlink path => self.Unlink ctx path
  | .Rmdir path => self.Rmdir ctx path
  | .Link oldpath newpath => self.Link ctx oldpath newpath
  | .Symlink target newpath => self.Symlink ctx target newpath
  | .Readlink path => code Prod.fst (self.Readlink path)
  | .Rename oldpath newpath => self.Rename ctx oldpath newpath
  | .Chmod path mode => self.Chmod ctx path mode
  | .Chown path uid gid => self.Chown ctx path uid gid
  | .Utimens path tmsp => self.Utimens ctx path tmsp
  | .Open path flags => code Prod.fst (self.Open path flags)
  | .Getattr path fh => code Prod.fst (self.Getattr path fh)
  | .Truncate path size fh => self.Truncate ctx path size fh
  | .Read path buff ofst fh => code Prod.fst (self.Read ctx path buff ofst fh)
  | .Write path buff ofst fh => self.Write ctx path buff ofst fh
  | .Release path fh => self.Release path fh
  | .Opendir path => code Prod.fst (self.Opendir path)
  | .Readdir path fill ofst fh => code Prod.fst (self.Readdir ctx path fill ofst fh)
  | .Releasedir path fh => self.Releasedir path fh
  | .Setxattr path name value flags => self.Setxattr path name value flags
  | .Getxattr path name => code Prod.fst (self.Getxattr path name)
  | .Removexattr path name => self.Removexattr path name
  | .Listxattr path fill => self.Listxattr ctx path fill
  | .Chflags path flags => self.Chflags ctx path flags
  | .Setcrtime path tmsp => self.Setcrtime ctx path tmsp
  | .Setchgtime path tmsp => self.Setchgtime path tmsp

/-- The states the engine can be in: the state made by `NewMemfs`, and every state left by
a call of an operation on such a state, whether the call returned or panicked. -/
inductive Reachable : Memfs → Prop where
  | init (now : Timespec) : Reachable (NewMemfs now)
  | step {s : Memfs} (ctx : Ctx) (op : Op) : Reachable s → Reachable (s.step ctx op).2

end Cgofuse

namespace Cgofuse

/-! ## Invariants of the reachable states -/

/-- The payload of a node agrees with its size: `Size = len(data) ≤ cap(data)`. -/
def node_t.dataOK (n : node_t) : Prop :=
  n.stat.Size = (n.data.len : Int) ∧ n.data.len ≤ n.data.cap

/-- The children mapping of a node holds allocated addresses under non-empty, pairwise
distinct names. -/
def node_t.chldOK (nx : Nat) (n : node_t) : Prop :=
  ∀ m, n.chld = some m → (∀ e ∈ m, e.2 < nx ∧ e.1 ≠ []) ∧ (m.map Prod.fst).Nodup

/-- Well-formed engine states. -/
structure WF (s : Memfs) : Prop where
  root_lt : s.root < s.next
  data : ∀ p, (s.heap p).dataOK
  chld : ∀ p, (s.heap p).chldOK s.next
  open_lt : ∀ e ∈ s.openmap, e.2 < s.next

/-- The triple `(prnt, name, node)` designates a slot of the graph: either the root itself
(no component was visited) or the entry `name` of the directory `prnt`. -/
def Slot (heap : Nat → node_t) (root : Nat) (prnt : Ptr) (name : Bytes) (node : Ptr) : Prop :=
  (name = [] ∧ prnt = some root ∧ node = some root) ∨
  (name ≠ [] ∧ ∃ p, prnt = some p ∧ node = (heap p).child name)

/-- The bytes `[0, Size)` of the payload of the node at address `n`. -/
def Memfs.content (s : Memfs) (n : Nat) : Bytes :=
  (List.range (s.heap n).stat.Size.toNat).map (s.heap n).data.arr

/-- The non-empty slash-delimited components of a path. -/
def comps (path : Bytes) : List Bytes := (split path).filter fun c => c ≠ []

/-- The node reached from `node` by descending through the components `cs`, one children
mapping after the other; `none` as soon as a component is missing. -/
def descend (heap : Nat → node_t) (node : Ptr) (cs : List Bytes) : Ptr :=
  cs.foldl (fun nd c => nd.bind fun p => (heap p).child c) node

/-- The node that the components `cs` resolve to, starting at the root. -/
def Memfs.resolve (s : Memfs) (cs : List Bytes) : Ptr := descend s.heap (some s.root) cs

/-- The number of entries of the children mapping of `n` that reference the node `p`. -/
def node_t.refs (n : node_t) (p : Nat) : Nat :=
  match n.chld with
  | none => 0
  | some m => m.countP fun e => decide (e.2 = p)

/-- The total number of (directory, name) child-mapping entries, over all nodes of the
heap, that reference the node `p`. -/
def Memfs.entries (s : Memfs) (p : Nat) : Nat :=
  ((List.range s.next).map fun d => (s.heap d).refs p).sum

/-- The link-count invariant: the link count of every node other than the root is the
number of directory entries that reference it, as a `uint32` (so it is that number itself
as long as fewer than `2^32` entries reference the node). -/
def NlinkInv (s : Memfs) : Prop :=
  ∀ p, p < s.next → p ≠ s.root → (s.heap p).stat.Nlink = s.entries p % 2 ^ 32

/-- The two states have the same nodes, the same root, and in every node the same children
mapping and link count. -/
def LinkEq (s s2 : Memfs) : Prop :=
  s2.next = s.next ∧ s2.root = s.root ∧
  ∀ q, (s2.heap q).chld = (s.heap q).chld ∧ (s2.heap q).stat.Nlink = (s.heap q).stat.Nlink

/-- The result `r` of a call on the state `s` is atomic on error: if the call returned a
negative code, or raised a `fuse.Error`, the state it left is `s`. -/
def Atomic (r : Except Panic Int × Memfs) (s : Memfs) : Prop :=
  (∀ c, r.1 = .ok c → c < 0 → r.2 = s) ∧ (∀ e, r.1 = .error (.fuseError e) → r.2 = s)

/-- The link count of every node is a `uint32` value. -/
def NlinkU32 (s : Memfs) : Prop := ∀ p, (s.heap p).stat.Nlink < 2 ^ 32

/-- No node carries an inode number above the counter `ino`. -/
def InoOK (s : Memfs) : Prop := ∀ p, (s.heap p).stat.Ino ≤ s.ino

/-! ## Concrete states used in the examples -/

/-- The time at which the example engine is created. -/
def t0 : Timespec := ⟨0, 0⟩

/-- A call at time `0`, during which the operating system can give `2^32` bytes and `range`
visits the keys of a map in the order in which they are stored in the model. -/
def ctx0 : Ctx := ⟨0, 0, ⟨0, 0⟩, 2 ^ 32, []⟩

/-- A call at time `1`, with the same memory and iteration order. -/
def ctx1 : Ctx := ⟨0, 0, ⟨1, 0⟩, 2 ^ 32, []⟩

/-- A call at time `1` during which the operating system can give any amount of memory. -/
def ctxBig : Ctx := ⟨0, 0, ⟨1, 0⟩, 2 ^ 64, []⟩

/-- A fresh engine after `Mknod("/a", 0o100644, 0)`; the file is the node at address `1`. -/
def stA : Memfs := ((NewMemfs t0).step ctx0 (.Mknod (str "/a") 0o100644 0)).2

/-- The example state after one more call, `Mknod("/f", 0o100644, 0)`; the second file is the
node at address `2`. -/
def stAF : Memfs := (stA.step ctx0 (.Mknod (str "/f") 0o100644 0)).2

/-- A fresh engine after two calls of `Rmdir("/")`: the root is empty, so each call returns 0
and takes one from the link count of the root, which wraps from 0 to `2^32 - 1`. -/
def stRR : Memfs :=
  (((NewMemfs t0).step ctx0 (.Rmdir (str "/"))).2.step ctx0 (.Rmdir (str "/"))).2

/-- The path `/a/b/xxx…x` whose last component is 256 bytes long. -/
def longPath : Bytes := str "/a/b/" ++ List.replicate 256 120

/-- The largest `int64`. -/
def maxInt64 : Int := 2 ^ 63 - 1

/-- The size `size` rounded up to the next multiple of the allocation unit of 64 KiB. -/
def roundUp (size : Int) : Int := (size + 65535) / 65536 * 65536

/-- During the call `ctx`, `make` returns a buffer of the capacity `cap`: the capacity is
within the allocation limit of the run-time, and the operating system has the memory. -/
def Ctx.grants (ctx : Ctx) (cap : Int) : Prop := cap ≤ maxAlloc ∧ cap ≤ ctx.avail

instance (ctx : Ctx) (cap : Int) : Decidable (ctx.grants cap) := by
  unfold Ctx.grants; infer_instance

end Cgofuse

namespace Cgofuse

/-! ## Further notions used in the statements -/

/-- The type bits of a regular file (`fuse.S_IFREG`). -/
def S_IFREG : Nat := 0o100000

/-- An empty buffer with one allocation unit of capacity, as `Truncate` to 0 leaves it in a
file that held between 1 and 65536 bytes. -/
def emptyPage : slice_t := { arr := fun _ => 0, len := 0, cap := 65536 }

/-- The call of `fill` that `Readdir` makes for the entry `e` of a children mapping. -/
def Memfs.dirCall (s : Memfs) (e : Bytes × Nat) : FillCall := (e.1, some (s.heap e.2).stat, 0)

/-- The two calls of `fill` that `Readdir` makes first, for `.` and `..`. -/
def Memfs.dirHead (s : Memfs) (n : Nat) : List FillCall :=
  [(str ".", some (s.heap n).stat, 0), (str "..", none, 0)]

/-- The example state with the file `/a` after `Opendir("/")`, which returns the handle 1. -/
def stAO : Memfs := (stA.step ctx0 (.Opendir (str "/"))).2

/-- The entries of the children mapping of the node `n` in the order in which the loop of
`Readdir` visits them during the call `ctx`. -/
def Memfs.visits (s : Memfs) (ctx : Ctx) (n : Nat) : List (Bytes × Nat) :=
  rangeOrder ctx.order ((s.heap n).chld.getD [])

/-- The example state with the files `/a` and `/f` after `Opendir("/")`, which returns the
handle 1. -/
def stAFO : Memfs := (stAF.step ctx0 (.Opendir (str "/"))).2

/-- A call at time `1` during which `range` visits the key `a` of a map first. -/
def ctxA : Ctx := ⟨0, 0, ⟨1, 0⟩, 2 ^ 32, [str "a"]⟩

/-- A `fill` callback that answers `false` to the call for the name `a` and `true` to every
other call. -/
def notA : List FillCall → FillCall → Bool := fun _ c => decide (c.1 ≠ str "a")

/-! ## What a call keeps -/

/-- The capacity of the payload of a node is its size rounded up to the allocation unit,
unless the node has the type bits of a symbolic link (its payload is the target, made by
`make([]byte, len(data))`). -/
def node_t.capOK (n : node_t) : Prop :=
  n.stat.Mode &&& S_IFMT = S_IFLNK ∨ (n.data.cap : Int) = roundUp n.stat.Size

/-- A node has a children mapping exactly if it has the type bits of a directory. -/
def node_t.shapeOK (n : node_t) : Prop := n.chld.isSome = n.isDir

/-- The node `n` is as `makeNode` makes it when the inode counter is `ino`. -/
def node_t.newOK (ino : Nat) (n : node_t) : Prop :=
  n.stat.Ino = ino + 1 ∧ n.opencnt = 0 ∧ n.shapeOK ∧ n.capOK ∧
  (n.isDir = true → n.data.len = 0)

/-- The state `s2` keeps of the state `s`: the root; of every node of `s` its inode number,
its type bits and whether it has a children mapping; if `o` is set, the handle table and all
open counts; and the payload and size of the nodes selected by `d`. At most one node is new,
and it is as `makeNode` makes it. -/
def Keep (o : Bool) (d : Nat → Prop) (s s2 : Memfs) : Prop :=
  (s.next ≤ s2.next ∧ s2.next ≤ s.next + 1 ∧ s2.root = s.root) ∧
  (∀ q, q < s.next →
    (s2.heap q).stat.Ino = (s.heap q).stat.Ino ∧
    (s2.heap q).stat.Mode &&& S_IFMT = (s.heap q).stat.Mode &&& S_IFMT ∧
    (s2.heap q).chld.isSome = (s.heap q).chld.isSome ∧
    (o = true → (s2.heap q).opencnt = (s.heap q).opencnt) ∧
    (d q → (s2.heap q).data = (s.heap q).data ∧
      (s2.heap q).stat.Size = (s.heap q).stat.Size)) ∧
  (∀ q, s.next ≤ q → q < s2.next → (s2.heap q).newOK s.ino) ∧
  (o = true → s2.openmap = s.openmap)

/-- Whether the operation is none of `Open`, `Opendir`, `Release`, `Releasedir`. -/
def Op.keepsOpen : Op → Bool
  | .Open _ _ | .Opendir _ | .Release _ _ | .Releasedir _ _ => false
  | _ => true

/-- The node at address `q` is not the one that the operation, a `Write` or a `Truncate`,
designates by its path or handle. -/
def Memfs.keepsData (s : Memfs) (op : Op) (q : Nat) : Prop :=
  match op with
  | .Write path _ _ fh => s.getNode path fh ≠ .ok (some q)
  | .Truncate path _ fh => s.getNode path fh ≠ .ok (some q)
  | _ => True

/-- Every node of the state has a children mapping exactly if it is a directory, and the
capacity of its payload is its size rounded up (symbolic links apart). -/
def NodeInv (s : Memfs) : Prop := ∀ p, p < s.next → (s.heap p).shapeOK ∧ (s.heap p).capOK

/-- Every directory of the state has an empty payload. -/
def DirEmpty (s : Memfs) : Prop :=
  ∀ p, p < s.next → (s.heap p).isDir = true → (s.heap p).data.len = 0

/-- The example state with the file `/a` after `Write("/a", "hello", 0)`. -/
def stAW : Memfs := (stA.step ctx0 (.Write (str "/a") (str "hello") 0 noHandle)).2

/-! ## Runs that release only outstanding handles -/

/-- The handle that the operation, an `Open` or `Opendir`, returns with the code 0. -/
def Memfs.opened (s : Memfs) : Op → Option Nat
  | .Open path flags =>
    match (s.Open path flags).1 with
    | .ok (c, fh) => if c = 0 then some fh else none
    | .error _ => none
  | .Opendir path =>
    match (s.Opendir path).1 with
    | .ok (c, fh) => if c = 0 then some fh else none
    | .error _ => none
  | _ => none

/-- The handle that the operation, a `Release` or `Releasedir`, is called with. -/
def Op.released : Op → Option Nat
  | .Release _ fh => some fh
  | .Releasedir _ fh => some fh
  | _ => none

/-- The number of outstanding opens of every handle after the operation `op` on the state
`s`, where `out` counts them before: one more for the handle that an `Open` or `Opendir`
returns, one less for the handle that is released. -/
def Memfs.track (s : Memfs) (out : Nat → Nat) (op : Op) : Nat → Nat := fun k =>
  if s.opened op = some k then out k + 1
  else if op.released = some k then out k - 1
  else out k

/-- The runs of the engine in which `Release` and `Releasedir` are only called with a handle
that an `Open` or `Opendir` has returned and that has not been released since; `out fh` is
the number of outstanding opens of the handle `fh`. -/
inductive Run : Memfs → (Nat → Nat) → Prop where
  | init (now : Timespec) : Run (NewMemfs now) (fun _ => 0)
  | step {s : Memfs} {out : Nat → Nat} (ctx : Ctx) (op : Op) : Run s out →
      (∀ fh, op.released = some fh → 0 < out fh) → Run (s.step ctx op).2 (s.track out op)

/-- Inode numbers are pairwise distinct across the nodes of the state. -/
def InoInj (s : Memfs) : Prop :=
  ∀ p q, p < s.next → q < s.next → (s.heap p).stat.Ino = (s.heap q).stat.Ino → p = q

/-- The handle table and the open counts agree with the outstanding opens `out`: the open
count of a node is the number of outstanding opens of its inode number, the node is in the
table under its inode number exactly if its open count is positive, every outstanding handle
is the inode number of a node, and the table holds nodes under their inode numbers only. -/
def HT (s : Memfs) (out : Nat → Nat) : Prop :=
  (∀ p, p < s.next →
    (s.heap p).opencnt = (out (s.heap p).stat.Ino : Int) ∧
    (mapGet s.openmap (s.heap p).stat.Ino = some p ↔ 0 < (s.heap p).opencnt)) ∧
  (∀ k, 0 < out k → ∃ p, p < s.next ∧ (s.heap p).stat.Ino = k) ∧
  (∀ k p, mapGet s.openmap k = some p → p < s.next ∧ (s.heap p).stat.Ino = k)

end Cgofuse

namespace Cgofuse

/-! ## Association lists -/

section Maps
variable {κ α : Type} [DecidableEq κ]

theorem mapGet_mapDel_same (m : List (κ × α)) (k : κ) : mapGet (mapDel m k) k = none := by
  induction m with
  | nil => rfl
  | cons e r ih =>
    obtain ⟨k1, v⟩ := e
    by_cases h : k1 = k
    · simp only [mapDel, if_pos h, ih]
    · simp only [mapDel, if_neg h, mapGet, ih]

theorem mapGet_mapDel_ne (m : List (κ × α)) {k k2 : κ} (hne : k2 ≠ k) :
    mapGet (mapDel m k) k2 = mapGet m k2 := by
  induction m with
  | nil => rfl
  | cons e r ih =>
    obtain ⟨k1, v⟩ := e
    by_cases h : k1 = k
    · have h2 : ¬ k1 = k2 := fun h3 => hne (h3 ▸ h)
      simp only [mapDel, if_pos h, ih, mapGet, if_neg h2]
    · by_cases h2 : k1 = k2
      · simp only [mapDel, if_neg h, mapGet, if_pos h2]
      · simp only [mapDel, if_neg h, mapGet, if_neg h2, ih]

theorem mapGet_mapSet_same (m : List (κ × α)) (k : κ) (v : α) :
    mapGet (mapSet m k v) k = some v := by
  simp only [mapSet, mapGet, if_true]

theorem mapGet_mapSet_ne (m : List (κ × α)) {k k2 : κ} (v : α) (hne : k2 ≠ k) :
    mapGet (mapSet m k v) k2 = mapGet m k2 := by
  have h2 : ¬ k = k2 := fun h3 => hne h3.symm
  simp only [mapSet, mapGet, if_neg h2, mapGet_mapDel_ne m hne]

theorem mem_mapDel {m : List (κ × α)} {k : κ} {e : κ × α} :
    e ∈ mapDel m k ↔ e ∈ m ∧ e.1 ≠ k := by
  induction m with
  | nil => simp [mapDel]
  | cons e1 r ih =>
    obtain ⟨k1, v⟩ := e1
    by_cases h : k1 = k
    · simp only [mapDel, if_pos h, ih, List.mem_cons]
      constructor
      · rintro ⟨h1, h2⟩; exact ⟨Or.inr h1, h2⟩
      · rintro ⟨h1 | h1, h2⟩
        · subst h1; exact absurd h h2
        · exact ⟨h1, h2⟩
    · simp only [mapDel, if_neg h, List.mem_cons, ih]
      constructor
      · rintro (h1 | ⟨h1, h2⟩)
        · subst h1; exact ⟨Or.inl rfl, h⟩
        · exact ⟨Or.inr h1, h2⟩
      · rintro ⟨h1 | h1, h2⟩
        · exact Or.inl h1
        · exact Or.inr ⟨h1, h2⟩

theorem mem_of_mapGet {m : List (κ × α)} {k : κ} {v : α} (h : mapGet m k = some v) :
    (k, v) ∈ m := by
  induction m with
  | nil => cases h
  | cons e r ih =>
    obtain ⟨k1, v1⟩ := e
    by_cases h1 : k1 = k
    · simp only [mapGet, if_pos h1, Option.some.injEq] at h
      subst h1; subst h
      exact List.mem_cons_self _ _
    · simp only [mapGet, if_neg h1] at h
      exact List.mem_cons_of_mem _ (ih h)

theorem mapGet_eq_none {m : List (κ × α)} {k : κ} :
    mapGet m k = none ↔ ∀ e ∈ m, e.1 ≠ k := by
  induction m with
  | nil => simp [mapGet]
  | cons e r ih =>
    obtain ⟨k1, v1⟩ := e
    by_cases h1 : k1 = k
    · simp [mapGet, h1]
    · simp [mapGet, h1, ih]

theorem mapDel_of_none {m : List (κ × α)} {k : κ} (h : mapGet m k = none) : mapDel m k = m := by
  induction m with
  | nil => rfl
  | cons e r ih =>
    obtain ⟨k1, v1⟩ := e
    by_cases h1 : k1 = k
    · simp [mapGet, h1] at h
    · simp only [mapGet, if_neg h1] at h
      simp only [mapDel, if_neg h1, ih h]

theorem keys_mapDel_sublist (m : List (κ × α)) (k : κ) :
    ((mapDel m k).map Prod.fst).Sublist (m.map Prod.fst) := by
  induction m with
  | nil => exact List.Sublist.slnil
  | cons e r ih =>
    obtain ⟨k1, v1⟩ := e
    by_cases h1 : k1 = k
    · simp only [mapDel, if_pos h1, List.map_cons]
      exact List.Sublist.cons _ ih
    · simp only [mapDel, if_neg h1, List.map_cons]
      exact List.Sublist.cons₂ _ ih

theorem nodup_keys_mapDel {m : List (κ × α)} (k : κ) (h : (m.map Prod.fst).Nodup) :
    ((mapDel m k).map Prod.fst).Nodup :=
  List.Nodup.sublist (keys_mapDel_sublist m k) h

theorem nodup_keys_mapSet {m : List (κ × α)} (k : κ) (v : α) (h : (m.map Prod.fst).Nodup) :
    ((mapSet m k v).map Prod.fst).Nodup := by
  simp only [mapSet, List.map_cons, List.nodup_cons]
  refine ⟨?_, nodup_keys_mapDel k h⟩
  intro hmem
  obtain ⟨e, he, hk⟩ := List.mem_map.mp hmem
  exact (mem_mapDel.mp he).2 hk

theorem mem_mapSet {m : List (κ × α)} {k : κ} {v : α} {e : κ × α} :
    e ∈ mapSet m k v ↔ e = (k, v) ∨ (e ∈ m ∧ e.1 ≠ k) := by
  simp only [mapSet, List.mem_cons, mem_mapDel]

theorem mapGet_of_mem {m : List (κ × α)} {k : κ} {v : α} (hnd : (m.map Prod.fst).Nodup)
    (h : (k, v) ∈ m) : mapGet m k = some v := by
  induction m with
  | nil => cases h
  | cons e r ih =>
    obtain ⟨k1, v1⟩ := e
    simp only [List.map_cons, List.nodup_cons] at hnd
    rcases List.mem_cons.mp h with h1 | h1
    · cases h1
      simp only [mapGet, if_true]
    · have hk : k1 ≠ k := by
        intro hk; subst hk
        exact hnd.1 (List.mem_map.mpr ⟨(k1, v), h1, rfl⟩)
      simp only [mapGet, if_neg hk]
      exact ih hnd.2 h1

end Maps

/-! ## Arithmetic of the link count -/

theorem wrap32_succ_mod (e : Nat) : wrap32 ((e % 2 ^ 32 : Nat) + 1) = (e + 1) % 2 ^ 32 := by
  unfold wrap32; omega

theorem wrap32_pred_mod {e : Nat} (h : 0 < e) :
    wrap32 ((e % 2 ^ 32 : Nat) - 1) = (e - 1) % 2 ^ 32 := by
  unfold wrap32; omega

theorem wrap32_succ_of_lt {x : Nat} (h : x + 1 < 2 ^ 32) : wrap32 (x + 1) = x + 1 := by
  unfold wrap32; omega

theorem wrap32_pred_of_pos {x : Nat} (h0 : 0 < x) (h : x < 2 ^ 32) :
    (wrap32 (x - 1) : Int) = x - 1 := by
  unfold wrap32; omega

theorem wrap32_lt (x : Int) : wrap32 x < 2 ^ 32 := by
  unfold wrap32; omega

/-! ## Arithmetic of `resize` -/

theorem wrap64_of_range {x : Int} (h1 : -2 ^ 63 ≤ x) (h2 : x < 2 ^ 63) : wrap64 x = x := by
  unfold wrap64; omega

theorem allocsize_ge {size : Int} (h0 : 0 ≤ size) (h1 : size + 65535 < 2 ^ 63) :
    size ≤ Int.tdiv (wrap64 (size + allocunit - 1)) allocunit * allocunit := by
  have : wrap64 (size + allocunit - 1) = size + 65535 := by
    rw [wrap64_of_range] <;> simp only [allocunit] <;> omega
  rw [this]
  simp only [allocunit]
  rw [Int.tdiv_eq_ediv (by omega) (by omega)]
  omega

theorem resize_ok_shape {ctx : Ctx} {sl d : slice_t} {size : Int}
    (h : resize ctx sl size true = .ok d) :
    0 ≤ size ∧ d.len = size.toNat ∧ size ≤ (d.cap : Int) := by
  unfold resize at h
  simp only [] at h
  split at h
  · split at h
    · cases h
    · rename_i h2
      split at h
      · cases h
      · simp only [Except.ok.injEq] at h
        subst h
        refine ⟨by omega, rfl, ?_⟩
        show size ≤ ((_ : Int).toNat : Int)
        omega
  · simp only [if_true] at h
    split at h
    · cases h
    · rename_i h2
      simp only [Except.ok.injEq] at h
      subst h
      refine ⟨by omega, rfl, ?_⟩
      show size ≤ (sl.cap : Int)
      omega

theorem allocsize_eq_roundUp {size : Int} (h0 : 0 ≤ size) (h1 : size + 65535 < 2 ^ 63) :
    Int.tdiv (wrap64 (size + allocunit - 1)) allocunit * allocunit = roundUp size := by
  have hw : wrap64 (size + allocunit - 1) = size + 65535 := by
    have : size + allocunit - 1 = size + 65535 := by unfold allocunit; omega
    rw [this]
    apply wrap64_of_range <;> omega
  rw [hw]
  unfold allocunit roundUp
  rw [Int.tdiv_eq_ediv (by omega) (by omega)]
  norm_num

theorem resize_ok_of_range (ctx : Ctx) (sl : slice_t) {size : Int} (h0 : 0 ≤ size)
    (h1 : size + 65535 < 2 ^ 63)
    (h2 : (sl.cap : Int) ≠ roundUp size → ctx.grants (roundUp size)) :
    ∃ d, resize ctx sl size true = .ok d ∧
      ∀ i, i < size.toNat → d.arr i = if i < sl.len then sl.arr i else 0 := by
  have hge := allocsize_ge h0 h1
  have hA := allocsize_eq_roundUp h0 h1
  unfold resize
  simp only []
  split
  · rename_i hc
    have h3 := h2 (by rw [← hA]; exact hc)
    unfold Ctx.grants at h3
    rw [if_neg (by omega), if_neg (by omega)]
    refine ⟨_, rfl, ?_⟩
    intro i hi
    simp only
    by_cases h : i < sl.len
    · rw [if_pos (by omega), if_pos h]
    · rw [if_neg (by omega), if_neg h]
  · rename_i hc
    simp only [if_true]
    have hc2 : (sl.cap : Int) = Int.tdiv (wrap64 (size + allocunit - 1)) allocunit * allocunit := by
      by_contra hne; exact hc hne
    rw [if_neg (by omega)]
    refine ⟨_, rfl, ?_⟩
    intro i hi
    simp only
    by_cases h : i < sl.len
    · rw [if_neg (by omega), if_pos h]
    · rw [if_pos (by omega), if_neg h]

end Cgofuse

namespace Cgofuse

/-! ## Path resolution -/

theorem lookupLoop_congr {h h2 : Nat → node_t} (hc : ∀ p, (h2 p).chld = (h p).chld)
    (anc : Ptr) (cs : List Bytes) (prnt : Ptr) (name : Bytes) (node : Ptr) :
    lookupLoop h2 anc cs prnt name node = lookupLoop h anc cs prnt name node := by
  induction cs generalizing prnt name node with
  | nil => rfl
  | cons c cs ih =>
    unfold lookupLoop
    by_cases hc0 : c ≠ []
    · rw [if_pos hc0, if_pos hc0]
      by_cases hl : 255 < c.length
      · rw [if_pos hl, if_pos hl]
      · rw [if_neg hl, if_neg hl]
        cases node with
        | none => rfl
        | some p =>
          simp only [node_t.child, hc p, ih]
    · rw [if_neg hc0, if_neg hc0]
      exact ih _ _ _

theorem lookupNode_upd_congr (s : Memfs) (p : Nat) (f : node_t → node_t)
    (hf : (f (s.heap p)).chld = (s.heap p).chld) (path : Bytes) (anc : Ptr) :
    (s.upd p f).lookupNode path anc = s.lookupNode path anc := by
  unfold Memfs.lookupNode
  have hr : (s.upd p f).root = s.root := rfl
  rw [hr]
  apply lookupLoop_congr
  intro q
  simp only [Memfs.upd]
  split
  · rename_i h; subst h; exact hf
  · rfl

/-- With an ancestor, the loop either stops at the ancestor with an empty name, or does what
it does without one. -/
theorem lookupLoop_anc (h : Nat → node_t) (a : Nat) (cs : List Bytes) (prnt : Ptr)
    (name : Bytes) (node : Ptr) :
    lookupLoop h (some a) cs prnt name node = lookupLoop h none cs prnt name node ∨
    ∃ p, lookupLoop h (some a) cs prnt name node = .ok (some p, [], some a) := by
  induction cs generalizing prnt name node with
  | nil => exact Or.inl rfl
  | cons c cs ih =>
    unfold lookupLoop
    by_cases hc0 : c ≠ []
    · rw [if_pos hc0, if_pos hc0]
      by_cases hl : 255 < c.length
      · rw [if_pos hl, if_pos hl]; exact Or.inl rfl
      · rw [if_neg hl, if_neg hl]
        cases node with
        | none => exact Or.inl rfl
        | some p =>
          simp only []
          by_cases hh : (h p).child c = some a
          · right
            refine ⟨p, ?_⟩
            rw [if_pos ⟨by simp, hh⟩, hh]
          · rw [if_neg (by simp [hh]), if_neg (by simp)]
            exact ih _ _ _
    · rw [if_neg hc0, if_neg hc0]
      exact ih _ _ _

/-- A result with a non-empty name was not cut short by the ancestor. -/
theorem lookupNode_anc_name {s : Memfs} {path : Bytes} {a : Nat} {pr : Ptr} {nm : Bytes}
    {nd : Ptr} (h : s.lookupNode path (some a) = .ok (pr, nm, nd)) (hnm : nm ≠ []) :
    s.lookupNode path none = .ok (pr, nm, nd) := by
  unfold Memfs.lookupNode at h ⊢
  rcases lookupLoop_anc s.heap a (split path) (some s.root) [] (some s.root) with h1 | ⟨p, h1⟩
  · rw [← h1]; exact h
  · rw [h1] at h
    simp only [Except.ok.injEq, Prod.mk.injEq] at h
    exact absurd h.2.1.symm hnm

/-- Without an ancestor, the loop ends on a slot of the graph, or on a missing parent. -/
theorem lookupLoop_slot (h : Nat → node_t) (root : Nat) (cs : List Bytes) {prnt : Ptr}
    {name : Bytes} {node : Ptr} {pr : Ptr} {nm : Bytes} {nd : Ptr}
    (h0 : Slot h root prnt name node)
    (hr : lookupLoop h none cs prnt name node = .ok (pr, nm, nd)) :
    Slot h root pr nm nd ∨ (nm ≠ [] ∧ pr = none ∧ nd = none) := by
  induction cs generalizing prnt name node with
  | nil =>
    simp only [lookupLoop, Except.ok.injEq, Prod.mk.injEq] at hr
    obtain ⟨h1, h2, h3⟩ := hr
    subst h1; subst h2; subst h3
    exact Or.inl h0
  | cons c cs ih =>
    unfold lookupLoop at hr
    by_cases hc0 : c ≠ []
    · rw [if_pos hc0] at hr
      by_cases hl : 255 < c.length
      · rw [if_pos hl] at hr; cases hr
      · rw [if_neg hl] at hr
        cases node with
        | none =>
          simp only [Except.ok.injEq, Prod.mk.injEq] at hr
          obtain ⟨h1, h2, h3⟩ := hr
          subst h1; subst h2; subst h3
          exact Or.inr ⟨hc0, rfl, rfl⟩
        | some p =>
          simp only [] at hr
          rw [if_neg (by simp)] at hr
          exact ih (Or.inr ⟨hc0, p, rfl, rfl⟩) hr
    · rw [if_neg hc0] at hr
      exact ih h0 hr

theorem lookupNode_slot {s : Memfs} {path : Bytes} {pr : Ptr} {nm : Bytes} {nd : Ptr}
    (hr : s.lookupNode path none = .ok (pr, nm, nd)) :
    Slot s.heap s.root pr nm nd ∨ (nm ≠ [] ∧ pr = none ∧ nd = none) :=
  lookupLoop_slot s.heap s.root (split path) (Or.inl ⟨rfl, rfl, rfl⟩) hr

/-- A node that was found has a parent. -/
theorem lookupNode_parent {s : Memfs} {path : Bytes} {pr : Ptr} {nm : Bytes} {n : Nat}
    (hr : s.lookupNode path none = .ok (pr, nm, some n)) : ∃ p, pr = some p := by
  rcases lookupNode_slot hr with h | h
  · rcases h with ⟨_, h, _⟩ | ⟨_, p, h, _⟩
    · exact ⟨_, h⟩
    · exact ⟨_, h⟩
  · cases h.2.2

/-- A missing node under an existing parent has a non-empty name. -/
theorem lookupNode_name {s : Memfs} {path : Bytes} {pr : Ptr} {nm : Bytes}
    (hr : s.lookupNode path none = .ok (pr, nm, none)) : nm ≠ [] := by
  rcases lookupNode_slot hr with h | h
  · rcases h with ⟨_, _, h⟩ | ⟨h, _⟩
    · cases h
    · exact h
  · exact h.1

end Cgofuse

namespace Cgofuse

/-! ## Well-formedness is kept by the primitive state changes -/

theorem child_lt {n : node_t} {nx : Nat} (h : n.chldOK nx) {c : Bytes} {q : Nat}
    (hq : n.child c = some q) : q < nx := by
  unfold node_t.child at hq
  cases hm : n.chld with
  | none => rw [hm] at hq; cases hq
  | some m =>
    rw [hm] at hq
    exact ((h m hm).1 _ (mem_of_mapGet hq)).1

theorem chldOK_mono {n : node_t} {nx ny : Nat} (hle : nx ≤ ny) (h : n.chldOK nx) :
    n.chldOK ny := by
  intro m hm
  refine ⟨fun e he => ⟨Nat.lt_of_lt_of_le ((h m hm).1 e he).1 hle, ((h m hm).1 e he).2⟩,
    (h m hm).2⟩

theorem WF.upd_node {s : Memfs} (h : WF s) (p : Nat) (f : node_t → node_t)
    (hd : (f (s.heap p)).dataOK) (hc : (f (s.heap p)).chldOK s.next) : WF (s.upd p f) where
  root_lt := h.root_lt
  data := by
    intro q
    simp only [Memfs.upd]
    split
    · exact hd
    · exact h.data q
  chld := by
    intro q
    simp only [Memfs.upd]
    split
    · exact hc
    · exact h.chld q
  open_lt := h.open_lt

theorem WF.upd_stat {s : Memfs} (h : WF s) (p : Nat) (f : node_t → node_t)
    (hd : ∀ n, (f n).data = n.data) (hs : ∀ n, (f n).stat.Size = n.stat.Size)
    (hc : ∀ n, (f n).chld = n.chld) : WF (s.upd p f) := by
  apply h.upd_node
  · have := h.data p
    simp only [node_t.dataOK, hd, hs] at this ⊢
    exact this
  · have := h.chld p
    simp only [node_t.chldOK, hc] at this ⊢
    exact this

theorem WF.upd_chld {s : Memfs} (h : WF s) (p : Nat) (f : node_t → node_t)
    (hd : ∀ n, (f n).data = n.data) (hs : ∀ n, (f n).stat.Size = n.stat.Size)
    (hc : (f (s.heap p)).chldOK s.next) : WF (s.upd p f) := by
  apply h.upd_node _ _ _ hc
  have := h.data p
  simp only [node_t.dataOK, hd, hs] at this ⊢
  exact this

theorem WF.alloc {s : Memfs} (h : WF s) (n : node_t) (hd : n.dataOK)
    (hc : n.chldOK (s.next + 1)) : WF (s.alloc n).2 where
  root_lt := Nat.lt_succ_of_lt h.root_lt
  data := by
    intro q
    simp only [Memfs.alloc]
    split
    · exact hd
    · exact h.data q
  chld := by
    intro q
    simp only [Memfs.alloc]
    split
    · exact hc
    · exact chldOK_mono (Nat.le_succ _) (h.chld q)
  open_lt := fun e he => Nat.lt_succ_of_lt (h.open_lt e he)

theorem WF.set_ino {s : Memfs} (h : WF s) (k : Nat) : WF { s with ino := k } :=
  ⟨h.root_lt, h.data, h.chld, h.open_lt⟩

theorem WF.set_openmap {s : Memfs} (h : WF s) (m : List (Nat × Nat))
    (hm : ∀ e ∈ m, e.2 < s.next) : WF { s with openmap := m } :=
  ⟨h.root_lt, h.data, h.chld, hm⟩

theorem chldOK_mapSet {n : node_t} {nx : Nat} (h : n.chldOK nx) {m : List (Bytes × Nat)}
    (hm : n.chld = some m) {name : Bytes} {a : Nat} (hname : name ≠ []) (ha : a < nx)
    {n2 : node_t} (h2 : n2.chld = some (mapSet m name a)) : n2.chldOK nx := by
  intro m2 hm2
  rw [h2] at hm2
  cases hm2
  refine ⟨?_, nodup_keys_mapSet _ _ (h m hm).2⟩
  intro e he
  rcases mem_mapSet.mp he with h3 | ⟨h3, _⟩
  · subst h3; exact ⟨ha, hname⟩
  · exact (h m hm).1 e h3

theorem chldOK_mapDel {n : node_t} {nx : Nat} (h : n.chldOK nx) (name : Bytes)
    {n2 : node_t} (h2 : n2.chld = n.chld.map fun m => mapDel m name) : n2.chldOK nx := by
  intro m2 hm2
  rw [h2] at hm2
  cases hm : n.chld with
  | none => rw [hm] at hm2; cases hm2
  | some m =>
    rw [hm] at hm2
    cases hm2
    refine ⟨?_, nodup_keys_mapDel _ (h m hm).2⟩
    intro e he
    exact (h m hm).1 e (mem_mapDel.mp he).1

theorem lookupLoop_lt {h : Nat → node_t} {nx : Nat} (hch : ∀ p, (h p).chldOK nx)
    (anc : Ptr) (cs : List Bytes) {prnt : Ptr} {name : Bytes} {node : Ptr} {pr : Ptr}
    {nm : Bytes} {nd : Ptr} (hp : ∀ p, prnt = some p → p < nx)
    (hn : ∀ n, node = some n → n < nx)
    (hr : lookupLoop h anc cs prnt name node = .ok (pr, nm, nd)) :
    (∀ p, pr = some p → p < nx) ∧ (∀ n, nd = some n → n < nx) := by
  induction cs generalizing prnt name node with
  | nil =>
    simp only [lookupLoop, Except.ok.injEq, Prod.mk.injEq] at hr
    obtain ⟨h1, h2, h3⟩ := hr
    subst h1; subst h2; subst h3
    exact ⟨hp, hn⟩
  | cons c cs ih =>
    unfold lookupLoop at hr
    by_cases hc0 : c ≠ []
    · rw [if_pos hc0] at hr
      by_cases hl : 255 < c.length
      · rw [if_pos hl] at hr; cases hr
      · rw [if_neg hl] at hr
        cases node with
        | none =>
          simp only [Except.ok.injEq, Prod.mk.injEq] at hr
          obtain ⟨h1, h2, h3⟩ := hr
          subst h1; subst h2; subst h3
          exact ⟨fun p hp2 => (by cases hp2), fun n hn2 => (by cases hn2)⟩
        | some p =>
          simp only [] at hr
          have hplt : p < nx := hn p rfl
          have hclt : ∀ n, (h p).child c = some n → n < nx := fun n hn2 => child_lt (hch p) hn2
          split at hr
          · simp only [Except.ok.injEq, Prod.mk.injEq] at hr
            obtain ⟨h1, h2, h3⟩ := hr
            subst h1; subst h2; subst h3
            exact ⟨fun q hq => (by cases hq; exact hplt), hclt⟩
          · exact ih (fun q hq => (by cases hq; exact hplt)) hclt hr
    · rw [if_neg hc0] at hr
      exact ih hp hn hr

theorem WF.lookup_lt {s : Memfs} (h : WF s) {path : Bytes} {anc : Ptr} {pr : Ptr} {nm : Bytes}
    {nd : Ptr} (hr : s.lookupNode path anc = .ok (pr, nm, nd)) :
    (∀ p, pr = some p → p < s.next) ∧ (∀ n, nd = some n → n < s.next) :=
  lookupLoop_lt h.chld anc (split path) (fun p hp => (by cases hp; exact h.root_lt))
    (fun p hp => (by cases hp; exact h.root_lt)) hr

end Cgofuse

namespace Cgofuse

/-! ## Well-formedness is kept by every operation -/

theorem newNode_dataOK (dev ino mode uid gid : Nat) (t : Timespec) :
    (newNode dev ino mode uid gid t).dataOK := by
  simp [node_t.dataOK, newNode, nilSlice]

theorem newNode_chldOK (dev ino mode uid gid : Nat) (t : Timespec) (nx : Nat) :
    (newNode dev ino mode uid gid t).chldOK nx := by
  intro m hm
  simp only [newNode] at hm
  split at hm
  · cases hm; simp
  · cases hm

theorem WF.makeNode {s : Memfs} (h : WF s) (ctx : Ctx) (path : Bytes) (mode dev : Nat)
    (data : Option Bytes) : WF (s.makeNode ctx path mode dev data).2 := by
  unfold Memfs.makeNode
  split
  · exact h
  · rename_i prnt name node hl
    split
    · exact h
    · rename_i pp
      split
      · exact h
      · rename_i hnode
        have hnode2 : node = none := by
          by_contra hne; exact hnode hne
        subst hnode2
        have hname := lookupNode_name hl
        have hpp := (h.lookup_lt hl).1 pp rfl
        have h2 : ∀ n1 : node_t, n1.dataOK → n1.chldOK (s.next + 1) →
            WF (match (({ s with ino := s.ino + 1 }.alloc n1).2.heap pp).chld with
              | none => ((Except.error Panic.nilMapWrite : Except Panic Int),
                  ({ s with ino := s.ino + 1 }.alloc n1).2)
              | some m => (Except.ok 0, ({ s with ino := s.ino + 1 }.alloc n1).2.upd pp fun nd =>
                  { nd with chld := some (mapSet m name ({ s with ino := s.ino + 1 }.alloc n1).1)
                            stat := { nd.stat with
                              Ctim := (({ s with ino := s.ino + 1 }.alloc n1).2.heap
                                ({ s with ino := s.ino + 1 }.alloc n1).1).stat.Ctim
                              Mtim := (({ s with ino := s.ino + 1 }.alloc n1).2.heap
                                ({ s with ino := s.ino + 1 }.alloc n1).1).stat.Ctim } })).2 := by
          intro n1 hd hc
          have h3 : WF ({ s with ino := s.ino + 1 }.alloc n1).2 := (h.set_ino _).alloc n1 hd hc
          split
          · exact h3
          · rename_i m hm
            dsimp only
            refine WF.upd_chld h3 _ _ ?_ ?_ ?_
            · intro _; rfl
            · intro _; rfl
            · exact chldOK_mapSet (h3.chld pp) hm hname (Nat.lt_succ_self _) rfl
        cases data with
        | none =>
          refine h2 _ ?_ ?_
          · apply newNode_dataOK
          · apply newNode_chldOK
        | some d =>
          refine h2 _ ?_ ?_
          · simp [node_t.dataOK, sliceOf]
          · exact fun m hm => newNode_chldOK dev (s.ino + 1) mode ctx.uid ctx.gid ctx.now _ m hm

theorem WF.removeNode {s : Memfs} (h : WF s) (ctx : Ctx) (path : Bytes) (dir : Bool) :
    WF (s.removeNode ctx path dir).2 := by
  unfold Memfs.removeNode
  split
  · exact h
  · split
    · exact h
    · split
      · exact h
      · split
        · exact h
        · split
          · exact h
          · rename_i n _ _ _ _
            have h1 := h.upd_stat n (fun nd : node_t =>
              { nd with stat := { nd.stat with Nlink := wrap32 (nd.stat.Nlink - 1) } })
              (fun _ => rfl) (fun _ => rfl) (fun _ => rfl)
            split
            · exact h1
            · rename_i pp
              dsimp only
              refine WF.upd_stat ?_ _ _ (fun _ => rfl) (fun _ => rfl) (fun _ => rfl)
              refine WF.upd_stat ?_ _ _ (fun _ => rfl) (fun _ => rfl) (fun _ => rfl)
              refine WF.upd_chld h1 _ _ ?_ ?_ ?_
              · intro _; rfl
              · intro _; rfl
              · exact chldOK_mapDel (h1.chld _) _ rfl

theorem WF.Link {s : Memfs} (h : WF s) (ctx : Ctx) (oldpath newpath : Bytes) :
    WF (s.Link ctx oldpath newpath).2 := by
  unfold Memfs.Link
  split
  · exact h
  · rename_i hl1
    split
    · exact h
    · rename_i old
      have hold := (h.lookup_lt hl1).2 old rfl
      split
      · exact h
      · rename_i newprnt newname newnode hl2
        split
        · exact h
        · rename_i np
          split
          · exact h
          · rename_i hnode
            have hnode2 : newnode = none := by
              by_contra hne; exact hnode hne
            subst hnode2
            have hname := lookupNode_name hl2
            have h1 := h.upd_stat old (fun nd : node_t =>
              { nd with stat := { nd.stat with Nlink := wrap32 (nd.stat.Nlink + 1) } })
              (fun _ => rfl) (fun _ => rfl) (fun _ => rfl)
            dsimp only
            split
            · exact h1
            · rename_i m hm
              dsimp only
              refine WF.upd_stat ?_ _ _ (fun _ => rfl) (fun _ => rfl) (fun _ => rfl)
              refine WF.upd_stat ?_ _ _ (fun _ => rfl) (fun _ => rfl) (fun _ => rfl)
              refine WF.upd_chld h1 _ _ ?_ ?_ ?_
              · intro _; rfl
              · intro _; rfl
              · exact chldOK_mapSet (h1.chld np) hm hname hold rfl

theorem removeNode_next (s : Memfs) (ctx : Ctx) (path : Bytes) (dir : Bool) :
    (s.removeNode ctx path dir).2.next = s.next := by
  unfold Memfs.removeNode
  repeat' split
  all_goals rfl

theorem WF.moveEntry {s : Memfs} (h : WF s) (oldprnt : Ptr) (oldname : Bytes) (np : Nat)
    {newname : Bytes} {old : Nat} (hname : newname ≠ []) (hold : old < s.next) :
    WF (s.moveEntry oldprnt oldname np newname old).2 := by
  unfold Memfs.moveEntry
  split
  · exact h
  · rename_i op
    have h2 : WF (s.upd op fun nd =>
        { nd with chld := nd.chld.map fun m => mapDel m oldname }) := by
      refine WF.upd_chld h _ _ ?_ ?_ ?_
      · intro _; rfl
      · intro _; rfl
      · exact chldOK_mapDel (h.chld _) _ rfl
    dsimp only
    split
    · exact h2
    · rename_i m hm
      dsimp only
      refine WF.upd_chld h2 _ _ ?_ ?_ ?_
      · intro _; rfl
      · intro _; rfl
      · exact chldOK_mapSet (h2.chld np) hm hname hold rfl

theorem WF.Rename {s : Memfs} (h : WF s) (ctx : Ctx) (oldpath newpath : Bytes) :
    WF (s.Rename ctx oldpath newpath).2 := by
  unfold Memfs.Rename
  split
  · exact h
  · rename_i hl1
    split
    · exact h
    · rename_i old
      have hold := (h.lookup_lt hl1).2 old rfl
      split
      · exact h
      · rename_i newprnt newname newnode hl2
        split
        · exact h
        · rename_i np
          split
          · exact h
          · rename_i hname
            split
            · exact h
            · obtain ⟨hw, hnx⟩ : WF (if newnode ≠ none then
                    s.removeNode ctx newpath (s.heap old).isDir else (.ok 0, s)).2 ∧
                  (if newnode ≠ none then
                    s.removeNode ctx newpath (s.heap old).isDir else (.ok 0, s)).2.next = s.next := by
                split
                · exact ⟨h.removeNode _ _ _, removeNode_next _ _ _ _⟩
                · exact ⟨h, rfl⟩
              dsimp only
              generalize (if newnode ≠ none then
                    s.removeNode ctx newpath (s.heap old).isDir else (.ok 0, s)) = r at hw hnx
              obtain ⟨r1, s1⟩ := r
              cases r1 with
              | error e => exact hw
              | ok errc =>
                dsimp only
                split
                · exact hw
                · exact WF.moveEntry hw _ _ _ hname (by rw [hnx]; exact hold)

end Cgofuse

namespace Cgofuse

theorem WF.openNode {s : Memfs} (h : WF s) (path : Bytes) (dir : Bool) :
    WF (s.openNode path dir).2 := by
  unfold Memfs.openNode
  split
  · exact h
  · rename_i hl
    split
    · exact h
    · rename_i n
      have hn := (h.lookup_lt hl).2 n rfl
      split
      · exact h
      · split
        · exact h
        · have h1 := h.upd_stat n (fun nd : node_t => { nd with opencnt := nd.opencnt + 1 })
            (fun _ => rfl) (fun _ => rfl) (fun _ => rfl)
          dsimp only
          split
          · refine WF.set_openmap h1 _ ?_
            intro e he
            rcases mem_mapSet.mp he with h3 | ⟨h3, _⟩
            · subst h3; exact hn
            · exact h.open_lt e h3
          · exact h1

theorem WF.closeNode {s : Memfs} (h : WF s) (fh : Nat) : WF (s.closeNode fh).2 := by
  unfold Memfs.closeNode
  split
  · exact h
  · rename_i n _
    have h1 := h.upd_stat n (fun nd : node_t => { nd with opencnt := nd.opencnt - 1 })
      (fun _ => rfl) (fun _ => rfl) (fun _ => rfl)
    dsimp only
    split
    · refine WF.set_openmap h1 _ ?_
      intro e he
      exact h.open_lt e (mem_mapDel.mp he).1
    · exact h1

theorem WF.Chmod {s : Memfs} (h : WF s) (ctx : Ctx) (path : Bytes) (mode : Nat) :
    WF (s.Chmod ctx path mode).2 := by
  unfold Memfs.Chmod
  repeat' split
  all_goals first
    | exact h
    | (dsimp only; refine WF.upd_stat h _ _ ?_ ?_ ?_ <;> (intro _; rfl))

theorem WF.Chown {s : Memfs} (h : WF s) (ctx : Ctx) (path : Bytes) (uid gid : Nat) :
    WF (s.Chown ctx path uid gid).2 := by
  unfold Memfs.Chown
  repeat' split
  all_goals first
    | exact h
    | (dsimp only; refine WF.upd_stat h _ _ ?_ ?_ ?_ <;> (intro _; rfl))

theorem WF.Utimens {s : Memfs} (h : WF s) (ctx : Ctx) (path : Bytes)
    (tmsp : Option (List Timespec)) : WF (s.Utimens ctx path tmsp).2 := by
  unfold Memfs.Utimens
  split
  · exact h
  · split
    · exact h
    · rename_i n _
      have h1 := h.upd_stat n (fun nd : node_t => { nd with stat := { nd.stat with Ctim := ctx.now } })
        (fun _ => rfl) (fun _ => rfl) (fun _ => rfl)
      dsimp only
      split
      · exact h1
      · (dsimp only; refine WF.upd_stat h1 _ _ ?_ ?_ ?_ <;> (intro _; rfl))
      · (dsimp only; refine WF.upd_stat h1 _ _ ?_ ?_ ?_ <;> (intro _; rfl))

theorem WF.Chflags {s : Memfs} (h : WF s) (ctx : Ctx) (path : Bytes) (flags : Nat) :
    WF (s.Chflags ctx path flags).2 := by
  unfold Memfs.Chflags
  repeat' split
  all_goals first
    | exact h
    | (dsimp only; refine WF.upd_stat h _ _ ?_ ?_ ?_ <;> (intro _; rfl))

theorem WF.Setcrtime {s : Memfs} (h : WF s) (ctx : Ctx) (path : Bytes) (tmsp : Timespec) :
    WF (s.Setcrtime ctx path tmsp).2 := by
  unfold Memfs.Setcrtime
  repeat' split
  all_goals first
    | exact h
    | (dsimp only; refine WF.upd_stat h _ _ ?_ ?_ ?_ <;> (intro _; rfl))

theorem WF.Setchgtime {s : Memfs} (h : WF s) (path : Bytes) (tmsp : Timespec) :
    WF (s.Setchgtime path tmsp).2 := by
  unfold Memfs.Setchgtime
  repeat' split
  all_goals first
    | exact h
    | (dsimp only; refine WF.upd_stat h _ _ ?_ ?_ ?_ <;> (intro _; rfl))

theorem WF.Setxattr {s : Memfs} (h : WF s) (path name value : Bytes) (flags : Int) :
    WF (s.Setxattr path name value flags).2 := by
  unfold Memfs.Setxattr
  repeat' split
  all_goals first
    | exact h
    | (dsimp only; refine WF.upd_stat h _ _ ?_ ?_ ?_ <;> (intro _; rfl))

theorem WF.Removexattr {s : Memfs} (h : WF s) (path name : Bytes) :
    WF (s.Removexattr path name).2 := by
  unfold Memfs.Removexattr
  repeat' split
  all_goals first
    | exact h
    | (dsimp only; refine WF.upd_stat h _ _ ?_ ?_ ?_ <;> (intro _; rfl))

theorem WF.Truncate {s : Memfs} (h : WF s) (ctx : Ctx) (path : Bytes) (size : Int) (fh : Nat) :
    WF (s.Truncate ctx path size fh).2 := by
  unfold Memfs.Truncate
  split
  · exact h
  · exact h
  · rename_i n _
    split
    · exact h
    · rename_i d hd
      obtain ⟨h0, h1, h2⟩ := resize_ok_shape hd
      dsimp only
      refine WF.upd_node h _ _ ?_ ?_
      · refine ⟨?_, ?_⟩
        · show size = (d.len : Int)
          omega
        · show d.len ≤ d.cap
          omega
      · exact h.chld n

theorem WF.Read {s : Memfs} (h : WF s) (ctx : Ctx) (path buff : Bytes) (ofst : Int) (fh : Nat) :
    WF (s.Read ctx path buff ofst fh).2 := by
  unfold Memfs.Read
  split
  · exact h
  · exact h
  · dsimp only
    repeat' split
    all_goals first
      | exact h
      | (dsimp only; refine WF.upd_stat h _ _ ?_ ?_ ?_ <;> (intro _; rfl))

theorem WF.Write {s : Memfs} (h : WF s) (ctx : Ctx) (path buff : Bytes) (ofst : Int) (fh : Nat) :
    WF (s.Write ctx path buff ofst fh).2 := by
  unfold Memfs.Write
  split
  · exact h
  · exact h
  · rename_i n _
    dsimp only
    split
    · exact h
    · rename_i s1 hs1
      have h1 : WF s1 := by
        split at hs1
        · split at hs1
          · cases hs1
          · rename_i d hd
            cases hs1
            obtain ⟨h0, h1, h2⟩ := resize_ok_shape hd
            refine WF.upd_node h _ _ ?_ ?_
            · refine ⟨?_, ?_⟩
              · show wrap64 (ofst + buff.length) = (d.len : Int)
                omega
              · show d.len ≤ d.cap
                omega
            · exact h.chld n
        · cases hs1
          exact h
      split
      · exact h1
      · dsimp only
        refine WF.upd_node h1 _ _ ?_ ?_
        · exact h1.data n
        · exact h1.chld n

theorem WF.step {s : Memfs} (h : WF s) (ctx : Ctx) (op : Op) : WF (s.step ctx op).2 := by
  cases op with
  | Mknod path mode dev => exact h.makeNode _ _ _ _ _
  | Mkdir path mode => exact h.makeNode _ _ _ _ _
  | Unlink path => exact h.removeNode _ _ _
  | Rmdir path => exact h.removeNode _ _ _
  | Link oldpath newpath => exact h.Link _ _ _
  | Symlink target newpath => exact h.makeNode _ _ _ _ _
  | Readlink path =>
    show WF (s.Readlink path).2
    unfold Memfs.Readlink
    repeat' split
    all_goals exact h
  | Rename oldpath newpath => exact h.Rename _ _ _
  | Chmod path mode => exact h.Chmod _ _ _
  | Chown path uid gid => exact h.Chown _ _ _ _
  | Utimens path tmsp => exact h.Utimens _ _ _
  | Open path flags => exact h.openNode _ _
  | Getattr path fh =>
    show WF (s.Getattr path fh).2
    unfold Memfs.Getattr
    repeat' split
    all_goals exact h
  | Truncate path size fh => exact h.Truncate _ _ _ _
  | Read path buff ofst fh => exact h.Read _ _ _ _ _
  | Write path buff ofst fh => exact h.Write _ _ _ _ _
  | Release path fh => exact h.closeNode _
  | Opendir path => exact h.openNode _ _
  | Readdir path fill ofst fh =>
    show WF (s.Readdir ctx path fill ofst fh).2
    unfold Memfs.Readdir
    repeat' split
    all_goals exact h
  | Releasedir path fh => exact h.closeNode _
  | Setxattr path name value flags => exact h.Setxattr _ _ _ _
  | Getxattr path name =>
    show WF (s.Getxattr path name).2
    unfold Memfs.Getxattr
    repeat' split
    all_goals exact h
  | Removexattr path name => exact h.Removexattr _ _
  | Listxattr path fill =>
    show WF (s.Listxattr ctx path fill).2
    unfold Memfs.Listxattr
    repeat' split
    all_goals exact h
  | Chflags path flags => exact h.Chflags _ _ _
  | Setcrtime path tmsp => exact h.Setcrtime _ _ _
  | Setchgtime path tmsp => exact h.Setchgtime _ _

theorem WF.init (now : Timespec) : WF (NewMemfs now) where
  root_lt := Nat.zero_lt_one
  data := by
    intro p
    simp only [NewMemfs]
    split
    · exact newNode_dataOK _ _ _ _ _ _
    · simp [node_t.dataOK, zeroNode, nilSlice]
  chld := by
    intro p
    simp only [NewMemfs]
    split
    · exact newNode_chldOK _ _ _ _ _ _ _
    · intro m hm; cases hm
  open_lt := by
    intro e he; cases he

/-- Every reachable state is well-formed. -/
theorem Reachable.wf {s : Memfs} (h : Reachable s) : WF s := by
  induction h with
  | init now => exact WF.init now
  | step ctx op _ ih => exact ih.step ctx op

end Cgofuse

namespace Cgofuse

/-! ## Payload operations -/

theorem upd_heap_same (s : Memfs) (p : Nat) (f : node_t → node_t) :
    (s.upd p f).heap p = f (s.heap p) := by
  simp only [Memfs.upd, if_true]

theorem upd_heap_ne (s : Memfs) {p q : Nat} (f : node_t → node_t) (h : q ≠ p) :
    (s.upd p f).heap q = s.heap q := by
  simp only [Memfs.upd, if_neg h]

theorem getNode_upd_congr (s : Memfs) (p : Nat) (f : node_t → node_t)
    (hf : (f (s.heap p)).chld = (s.heap p).chld) (path : Bytes) (fh : Nat) :
    (s.upd p f).getNode path fh = s.getNode path fh := by
  unfold Memfs.getNode
  rw [lookupNode_upd_congr s p f hf]
  rfl

theorem Truncate_eq {s : Memfs} {ctx : Ctx} {path : Bytes} {fh n : Nat}
    (hn : s.getNode path fh = .ok (some n)) {size : Int} {d : slice_t}
    (hd : resize ctx (s.heap n).data size true = .ok d) :
    s.Truncate ctx path size fh = (.ok 0, s.upd n fun nd =>
      { nd with data := d
                stat := { nd.stat with Size := size, Ctim := ctx.now, Mtim := ctx.now } }) := by
  unfold Memfs.Truncate
  rw [hn]
  dsimp only
  rw [hd]

theorem content_length (s : Memfs) (n : Nat) :
    (s.content n).length = (s.heap n).stat.Size.toNat := by
  simp [Memfs.content]

/-- C10 (as amended). For every reachable state, every node reached by path or handle with
content `C` of size `s`, and every target size `n ≥ 0` with `n + 65535 < 2^63`, in a call
during which `make` returns a buffer of the capacity `n` rounded up to 64 KiB (the capacity
is within the allocation limit of the run-time and the operating system has the memory) if
the payload does not have that capacity already: `Truncate` returns 0, the size becomes `n`,
and the content becomes the first `min(s, n)` bytes of `C` followed by `max(0, n - s)` zero
bytes. -/
theorem Truncate_zero_extension {s : Memfs} (hs : Reachable s) (ctx : Ctx) (path : Bytes)
    (fh n : Nat) (hn : s.getNode path fh = .ok (some n)) (size : Int) (h0 : 0 ≤ size)
    (h1 : size + 65535 < 2 ^ 63)
    (h2 : ((s.heap n).data.cap : Int) ≠ roundUp size → ctx.grants (roundUp size)) :
    (s.Truncate ctx path size fh).1 = .ok 0 ∧
    ((s.Truncate ctx path size fh).2.heap n).stat.Size = size ∧
    (s.Truncate ctx path size fh).2.content n =
      (s.content n).take size.toNat ++
        List.replicate (size.toNat - (s.content n).length) 0 := by
  obtain ⟨d, hd, harr⟩ := resize_ok_of_range ctx (s.heap n).data h0 h1 h2
  have hdat := hs.wf.data n
  rw [Truncate_eq hn hd]
  refine ⟨rfl, ?_, ?_⟩
  · simp only [upd_heap_same]
  · apply List.ext_getElem?
    intro i
    simp only [Memfs.content, upd_heap_same, List.getElem?_append, List.getElem?_take,
      List.getElem?_map, List.length_take, List.length_map, List.length_range,
      List.getElem?_replicate]
    have hsz : (s.heap n).stat.Size.toNat = (s.heap n).data.len := by
      rw [hdat.1]; rfl
    rw [hsz]
    by_cases hi : i < size.toNat
    · rw [List.getElem?_range hi]
      simp only [Option.map_some']
      rw [harr i hi]
      by_cases hi2 : i < (s.heap n).data.len
      · rw [if_pos hi2, if_pos (lt_min hi hi2), if_pos hi, List.getElem?_range hi2]
        rfl
      · have hmin : size.toNat ⊓ (s.heap n).data.len = (s.heap n).data.len :=
          min_eq_right (by omega)
        rw [hmin, if_neg hi2, if_neg hi2, if_pos (by omega)]
    · have : (List.range size.toNat)[i]? = none := by
        simp only [List.getElem?_eq_none_iff, List.length_range]; omega
      rw [this]
      rw [if_neg (by omega), if_neg (by omega)]
      rfl

end Cgofuse

namespace Cgofuse

theorem getNode_congr {s s2 : Memfs} (hc : ∀ q, (s2.heap q).chld = (s.heap q).chld)
    (ho : s2.openmap = s.openmap) (hr : s2.root = s.root) (path : Bytes) (fh : Nat) :
    s2.getNode path fh = s.getNode path fh := by
  unfold Memfs.getNode Memfs.lookupNode
  rw [lookupLoop_congr hc, ho, hr]

/-- What `Write` does when the end offset, rounded up to the allocation unit, does not
overflow, and `make` returns a buffer of that capacity if the file has to grow into a
payload of another capacity: it returns the number of bytes given, the size becomes the
larger of the old size and the end offset, and below the new size the payload holds the
written bytes at the offset, the old content elsewhere below the old size, and zero bytes in
between. -/
theorem Write_spec {s : Memfs} (hw : WF s) (ctx : Ctx) {path : Bytes} {fh n : Nat}
    (hn : s.getNode path fh = .ok (some n)) (buff : Bytes) {ofst : Int} (h0 : 0 ≤ ofst)
    (h1 : ofst + buff.length + 65535 < 2 ^ 63)
    (h2 : (s.heap n).stat.Size < ofst + buff.length →
      ((s.heap n).data.cap : Int) ≠ roundUp (ofst + buff.length) →
      ctx.grants (roundUp (ofst + buff.length))) :
    ∃ s2, s.Write ctx path buff ofst fh = (.ok buff.length, s2) ∧
      (∀ q, (s2.heap q).chld = (s.heap q).chld) ∧ s2.openmap = s.openmap ∧ s2.root = s.root ∧
      (s2.heap n).stat.Size = max (s.heap n).stat.Size (ofst + buff.length) ∧
      (s2.heap n).stat.Size ≤ (s2.heap n).data.cap ∧
      ∀ i, i < (s2.heap n).stat.Size.toNat →
        (s2.heap n).data.arr i =
          if ofst.toNat ≤ i ∧ i < ofst.toNat + buff.length then buff.getD (i - ofst.toNat) 0
          else if i < (s.heap n).stat.Size.toNat then (s.heap n).data.arr i else 0 := by
  have hdat := hw.data n
  have hwr : wrap64 (ofst + buff.length) = ofst + buff.length := by
    apply wrap64_of_range <;> omega
  have hk : min (ofst + (buff.length : Int) - ofst).toNat buff.length = buff.length := by
    omega
  have hsz : (s.heap n).stat.Size.toNat = (s.heap n).data.len := by
    rw [hdat.1]; rfl
  unfold Memfs.Write
  rw [hn]
  dsimp only
  rw [hwr, hk]
  by_cases hgt : ofst + buff.length > (s.heap n).stat.Size
  · obtain ⟨d, hd, harr⟩ := @resize_ok_of_range ctx (s.heap n).data (ofst + buff.length)
      (by omega) h1 (h2 hgt)
    obtain ⟨_, hlen, hcap⟩ := resize_ok_shape hd
    rw [if_pos hgt, hd]
    dsimp only
    rw [if_neg (by simp only [upd_heap_same]; omega)]
    refine ⟨_, rfl, ?_, rfl, rfl, ?_, ?_, ?_⟩
    · intro q
      simp only [Memfs.upd]
      split
      · rename_i h; subst h; simp
      · rfl
    · simp only [upd_heap_same]
      omega
    · simp only [upd_heap_same]
      exact hcap
    · intro i hi
      simp only [upd_heap_same] at hi ⊢
      by_cases hin : ofst.toNat ≤ i ∧ i < ofst.toNat + buff.length
      · rw [if_pos hin, if_pos hin]
      · rw [if_neg hin, if_neg hin, harr i hi, hsz]
  · rw [if_neg hgt]
    dsimp only
    rw [if_neg (by have := hdat.2; omega)]
    refine ⟨_, rfl, ?_, rfl, rfl, ?_, ?_, ?_⟩
    · intro q
      simp only [Memfs.upd]
      split
      · rename_i h; subst h; rfl
      · rfl
    · simp only [upd_heap_same]
      omega
    · simp only [upd_heap_same]
      have := hdat.2; omega
    · intro i hi
      simp only [upd_heap_same] at hi ⊢
      by_cases hin : ofst.toNat ≤ i ∧ i < ofst.toNat + buff.length
      · rw [if_pos hin, if_pos hin]
      · rw [if_neg hin, if_neg hin, if_pos hi]

/-- What `Read` does on a range that lies inside the file. -/
theorem Read_inside {s : Memfs} (ctx : Ctx) {path : Bytes} {fh n : Nat}
    (hn : s.getNode path fh = .ok (some n)) (buff : Bytes) {ofst : Int} (h0 : 0 ≤ ofst)
    (h1 : ofst + buff.length ≤ (s.heap n).stat.Size)
    (h2 : (s.heap n).stat.Size ≤ (s.heap n).data.cap) (h3 : ofst + buff.length < 2 ^ 63) :
    (s.Read ctx path buff ofst fh).1 =
      .ok ((buff.length : Int),
        (List.range buff.length).map fun i => (s.heap n).data.arr (ofst.toNat + i)) := by
  have hwr : wrap64 (ofst + buff.length) = ofst + buff.length := by
    apply wrap64_of_range <;> omega
  have hk : min buff.length (ofst + (buff.length : Int) - ofst).toNat = buff.length := by
    omega
  unfold Memfs.Read
  rw [hn]
  dsimp only
  rw [hwr, if_neg (by omega), if_neg (by omega), if_neg (by omega), hk]
  simp

end Cgofuse

namespace Cgofuse

theorem stA_reachable : Reachable stA :=
  Reachable.step ctx0 (.Mknod (str "/a") 0o100644 0) (Reachable.init t0)

/-- C1 (as amended). For every reachable state, every node reached by path (handle = all-ones)
or by an open handle, every byte string `B` and every offset `o ≥ 0` with
`o + |B| + 65535 < 2^63`, in a call during which `make` returns a buffer of the capacity
`o + |B|` rounded up to 64 KiB (the capacity is within the allocation limit of the run-time
and the operating system has the memory) if the file has to grow and its payload does not
have that capacity already:
`Write(p, B, o)` returns `|B|`, and a following `Read` at offset `o` into a buffer of length
`|B|` returns `|B|` and fills the buffer with exactly `B`. -/
theorem write_read_roundtrip {s : Memfs} (hs : Reachable s) (ctx ctx2 : Ctx) (path : Bytes)
    (fh n : Nat) (hn : s.getNode path fh = .ok (some n)) (B : Bytes) (ofst : Int)
    (h0 : 0 ≤ ofst) (h1 : ofst + B.length + 65535 < 2 ^ 63)
    (h2 : (s.heap n).stat.Size < ofst + B.length →
      ((s.heap n).data.cap : Int) ≠ roundUp (ofst + B.length) →
      ctx.grants (roundUp (ofst + B.length)))
    (buff : Bytes) (hb : buff.length = B.length) :
    (s.Write ctx path B ofst fh).1 = .ok (B.length : Int) ∧
    ((s.Write ctx path B ofst fh).2.Read ctx2 path buff ofst fh).1 =
      .ok ((B.length : Int), B) := by
  obtain ⟨s2, hw, hc, ho, hr, hsz, hcap, harr⟩ := Write_spec hs.wf ctx hn B h0 h1 h2
  rw [hw]
  refine ⟨rfl, ?_⟩
  have hn2 : s2.getNode path fh = .ok (some n) := by
    rw [getNode_congr hc ho hr]; exact hn
  have hs2 : WF s2 := by
    have := hs.wf.Write ctx path B ofst fh
    rw [hw] at this; exact this
  have hdat := hs.wf.data n
  have hsz0 : 0 ≤ (s.heap n).stat.Size := by rw [hdat.1]; omega
  dsimp only
  rw [Read_inside ctx2 hn2 buff h0 (by rw [hb, hsz]; omega) hcap (by rw [hb]; omega), hb]
  congr 2
  apply List.ext_getElem
  · simp
  · intro i hi1 hi2
    simp only [List.getElem_map, List.getElem_range]
    rw [harr _ (by rw [hsz]; omega), if_pos (by omega)]
    rw [List.getD_eq_getElem _ _ (by omega)]
    congr 1
    omega

/-- An instance of the round trip on the file `/a` of the example state. -/
theorem write_read_roundtrip_witness :
    (stA.Write ctx1 (str "/a") (str "hi") 0 noHandle).1 = .ok 2 ∧
    ((stA.Write ctx1 (str "/a") (str "hi") 0 noHandle).2.Read ctx1 (str "/a") [0, 0] 0
      noHandle).1 = .ok (2, str "hi") :=
  write_read_roundtrip stA_reachable ctx1 ctx1 (str "/a") noHandle 1 (by decide) (str "hi") 0
    (by decide) (by decide) (fun _ _ => by decide) [0, 0] (by decide)

/-- C1 fails as stated: on the regular file `/a` of the example state, a one-byte `Write` at
offset `2^63 - 2` does not return 1; rounding the new size up to the allocation unit
overflows and the call ends in `ENOSPC`, leaving the file empty. Nor does a one-byte `Write`
at offset `2^50 - 1`: the capacity is above the allocation limit of the run-time, and the
call ends in `ENOSPC` as well, whatever memory the operating system has. -/
theorem write_huge_offset_ENOSPC :
    Reachable stA ∧ stA.getNode (str "/a") noHandle = .ok (some 1) ∧
    (stA.heap 1).stat.Mode = 0o100644 ∧ (0 : Int) ≤ maxInt64 - 1 ∧
    (stA.Write ctx1 (str "/a") [1] (maxInt64 - 1) noHandle).1 =
      .error (.fuseError (-ENOSPC)) ∧
    (stA.Write ctx1 (str "/a") [1] (maxInt64 - 1) noHandle).1 ≠ .ok 1 ∧
    maxAlloc = 2 ^ 48 ∧
    (stA.Write ctxBig (str "/a") [1] (2 ^ 50 - 1) noHandle).1 =
      .error (.fuseError (-ENOSPC)) :=
  ⟨stA_reachable, by decide, by decide, by decide, by decide, by decide, by decide,
    by decide⟩

end Cgofuse

namespace Cgofuse

/-- C9 (as amended). For every reachable state, every existing node of size `s`, every
destination buffer and every offset `o ≥ s`, `Read` returns 0 and leaves the buffer as it
was; when `o > s` the whole engine state is unchanged; when `o = s` (and `o + |dst|` is in
the `int64` range) the state changes in exactly one place, the access time of the node, which
is set to the current time. -/
theorem Read_at_or_past_eof {s : Memfs} (hs : Reachable s) (ctx : Ctx) (path : Bytes)
    (fh n : Nat) (hn : s.getNode path fh = .ok (some n)) (buff : Bytes) (ofst : Int)
    (ho : (s.heap n).stat.Size ≤ ofst) :
    (s.Read ctx path buff ofst fh).1 = .ok (0, buff) ∧
    ((s.heap n).stat.Size < ofst → (s.Read ctx path buff ofst fh).2 = s) ∧
    ((s.heap n).stat.Size = ofst → ofst + buff.length < 2 ^ 63 →
      (s.Read ctx path buff ofst fh).2 =
        s.upd n fun nd => { nd with stat := { nd.stat with Atim := ctx.now } }) := by
  have hdat := hs.wf.data n
  have hsz0 : 0 ≤ (s.heap n).stat.Size := by rw [hdat.1]; omega
  have hcap : (s.heap n).stat.Size ≤ (s.heap n).data.cap := by
    rw [hdat.1]; have := hdat.2; omega
  unfold Memfs.Read
  rw [hn]
  dsimp only
  generalize hE : (if wrap64 (ofst + buff.length) > (s.heap n).stat.Size
    then (s.heap n).stat.Size else wrap64 (ofst + buff.length)) = E
  have hEle : E ≤ (s.heap n).stat.Size := by
    rw [← hE]; split <;> omega
  by_cases hlt : E < ofst
  · rw [if_pos hlt]
    refine ⟨rfl, fun _ => rfl, ?_⟩
    intro heq hrange
    exfalso
    have hwr : wrap64 (ofst + buff.length) = ofst + buff.length := by
      apply wrap64_of_range <;> omega
    rw [hwr] at hE
    split at hE <;> omega
  · have hEq : E = ofst := by omega
    rw [if_neg hlt, if_neg (by omega)]
    subst hEq
    have hk : min buff.length (E - E).toNat = 0 := by omega
    rw [hk]
    refine ⟨?_, fun h => absurd h (by omega), fun _ _ => rfl⟩
    simp

/-- An instance of `Read_at_or_past_eof`: the empty file `/a` of the example state, read at
offset 5. -/
theorem Read_at_or_past_eof_witness :
    (stA.Read ctx1 (str "/a") [7, 7] 5 noHandle).1 = .ok (0, [7, 7]) ∧
    ((stA.heap 1).stat.Size < 5 → (stA.Read ctx1 (str "/a") [7, 7] 5 noHandle).2 = stA) ∧
    ((stA.heap 1).stat.Size = 5 → (5 : Int) + ([7, 7] : Bytes).length < 2 ^ 63 →
      (stA.Read ctx1 (str "/a") [7, 7] 5 noHandle).2 =
        stA.upd 1 fun nd => { nd with stat := { nd.stat with Atim := ctx1.now } }) :=
  Read_at_or_past_eof stA_reachable ctx1 (str "/a") noHandle 1 (by decide) [7, 7] 5
    (by decide)

/-- C9 fails as stated: on the empty file `/a` of the example state (size 0), a `Read` at
offset 0 returns 0 but moves the access time of the file from 0 to 1. -/
theorem Read_at_eof_sets_atime :
    Reachable stA ∧ stA.getNode (str "/a") noHandle = .ok (some 1) ∧
    (stA.heap 1).stat.Size = 0 ∧
    (stA.Read ctx1 (str "/a") [7] 0 noHandle).1 = .ok (0, [7]) ∧
    (stA.heap 1).stat.Atim = ⟨0, 0⟩ ∧
    ((stA.Read ctx1 (str "/a") [7] 0 noHandle).2.heap 1).stat.Atim = ⟨1, 0⟩ ∧
    (stA.Read ctx1 (str "/a") [7] 0 noHandle).2 ≠ stA := by
  refine ⟨stA_reachable, by decide, by decide, by decide, by decide, by decide, ?_⟩
  intro h
  have h2 : ((stA.Read ctx1 (str "/a") [7] 0 noHandle).2.heap 1).stat.Atim =
      (stA.heap 1).stat.Atim := by rw [h]
  revert h2
  decide

/-- An instance of `Truncate_zero_extension`: the empty file `/a` grown to 4 bytes. -/
theorem Truncate_zero_extension_witness :
    (stA.Truncate ctx1 (str "/a") 4 noHandle).1 = .ok 0 ∧
    ((stA.Truncate ctx1 (str "/a") 4 noHandle).2.heap 1).stat.Size = 4 ∧
    (stA.Truncate ctx1 (str "/a") 4 noHandle).2.content 1 =
      (stA.content 1).take (4 : Int).toNat ++
        List.replicate ((4 : Int).toNat - (stA.content 1).length) 0 :=
  Truncate_zero_extension stA_reachable ctx1 (str "/a") noHandle 1 (by decide) 4
    (by decide) (by decide) (fun _ => by decide)

/-- C10 fails as stated: on the regular file `/a` of the example state, `Truncate` to the
size `2^63 - 1` does not return 0; rounding the size up to the allocation unit overflows and
the call ends in `ENOSPC`. Nor does `Truncate` to the size `2^50`: the capacity is above the
allocation limit of the run-time, and the call ends in `ENOSPC` as well, whatever memory the
operating system has. -/
theorem Truncate_maxInt64_ENOSPC :
    Reachable stA ∧ stA.getNode (str "/a") noHandle = .ok (some 1) ∧
    (stA.heap 1).stat.Mode = 0o100644 ∧ (0 : Int) ≤ maxInt64 ∧
    (stA.Truncate ctx1 (str "/a") maxInt64 noHandle).1 = .error (.fuseError (-ENOSPC)) ∧
    (stA.Truncate ctx1 (str "/a") maxInt64 noHandle).1 ≠ .ok 0 ∧
    maxAlloc = 2 ^ 48 ∧
    (stA.Truncate ctxBig (str "/a") (2 ^ 50) noHandle).1 = .error (.fuseError (-ENOSPC)) :=
  ⟨stA_reachable, by decide, by decide, by decide, by decide, by decide, by decide,
    by decide⟩

end Cgofuse

namespace Cgofuse

/-! ## The component length limit -/

theorem descend_none (h : Nat → node_t) (cs : List Bytes) : descend h none cs = none := by
  induction cs with
  | nil => rfl
  | cons c cs ih => simpa [descend] using ih

theorem descend_cons (h : Nat → node_t) (p : Nat) (c : Bytes) (cs : List Bytes) :
    descend h (some p) (c :: cs) = descend h ((h p).child c) cs := by
  simp [descend]

theorem dropLast_cons_of_ne {α : Type} (a : α) {l : List α} (h : l ≠ []) :
    (a :: l).dropLast = a :: l.dropLast := by
  cases l with
  | nil => exact absurd rfl h
  | cons b l => rfl

/-- When the loop of `lookupNode` (no ancestor) panics: exactly with `ENAMETOOLONG`, and
exactly when its first over-long component is reached. -/
theorem lookupLoop_error_iff (h : Nat → node_t) (cs : List Bytes) (prnt : Ptr) (name : Bytes)
    (node : Ptr) (e : Panic) :
    lookupLoop h none cs prnt name node = .error e ↔
      e = .fuseError (-ENAMETOOLONG) ∧
      ∃ pre c post, (cs.filter fun c => c ≠ []) = pre ++ c :: post ∧
        (∀ x ∈ pre, x.length ≤ 255) ∧ 255 < c.length ∧
        (pre = [] ∨ (descend h node pre.dropLast).isSome = true) := by
  induction cs generalizing prnt name node with
  | nil =>
    simp only [lookupLoop, List.filter_nil]
    constructor
    · intro h1; cases h1
    · rintro ⟨_, pre, c, post, h1, _⟩
      cases pre <;> cases h1
  | cons c cs ih =>
    unfold lookupLoop
    by_cases hc0 : c ≠ []
    · have hf : ((c :: cs).filter fun c => c ≠ []) = c :: cs.filter fun c => c ≠ [] := by
        rw [List.filter_cons_of_pos]; simpa using hc0
      rw [if_pos hc0, hf]
      by_cases hl : 255 < c.length
      · rw [if_pos hl]
        constructor
        · intro h1
          cases h1
          exact ⟨rfl, [], c, _, rfl, by simp, hl, Or.inl rfl⟩
        · rintro ⟨h1, _⟩
          rw [h1]
      · rw [if_neg hl]
        cases node with
        | none =>
          constructor
          · intro h1; cases h1
          · rintro ⟨_, pre, c2, post, h1, h2, h3, h4⟩
            exfalso
            cases pre with
            | nil =>
              simp only [List.nil_append, List.cons.injEq] at h1
              rw [← h1.1] at h3; exact hl h3
            | cons a pre =>
              rcases h4 with h4 | h4
              · cases h4
              · rw [descend_none] at h4; cases h4
        | some p =>
          simp only []
          rw [if_neg (by simp), ih]
          constructor
          · rintro ⟨h1, pre, c2, post, h2, h3, h4, h5⟩
            refine ⟨h1, c :: pre, c2, post, by rw [h2]; rfl, ?_, h4, Or.inr ?_⟩
            · intro x hx
              rcases List.mem_cons.mp hx with hx | hx
              · subst hx; omega
              · exact h3 x hx
            · rcases h5 with h5 | h5
              · subst h5; rfl
              · by_cases hp : pre = []
                · subst hp; rfl
                · rw [dropLast_cons_of_ne c hp, descend_cons]; exact h5
          · rintro ⟨h1, pre, c2, post, h2, h3, h4, h5⟩
            cases pre with
            | nil =>
              exfalso
              simp only [List.nil_append, List.cons.injEq] at h2
              rw [← h2.1] at h4; exact hl h4
            | cons a pre =>
              simp only [List.cons_append, List.cons.injEq] at h2
              obtain ⟨ha, h2⟩ := h2
              subst ha
              refine ⟨h1, pre, c2, post, h2, fun x hx => h3 x (List.mem_cons_of_mem _ hx), h4, ?_⟩
              by_cases hp : pre = []
              · exact Or.inl hp
              · right
                rcases h5 with h5 | h5
                · cases h5
                · rw [dropLast_cons_of_ne c hp, descend_cons] at h5; exact h5
    · have hf : ((c :: cs).filter fun c => c ≠ []) = cs.filter fun c => c ≠ [] := by
        rw [List.filter_cons_of_neg]; simpa using hc0
      rw [if_neg hc0, hf]
      exact ih _ _ _

/-- C8 (as amended). Path resolution without an ancestor fails with `ENAMETOOLONG` if and
only if the path has a non-empty component longer than 255 bytes and the components before
the predecessor of the first such component resolve to an existing node; the walk returns at
the first component that follows a missing one and does not look at the components after
it. It fails in no other way, and a path whose components are all at most 255 bytes long
(exactly 255 included) is resolved without failure. -/
theorem lookupNode_ENAMETOOLONG_iff (s : Memfs) (path : Bytes) :
    (s.lookupNode path none = .error (.fuseError (-ENAMETOOLONG)) ↔
      ∃ pre c post, comps path = pre ++ c :: post ∧ (∀ x ∈ pre, x.length ≤ 255) ∧
        255 < c.length ∧ (s.resolve pre.dropLast).isSome = true) ∧
    (∀ e, s.lookupNode path none = .error e → e = .fuseError (-ENAMETOOLONG)) ∧
    ((∀ c ∈ comps path, c.length ≤ 255) → ∃ r, s.lookupNode path none = .ok r) := by
  have key := lookupLoop_error_iff s.heap (split path) (some s.root) [] (some s.root)
  have hsome : ∀ pre : List Bytes, (pre = [] ∨ (descend s.heap (some s.root) pre.dropLast).isSome
      = true) ↔ (s.resolve pre.dropLast).isSome = true := by
    intro pre
    constructor
    · rintro (h | h)
      · subst h; rfl
      · exact h
    · exact Or.inr
  refine ⟨?_, ?_, ?_⟩
  · unfold Memfs.lookupNode comps
    rw [key]
    constructor
    · rintro ⟨_, pre, c, post, h1, h2, h3, h4⟩
      exact ⟨pre, c, post, h1, h2, h3, (hsome pre).mp h4⟩
    · rintro ⟨pre, c, post, h1, h2, h3, h4⟩
      exact ⟨rfl, pre, c, post, h1, h2, h3, (hsome pre).mpr h4⟩
  · intro e he
    exact ((key e).mp he).1
  · intro hall
    cases hr : s.lookupNode path none with
    | ok r => exact ⟨r, rfl⟩
    | error e =>
      exfalso
      obtain ⟨_, pre, c, post, h1, _, h3, _⟩ := (key e).mp hr
      have hmem : c ∈ comps path := by
        unfold comps; rw [h1]; simp
      have := hall c hmem
      omega

set_option maxRecDepth 100000

/-- C8 fails as stated: the path `/a/b/xxx…x` has a component of 256 bytes, but on a fresh
engine, where `/a` does not exist, its resolution returns at `b` with a missing parent, and
`Mknod` on it returns `-ENOENT`, not `ENAMETOOLONG`. -/
theorem lookupNode_long_component_ENOENT :
    (∃ c ∈ comps longPath, 255 < c.length) ∧
    (NewMemfs t0).lookupNode longPath none = .ok (none, str "b", none) ∧
    ((NewMemfs t0).Mknod ctx0 longPath 0o100644 0).1 = .ok (-ENOENT) := by
  refine ⟨?_, by decide, by decide⟩
  decide

end Cgofuse

namespace Cgofuse

/-! ## Rename and the loop guard -/

theorem stAF_reachable : Reachable stAF :=
  Reachable.step ctx0 (.Mknod (str "/f") 0o100644 0) stA_reachable

/-- C2, the failing input. On a fresh engine `/` resolves to the root directory and `/x` lies
inside its subtree, yet `Rename("/", "/x")` returns 0 instead of `-EINVAL` and enters the
root into its own children mapping: afterwards `/x`, `/x/x`, … all resolve to the root. -/
theorem Rename_root_into_own_subtree :
    (NewMemfs t0).lookupNode (str "/") none = .ok (some 0, [], some 0) ∧
    ((NewMemfs t0).heap 0).isDir = true ∧
    comps (str "/x") = comps (str "/") ++ [str "x"] ∧
    ((NewMemfs t0).Rename ctx1 (str "/") (str "/x")).1 = .ok 0 ∧
    (((NewMemfs t0).Rename ctx1 (str "/") (str "/x")).2.heap 0).child (str "x") = some 0 ∧
    ((NewMemfs t0).Rename ctx1 (str "/") (str "/x")).2.lookupNode (str "/x/x") none =
      .ok (some 0, str "x", some 0) := by
  decide

/-- C5, the failing input. On the example state with the regular files `/a` and `/f`,
`Rename("/a", "/f/b")` ends in a run-time panic (assignment into the `nil` children mapping
of `/f`) after it has removed the entry `a` from the root: `/a` resolved to node 1 before the
call and resolves to nothing after it. -/
theorem Rename_under_file_loses_entry :
    stAF.lookupNode (str "/a") none = .ok (some 0, str "a", some 1) ∧
    (stAF.Rename ctx1 (str "/a") (str "/f/b")).1 = .error .nilMapWrite ∧
    (stAF.Rename ctx1 (str "/a") (str "/f/b")).2.lookupNode (str "/a") none =
      .ok (some 0, str "a", none) ∧
    (stAF.Rename ctx1 (str "/a") (str "/f/b")).2 ≠ stAF := by
  refine ⟨by decide, by decide, by decide, ?_⟩
  intro h
  have h2 : (stAF.Rename ctx1 (str "/a") (str "/f/b")).2.lookupNode (str "/a") none =
      stAF.lookupNode (str "/a") none := by rw [h]
  revert h2
  decide

/-- C7, the failing input. On the example state the parent `/a` of the path `/a/b` is
present (a regular file) and `/a/b` itself is absent, yet `Mknod("/a/b", 0o100644, 0)` does
not return 0: it ends in a run-time panic (assignment into the `nil` children mapping of
`/a`), with the inode counter already advanced from 2 to 3 and `/a/b` still absent. -/
theorem Mknod_under_file_panics :
    stA.lookupNode (str "/a/b") none = .ok (some 1, str "b", none) ∧
    (∀ c ∈ comps (str "/a/b"), c.length ≤ 255) ∧
    (stA.Mknod ctx1 (str "/a/b") 0o100644 0).1 = .error .nilMapWrite ∧
    stA.ino = 2 ∧ (stA.Mknod ctx1 (str "/a/b") 0o100644 0).2.ino = 3 ∧
    (stA.Mknod ctx1 (str "/a/b") 0o100644 0).2.lookupNode (str "/a/b") none =
      .ok (some 1, str "b", none) := by
  decide

end Cgofuse

namespace Cgofuse

/-! ## What the namespace primitives do when they succeed -/

theorem child_mapDel {n n2 : node_t} {k : Bytes}
    (h2 : n2.chld = n.chld.map fun m => mapDel m k) (c : Bytes) :
    n2.child c = if c = k then none else n.child c := by
  unfold node_t.child
  rw [h2]
  cases n.chld with
  | none => simp
  | some m =>
    simp only [Option.map_some']
    by_cases hc : c = k
    · subst hc; rw [if_pos rfl, mapGet_mapDel_same]
    · rw [if_neg hc, mapGet_mapDel_ne m hc]

theorem child_mapSet {n n2 : node_t} {m : List (Bytes × Nat)} {k : Bytes} {v : Nat}
    (h1 : n.chld = some m) (h2 : n2.chld = some (mapSet m k v)) (c : Bytes) :
    n2.child c = if c = k then some v else n.child c := by
  unfold node_t.child
  rw [h2, h1]
  by_cases hc : c = k
  · subst hc; rw [if_pos rfl]; exact mapGet_mapSet_same m c v
  · rw [if_neg hc]; exact mapGet_mapSet_ne m v hc

theorem nchld_zero_child {n : node_t} (h : n.nchld = 0) (c : Bytes) : n.child c = none := by
  unfold node_t.nchld at h
  unfold node_t.child
  cases hm : n.chld with
  | none => rfl
  | some m =>
    rw [hm] at h
    simp only [List.length_eq_zero] at h
    subst h; rfl

/-- The state left by a successful `removeNode`. -/
theorem removeNode_ok {s : Memfs} {ctx : Ctx} {path : Bytes} {dir : Bool}
    (hret : (s.removeNode ctx path dir).1 = .ok 0) :
    ∃ pp nm n, s.lookupNode path none = .ok (some pp, nm, some n) ∧
      (s.heap n).nchld = 0 ∧
      (s.removeNode ctx path dir).2 =
        (((s.upd n fun nd => { nd with stat := { nd.stat with Nlink := wrap32 (nd.stat.Nlink - 1) } }).upd
          pp fun nd => { nd with chld := nd.chld.map fun m => mapDel m nm }).upd
          n fun nd => { nd with stat := { nd.stat with Ctim := ctx.now } }).upd
          pp fun nd => { nd with stat := { nd.stat with Ctim := ctx.now, Mtim := ctx.now } } := by
  unfold Memfs.removeNode at hret ⊢
  split at hret
  · cases hret
  · rename_i prnt name node hl
    rw [hl]
    dsimp only at hret ⊢
    split at hret
    · exact absurd (Except.ok.inj hret) (by decide)
    · rename_i n
      split at hret
      · exact absurd (Except.ok.inj hret) (by decide)
      · split at hret
        · exact absurd (Except.ok.inj hret) (by decide)
        · split at hret
          · exact absurd (Except.ok.inj hret) (by decide)
          · rename_i h1 h2 h3
            obtain ⟨pp, hpp⟩ := lookupNode_parent hl
            subst hpp
            rw [if_neg h1, if_neg h2, if_neg h3]
            exact ⟨pp, name, n, rfl, by omega, rfl⟩

/-- The state left by a successful `moveEntry`. -/
theorem moveEntry_ok {s : Memfs} {oldprnt : Ptr} {oldname : Bytes} {np : Nat}
    {newname : Bytes} {old : Nat}
    (hret : (s.moveEntry oldprnt oldname np newname old).1 = .ok 0) :
    ∃ op m, oldprnt = some op ∧
      ((s.upd op fun nd => { nd with chld := nd.chld.map fun m => mapDel m oldname }).heap
        np).chld = some m ∧
      (s.moveEntry oldprnt oldname np newname old).2 =
        (s.upd op fun nd => { nd with chld := nd.chld.map fun m => mapDel m oldname }).upd
          np fun nd => { nd with chld := some (mapSet m newname old) } := by
  unfold Memfs.moveEntry at hret ⊢
  split at hret
  · cases hret
  · rename_i op
    dsimp only at hret ⊢
    split at hret
    · cases hret
    · rename_i m hm
      exact ⟨op, m, rfl, hm, rfl⟩

end Cgofuse

namespace Cgofuse

theorem heap_upd (s : Memfs) (p q : Nat) (f : node_t → node_t) :
    (s.upd p f).heap q = if q = p then f (s.heap p) else s.heap q := rfl

/-- The children, link counts and the rest of the nodes after a successful `removeNode`. -/
theorem removeNode_state (s : Memfs) (now : Timespec) (pp n : Nat) (nm : Bytes) (q : Nat) :
    let s1 := (((s.upd n fun nd =>
        { nd with stat := { nd.stat with Nlink := wrap32 (nd.stat.Nlink - 1) } }).upd
        pp fun nd => { nd with chld := nd.chld.map fun m => mapDel m nm }).upd
        n fun nd => { nd with stat := { nd.stat with Ctim := now } }).upd
        pp fun nd => { nd with stat := { nd.stat with Ctim := now, Mtim := now } }
    (s1.heap q).chld =
        (if q = pp then (s.heap q).chld.map fun m => mapDel m nm else (s.heap q).chld) ∧
      (s1.heap q).stat.Nlink =
        (if q = n then wrap32 ((s.heap q).stat.Nlink - 1) else (s.heap q).stat.Nlink) ∧
      (s1.heap q).stat.Ino = (s.heap q).stat.Ino ∧ (s1.heap q).stat.Mode = (s.heap q).stat.Mode ∧
      (s1.heap q).stat.Size = (s.heap q).stat.Size ∧
      (s1.heap q).data = (s.heap q).data ∧ (s1.heap q).xatr = (s.heap q).xatr ∧
      (s1.heap q).opencnt = (s.heap q).opencnt := by
  intro s1
  simp only [s1, heap_upd]
  by_cases h1 : q = pp <;> by_cases h2 : q = n <;> by_cases h3 : pp = n <;> simp_all

theorem child_congr {n n2 : node_t} (h : n2.chld = n.chld) (c : Bytes) :
    n2.child c = n.child c := by
  unfold node_t.child; rw [h]

theorem removeNode_state_child (s : Memfs) (now : Timespec) (pp n : Nat) (nm : Bytes)
    (q : Nat) (c : Bytes) :
    (((((s.upd n fun nd =>
        { nd with stat := { nd.stat with Nlink := wrap32 (nd.stat.Nlink - 1) } }).upd
        pp fun nd => { nd with chld := nd.chld.map fun m => mapDel m nm }).upd
        n fun nd => { nd with stat := { nd.stat with Ctim := now } }).upd
        pp fun nd => { nd with stat := { nd.stat with Ctim := now, Mtim := now } }).heap
        q).child c = if q = pp ∧ c = nm then none else (s.heap q).child c := by
  have h := (removeNode_state s now pp n nm q).1
  by_cases hq : q = pp
  · rw [if_pos hq] at h
    rw [child_mapDel h]
    by_cases hc : c = nm
    · rw [if_pos hc, if_pos ⟨hq, hc⟩]
    · rw [if_neg hc, if_neg (fun hx => hc hx.2)]
  · rw [if_neg hq] at h
    rw [child_congr h, if_neg (fun hx => hq hx.1)]

/-- The children and the rest of the nodes after a successful `moveEntry`. -/
theorem moveEntry_state (s : Memfs) (op np old : Nat) (oname nname : Bytes)
    {m : List (Bytes × Nat)}
    (hm : ((s.upd op fun nd => { nd with chld := nd.chld.map fun m => mapDel m oname }).heap
      np).chld = some m) (q : Nat) :
    let s2 := (s.upd op fun nd => { nd with chld := nd.chld.map fun m => mapDel m oname }).upd
      np fun nd => { nd with chld := some (mapSet m nname old) }
    (∀ c, (s2.heap q).child c =
        if q = np ∧ c = nname then some old
        else if q = op ∧ c = oname then none else (s.heap q).child c) ∧
      (s2.heap q).stat = (s.heap q).stat ∧ (s2.heap q).data = (s.heap q).data ∧
      (s2.heap q).xatr = (s.heap q).xatr ∧ (s2.heap q).opencnt = (s.heap q).opencnt := by
  intro s2
  have hmid : ∀ c, ((s.upd op fun nd =>
      { nd with chld := nd.chld.map fun m => mapDel m oname }).heap q).child c =
      if q = op ∧ c = oname then none else (s.heap q).child c := by
    intro c
    rw [heap_upd]
    by_cases h1 : q = op
    · subst h1
      rw [if_pos rfl, @child_mapDel (s.heap q) _ oname rfl]
      by_cases h2 : c = oname
      · rw [if_pos h2, if_pos ⟨rfl, h2⟩]
      · rw [if_neg h2, if_neg (fun h => h2 h.2)]
    · rw [if_neg h1, if_neg (fun h => h1 h.1)]
  refine ⟨?_, ?_, ?_, ?_, ?_⟩
  · intro c
    by_cases h1 : q = np
    · subst h1
      have := @child_mapSet _ (s2.heap q) m nname old hm
        (by simp only [s2, heap_upd, if_true]) c
      rw [this]
      by_cases h2 : c = nname
      · rw [if_pos h2, if_pos ⟨rfl, h2⟩]
      · rw [if_neg h2, if_neg (fun h => h2 h.2)]
        exact hmid c
    · have : s2.heap q = (s.upd op fun nd =>
          { nd with chld := nd.chld.map fun m => mapDel m oname }).heap q := by
        simp only [s2, heap_upd, if_neg h1]
      rw [this, if_neg (fun h => h1 h.1)]
      exact hmid c
  all_goals
    simp only [s2, heap_upd]
    by_cases h1 : q = np <;> by_cases h2 : q = op <;> by_cases h3 : np = op <;> simp_all

/-- A walk that starts below a node without children ends there or loses its parent. -/
theorem lookupLoop_from_none (h : Nat → node_t) (anc : Ptr) (cs : List Bytes) (p : Nat)
    (c : Bytes) {pr : Ptr} {nm : Bytes} {nd : Ptr}
    (hr : lookupLoop h anc cs (some p) c none = .ok (pr, nm, nd)) :
    pr = none ∨ (pr = some p ∧ nm = c ∧ nd = none) := by
  induction cs with
  | nil =>
    simp only [lookupLoop, Except.ok.injEq, Prod.mk.injEq] at hr
    exact Or.inr ⟨hr.1.symm, hr.2.1.symm, hr.2.2.symm⟩
  | cons c2 cs ih =>
    unfold lookupLoop at hr
    by_cases hc0 : c2 ≠ []
    · rw [if_pos hc0] at hr
      by_cases hl : 255 < c2.length
      · rw [if_pos hl] at hr; cases hr
      · rw [if_neg hl] at hr
        simp only [Except.ok.injEq, Prod.mk.injEq] at hr
        exact Or.inl hr.1.symm
    · rw [if_neg hc0] at hr
      exact ih hr

/-- The walk along the new path of a successful `Rename` is the same after the move, up to
its last step, which now finds the moved node. -/
theorem lookupLoop_after_move {h h2 : Nat → node_t} {a T : Nat} {tn : Bytes} {tv : Ptr}
    (htn : tn ≠ []) (htv : (h T).child tn = tv)
    (hleaf : ∀ n, tv = some n → ∀ c, (h n).child c = none)
    (hsame : ∀ q c, c ≠ [] → (h q).child c ≠ some a → ¬(q = T ∧ c = tn) →
      (h2 q).child c = (h q).child c)
    (hnew : (h2 T).child tn = some a)
    (cs : List Bytes) {prnt : Ptr} {name : Bytes} {node node2 : Ptr} {x : Ptr}
    (hr : lookupLoop h (some a) cs prnt name node = .ok (some T, tn, x))
    (hrel : (node2 = node ∧ ¬(prnt = some T ∧ name = tn)) ∨
      (prnt = some T ∧ name = tn ∧ node = tv ∧ node2 = some a)) :
    lookupLoop h2 none cs prnt name node2 = .ok (some T, tn, some a) := by
  induction cs generalizing prnt name node node2 with
  | nil =>
    simp only [lookupLoop, Except.ok.injEq, Prod.mk.injEq] at hr ⊢
    rcases hrel with ⟨_, h2⟩ | ⟨h1, h2, _, h4⟩
    · exact absurd ⟨hr.1, hr.2.1⟩ h2
    · exact ⟨h1, h2, h4⟩
  | cons c cs ih =>
    unfold lookupLoop at hr ⊢
    by_cases hc0 : c ≠ []
    · rw [if_pos hc0] at hr ⊢
      by_cases hl : 255 < c.length
      · rw [if_pos hl] at hr; cases hr
      · rw [if_neg hl] at hr ⊢
        rcases hrel with ⟨h1, h2⟩ | ⟨h1, h2, h3, h4⟩
        · subst h1
          cases node2 with
          | none =>
            simp only [Except.ok.injEq, Prod.mk.injEq] at hr
            cases hr.1
          | some p =>
            simp only [] at hr ⊢
            rw [if_neg (by simp)]
            by_cases hh : (h p).child c = some a
            · rw [if_pos ⟨by simp, hh⟩] at hr
              simp only [Except.ok.injEq, Prod.mk.injEq] at hr
              exact absurd hr.2.1.symm htn
            · rw [if_neg (fun hx => hh hx.2)] at hr
              by_cases ht : p = T ∧ c = tn
              · obtain ⟨ht1, ht2⟩ := ht
                subst ht1; subst ht2
                exact ih hr (Or.inr ⟨rfl, rfl, htv, hnew⟩)
              · rw [hsame p c hc0 hh ht]
                exact ih hr (Or.inl ⟨rfl, fun hx => ht ⟨Option.some.inj hx.1, hx.2⟩⟩)
        · exfalso
          rw [h3] at hr
          cases hv : tv with
          | none =>
            rw [hv] at hr
            simp only [Except.ok.injEq, Prod.mk.injEq] at hr
            cases hr.1
          | some n =>
            rw [hv] at hr
            simp only [] at hr
            rw [hleaf n hv c, if_neg (by simp)] at hr
            rcases lookupLoop_from_none h (some a) cs n c hr with h5 | ⟨h5, h6, _⟩
            · cases h5
            · have hc := hleaf n hv c
              rw [← Option.some.inj h5, ← h6, htv, hv] at hc
              cases hc
    · rw [if_neg hc0] at hr ⊢
      exact ih hr hrel

end Cgofuse

namespace Cgofuse

/-- The ways in which `Rename` returns 0. -/
theorem Rename_ok {s : Memfs} {ctx : Ctx} {oldpath newpath : Bytes}
    (hret : (s.Rename ctx oldpath newpath).1 = .ok 0) :
    ∃ oprnt oname old np nname newnode,
      s.lookupNode oldpath none = .ok (oprnt, oname, some old) ∧
      s.lookupNode newpath (some old) = .ok (some np, nname, newnode) ∧ nname ≠ [] ∧
      ((oprnt = some np ∧ oname = nname ∧ (s.Rename ctx oldpath newpath).2 = s) ∨
       (¬(oprnt = some np ∧ oname = nname) ∧
        ((newnode = none ∧ (s.moveEntry oprnt oname np nname old).1 = .ok 0 ∧
            (s.Rename ctx oldpath newpath).2 = (s.moveEntry oprnt oname np nname old).2) ∨
         (newnode ≠ none ∧ (s.removeNode ctx newpath (s.heap old).isDir).1 = .ok 0 ∧
            ((s.removeNode ctx newpath (s.heap old).isDir).2.moveEntry
              oprnt oname np nname old).1 = .ok 0 ∧
            (s.Rename ctx oldpath newpath).2 =
              ((s.removeNode ctx newpath (s.heap old).isDir).2.moveEntry
                oprnt oname np nname old).2)))) := by
  unfold Memfs.Rename at hret ⊢
  cases hl1 : s.lookupNode oldpath none with
  | error e => rw [hl1] at hret; cases hret
  | ok r1 =>
    obtain ⟨oprnt, oname, oldnode⟩ := r1
    rw [hl1] at hret
    cases oldnode with
    | none => exact absurd (Except.ok.inj hret) (by decide)
    | some old =>
      dsimp only at hret ⊢
      cases hl2 : s.lookupNode newpath (some old) with
      | error e => rw [hl2] at hret; cases hret
      | ok r2 =>
        obtain ⟨newprnt, nname, newnode⟩ := r2
        rw [hl2] at hret
        cases newprnt with
        | none => exact absurd (Except.ok.inj hret) (by decide)
        | some np =>
          dsimp only at hret ⊢
          by_cases hnm : nname = []
          · rw [if_pos hnm] at hret
            exact absurd (Except.ok.inj hret) (by decide)
          · rw [if_neg hnm] at hret ⊢
            refine ⟨oprnt, oname, old, np, nname, newnode, rfl, hl2, hnm, ?_⟩
            by_cases hsame : oprnt = some np ∧ oname = nname
            · rw [if_pos hsame]
              exact Or.inl ⟨hsame.1, hsame.2, rfl⟩
            · rw [if_neg hsame] at hret ⊢
              right
              refine ⟨hsame, ?_⟩
              by_cases hnn : newnode ≠ none
              · rw [if_pos hnn] at hret ⊢
                right
                generalize s.removeNode ctx newpath (s.heap old).isDir = r at hret ⊢
                obtain ⟨r1, s1⟩ := r
                cases r1 with
                | error e => cases hret
                | ok errc =>
                  dsimp only at hret ⊢
                  by_cases he : errc ≠ 0
                  · rw [if_pos he] at hret
                    exact absurd (Except.ok.inj hret) he
                  · rw [if_neg he] at hret ⊢
                    have he2 : errc = 0 := by
                      by_contra hx; exact he hx
                    subst he2
                    exact ⟨hnn, rfl, hret, rfl⟩
              · rw [if_neg hnn] at hret ⊢
                left
                have hnn2 : newnode = none := by
                  by_contra hx; exact hnn hx
                dsimp only at hret ⊢
                rw [if_neg (by simp)] at hret ⊢
                exact ⟨hnn2, hret, rfl⟩

/-- A walk with an ancestor that ends with a non-empty name did not end on the ancestor. -/
theorem lookupLoop_anc_node (h : Nat → node_t) (a : Nat) (cs : List Bytes) {prnt : Ptr}
    {name : Bytes} {node : Ptr} {pr : Ptr} {nm : Bytes} {nd : Ptr}
    (hr : lookupLoop h (some a) cs prnt name node = .ok (pr, nm, nd)) (hnm : nm ≠ [])
    (h0 : name = [] ∨ node ≠ some a) : nd ≠ some a := by
  induction cs generalizing prnt name node with
  | nil =>
    simp only [lookupLoop, Except.ok.injEq, Prod.mk.injEq] at hr
    obtain ⟨_, h2, h3⟩ := hr
    subst h2; subst h3
    rcases h0 with h0 | h0
    · exact absurd h0 hnm
    · exact h0
  | cons c cs ih =>
    unfold lookupLoop at hr
    by_cases hc0 : c ≠ []
    · rw [if_pos hc0] at hr
      by_cases hl : 255 < c.length
      · rw [if_pos hl] at hr; cases hr
      · rw [if_neg hl] at hr
        cases node with
        | none =>
          simp only [Except.ok.injEq, Prod.mk.injEq] at hr
          rw [← hr.2.2]; simp
        | some p =>
          simp only [] at hr
          by_cases hh : (h p).child c = some a
          · rw [if_pos ⟨by simp, hh⟩] at hr
            simp only [Except.ok.injEq, Prod.mk.injEq] at hr
            exact absurd hr.2.1.symm hnm
          · rw [if_neg (fun hx => hh hx.2)] at hr
            exact ih hr (Or.inr hh)
    · rw [if_neg hc0] at hr
      exact ih hr h0

/-- The state left by a `Rename` that returned 0 on two different slots, relative to the
state before the call. -/
theorem Rename_move_state {s : Memfs} {ctx : Ctx} {oldpath newpath : Bytes}
    {oprnt : Ptr} {oname : Bytes} {old np : Nat} {nname : Bytes} {newnode : Ptr}
    (hl1 : s.lookupNode oldpath none = .ok (oprnt, oname, some old))
    (hl2 : s.lookupNode newpath (some old) = .ok (some np, nname, newnode))
    (hnm : nname ≠ []) (hdiff : ¬(oprnt = some np ∧ oname = nname))
    (hret : (s.Rename ctx oldpath newpath).1 = .ok 0) :
    ∃ op, oprnt = some op ∧ (s.Rename ctx oldpath newpath).2.root = s.root ∧
      (∀ q c, (((s.Rename ctx oldpath newpath).2).heap q).child c =
        if q = np ∧ c = nname then some old
        else if q = op ∧ c = oname then none else (s.heap q).child c) ∧
      (∀ q, (((s.Rename ctx oldpath newpath).2).heap q).stat.Nlink =
        if newnode = some q then wrap32 ((s.heap q).stat.Nlink - 1) else (s.heap q).stat.Nlink) ∧
      (∀ q, (((s.Rename ctx oldpath newpath).2).heap q).stat.Ino = (s.heap q).stat.Ino ∧
        (((s.Rename ctx oldpath newpath).2).heap q).data = (s.heap q).data ∧
        (((s.Rename ctx oldpath newpath).2).heap q).xatr = (s.heap q).xatr) ∧
      (∀ n, newnode = some n → (s.heap n).nchld = 0) := by
  obtain ⟨oprnt2, oname2, old2, np2, nname2, newnode2, h1, h2, _, hcase⟩ := Rename_ok hret
  rw [hl1] at h1
  simp only [Except.ok.injEq, Prod.mk.injEq, Option.some.injEq] at h1
  obtain ⟨e1, e2, e3⟩ := h1
  subst e1; subst e2; subst e3
  rw [hl2] at h2
  simp only [Except.ok.injEq, Prod.mk.injEq, Option.some.injEq] at h2
  obtain ⟨e1, e2, e3⟩ := h2
  subst e1; subst e2; subst e3
  have hl3 := lookupNode_anc_name hl2 hnm
  rcases hcase with ⟨h1, h2, _⟩ | ⟨_, hcase⟩
  · exact absurd ⟨h1, h2⟩ hdiff
  rcases hcase with ⟨hnone, hmv, hst⟩ | ⟨hsome, hrm, hmv, hst⟩
  · subst hnone
    obtain ⟨op, m, hop, hm, hst2⟩ := moveEntry_ok hmv
    subst hop
    rw [hst, hst2]
    have hms := moveEntry_state s op np old oname nname hm
    refine ⟨op, rfl, rfl, fun q c => (hms q).1 c, ?_, ?_, ?_⟩
    · intro q
      rw [if_neg (by simp), (hms q).2.1]
    · intro q
      rw [(hms q).2.1, (hms q).2.2.1, (hms q).2.2.2.1]
      exact ⟨rfl, rfl, rfl⟩
    · intro n hn; cases hn
  · obtain ⟨pp, nm, n, hl4, hleaf, hrs⟩ := removeNode_ok hrm
    rw [hl3] at hl4
    simp only [Except.ok.injEq, Prod.mk.injEq, Option.some.injEq] at hl4
    obtain ⟨e1, e2, e3⟩ := hl4
    subst e1; subst e2; subst e3
    rw [hst]
    rw [hrs] at hmv ⊢
    obtain ⟨op, m, hop, hm, hst2⟩ := moveEntry_ok hmv
    subst hop
    rw [hst2]
    have hms := moveEntry_state _ op np old oname nname hm
    have hrs2 := removeNode_state s ctx.now np n nname
    refine ⟨op, rfl, rfl, ?_, ?_, ?_, ?_⟩
    · intro q c
      rw [(hms q).1 c]
      by_cases hq : q = np ∧ c = nname
      · rw [if_pos hq, if_pos hq]
      · rw [if_neg hq, if_neg hq]
        by_cases hq2 : q = op ∧ c = oname
        · rw [if_pos hq2, if_pos hq2]
        · rw [if_neg hq2, if_neg hq2]
          rw [removeNode_state_child s ctx.now np n nname q c, if_neg hq]
    · intro q
      rw [(hms q).2.1, (hrs2 q).2.1]
      by_cases hq : q = n
      · rw [if_pos hq, if_pos (by rw [hq])]
      · rw [if_neg hq, if_neg (fun hx => hq (Option.some.inj hx).symm)]
    · intro q
      rw [(hms q).2.1, (hms q).2.2.1, (hms q).2.2.2.1]
      exact ⟨(hrs2 q).2.2.1, (hrs2 q).2.2.2.2.2.1, (hrs2 q).2.2.2.2.2.2.1⟩
    · intro n2 hn2
      cases hn2
      exact hleaf

end Cgofuse

namespace Cgofuse

section
set_option linter.unusedTactic false
set_option linter.unreachableTactic false

/-! ## Link counts stay `uint32` values -/

theorem NlinkU32_upd {s : Memfs} (h : NlinkU32 s) (p : Nat) (f : node_t → node_t)
    (hf : (f (s.heap p)).stat.Nlink = (s.heap p).stat.Nlink) : NlinkU32 (s.upd p f) := by
  intro q
  rw [heap_upd]
  split
  · rw [hf]; exact h p
  · exact h q

theorem NlinkU32_upd_lt {s : Memfs} (h : NlinkU32 s) (p : Nat) (f : node_t → node_t)
    (hf : (f (s.heap p)).stat.Nlink < 2 ^ 32) : NlinkU32 (s.upd p f) := by
  intro q
  rw [heap_upd]
  split
  · exact hf
  · exact h q

theorem NlinkU32_alloc {s : Memfs} (h : NlinkU32 s) (n1 : node_t) (hn : n1.stat.Nlink = 1) :
    NlinkU32 ({ s with ino := s.ino + 1 }.alloc n1).2 := by
  intro q
  show (if q = s.next then n1 else s.heap q).stat.Nlink < 2 ^ 32
  split
  · rw [hn]; decide
  · exact h q

theorem nlinkU32_makeNode {s : Memfs} (h : NlinkU32 s) (ctx : Ctx) (path : Bytes) (mode dev : Nat)
    (data : Option Bytes) : NlinkU32 (s.makeNode ctx path mode dev data).2 := by
  unfold Memfs.makeNode
  cases data <;>
  repeat' first
    | split
    | (dsimp only; split)
  all_goals (try dsimp only)
  all_goals first
    | exact h
    | exact NlinkU32_alloc h _ rfl
    | (refine NlinkU32_upd (NlinkU32_alloc h _ rfl) _ _ rfl)

theorem nlinkU32_removeNode {s : Memfs} (h : NlinkU32 s) (ctx : Ctx) (path : Bytes) (dir : Bool) :
    NlinkU32 (s.removeNode ctx path dir).2 := by
  unfold Memfs.removeNode
  repeat' first
    | split
    | (dsimp only; split)
  all_goals (try dsimp only)
  repeat' first
    | exact h
    | (refine NlinkU32_upd ?_ _ _ rfl)
    | (refine NlinkU32_upd_lt ?_ _ _ (by dsimp only; exact wrap32_lt _))

theorem nlinkU32_Link {s : Memfs} (h : NlinkU32 s) (ctx : Ctx) (oldpath newpath : Bytes) :
    NlinkU32 (s.Link ctx oldpath newpath).2 := by
  unfold Memfs.Link
  repeat' first
    | split
    | (dsimp only; split)
  all_goals (try dsimp only)
  repeat' first
    | exact h
    | (refine NlinkU32_upd ?_ _ _ rfl)
    | (refine NlinkU32_upd_lt ?_ _ _ (by dsimp only; exact wrap32_lt _))

theorem nlinkU32_moveEntry {s : Memfs} (h : NlinkU32 s) (oldprnt : Ptr) (oldname : Bytes) (np : Nat)
    (newname : Bytes) (old : Nat) : NlinkU32 (s.moveEntry oldprnt oldname np newname old).2 := by
  unfold Memfs.moveEntry
  repeat' first
    | split
    | (dsimp only; split)
  all_goals (try dsimp only)
  repeat' first
    | exact h
    | (refine NlinkU32_upd ?_ _ _ rfl)
    | (refine NlinkU32_upd_lt ?_ _ _ (by dsimp only; exact wrap32_lt _))

theorem nlinkU32_Rename {s : Memfs} (h : NlinkU32 s) (ctx : Ctx) (oldpath newpath : Bytes) :
    NlinkU32 (s.Rename ctx oldpath newpath).2 := by
  unfold Memfs.Rename
  split
  · exact h
  · split
    · exact h
    · split
      · exact h
      · split
        · exact h
        · split
          · exact h
          · split
            · exact h
            · dsimp only
              split
              · rename_i e s1 hs1
                have h1 : NlinkU32 s1 := by
                  split at hs1
                  · have e2 := congrArg Prod.snd hs1
                    dsimp only at e2
                    rw [← e2]
                    exact nlinkU32_removeNode h _ _ _
                  · cases hs1
                exact h1
              · rename_i errc s1 hs1
                have h1 : NlinkU32 s1 := by
                  split at hs1
                  · have e2 := congrArg Prod.snd hs1
                    dsimp only at e2
                    rw [← e2]
                    exact nlinkU32_removeNode h _ _ _
                  · cases hs1; exact h
                split
                · exact h1
                · exact nlinkU32_moveEntry h1 _ _ _ _ _

theorem nlinkU32_openNode {s : Memfs} (h : NlinkU32 s) (path : Bytes) (dir : Bool) :
    NlinkU32 (s.openNode path dir).2 := by
  unfold Memfs.openNode
  split
  · exact h
  · split
    · exact h
    · rename_i n _
      split
      · exact h
      · split
        · exact h
        · have h1 : NlinkU32 (s.upd n fun nd => { nd with opencnt := nd.opencnt + 1 }) :=
            NlinkU32_upd h _ _ rfl
          dsimp only
          split
          · exact h1
          · exact h1

theorem nlinkU32_closeNode {s : Memfs} (h : NlinkU32 s) (fh : Nat) : NlinkU32 (s.closeNode fh).2 := by
  unfold Memfs.closeNode
  split
  · exact h
  · rename_i n _
    have h1 : NlinkU32 (s.upd n fun nd => { nd with opencnt := nd.opencnt - 1 }) :=
      NlinkU32_upd h _ _ rfl
    dsimp only
    split
    · exact h1
    · exact h1


theorem nlinkU32_Write {s : Memfs} (h : NlinkU32 s) (ctx : Ctx) (path buff : Bytes) (ofst : Int)
    (fh : Nat) : NlinkU32 (s.Write ctx path buff ofst fh).2 := by
  unfold Memfs.Write
  split
  · exact h
  · exact h
  · rename_i n _
    dsimp only
    split
    · exact h
    · rename_i s1 hs1
      have h1 : NlinkU32 s1 := by
        split at hs1
        · split at hs1
          · cases hs1
          · cases hs1
            exact NlinkU32_upd h _ _ rfl
        · cases hs1
          exact h
      split
      · exact h1
      · dsimp only
        exact NlinkU32_upd h1 _ _ rfl

/-- Every operation keeps the link counts of all nodes below `2^32`. -/
theorem nlinkU32_step {s : Memfs} (h : NlinkU32 s) (ctx : Ctx) (op : Op) :
    NlinkU32 (s.step ctx op).2 := by
  cases op with
  | Mknod path mode dev => exact nlinkU32_makeNode h _ _ _ _ _
  | Mkdir path mode => exact nlinkU32_makeNode h _ _ _ _ _
  | Symlink target newpath => exact nlinkU32_makeNode h _ _ _ _ _
  | Unlink path => exact nlinkU32_removeNode h _ _ _
  | Rmdir path => exact nlinkU32_removeNode h _ _ _
  | Link oldpath newpath => exact nlinkU32_Link h _ _ _
  | Rename oldpath newpath => exact nlinkU32_Rename h _ _ _
  | Open path flags => exact nlinkU32_openNode h _ _
  | Opendir path => exact nlinkU32_openNode h _ _
  | Release path fh => exact nlinkU32_closeNode h _
  | Releasedir path fh => exact nlinkU32_closeNode h _
  | Write path buff ofst fh => exact nlinkU32_Write h _ _ _ _ _
  | Readlink path =>
    show NlinkU32 (s.Readlink path).2
    unfold Memfs.Readlink
    repeat' first
      | split
      | (dsimp only; split)
    all_goals (try dsimp only)
    repeat' first
      | exact h
      | (refine NlinkU32_upd ?_ _ _ rfl)
  | Chmod path mode =>
    show NlinkU32 (s.Chmod ctx path mode).2
    unfold Memfs.Chmod
    repeat' first
      | split
      | (dsimp only; split)
    all_goals (try dsimp only)
    repeat' first
      | exact h
      | (refine NlinkU32_upd ?_ _ _ rfl)
  | Chown path uid gid =>
    show NlinkU32 (s.Chown ctx path uid gid).2
    unfold Memfs.Chown
    repeat' first
      | split
      | (dsimp only; split)
    all_goals (try dsimp only)
    repeat' first
      | exact h
      | (refine NlinkU32_upd ?_ _ _ rfl)
  | Utimens path tmsp =>
    show NlinkU32 (s.Utimens ctx path tmsp).2
    unfold Memfs.Utimens
    repeat' first
      | split
      | (dsimp only; split)
    all_goals (try dsimp only)
    repeat' first
      | exact h
      | (refine NlinkU32_upd ?_ _ _ rfl)
  | Getattr path fh =>
    show NlinkU32 (s.Getattr path fh).2
    unfold Memfs.Getattr
    repeat' first
      | split
      | (dsimp only; split)
    all_goals (try dsimp only)
    repeat' first
      | exact h
      | (refine NlinkU32_upd ?_ _ _ rfl)
  | Truncate path size fh =>
    show NlinkU32 (s.Truncate ctx path size fh).2
    unfold Memfs.Truncate
    repeat' first
      | split
      | (dsimp only; split)
    all_goals (try dsimp only)
    repeat' first
      | exact h
      | (refine NlinkU32_upd ?_ _ _ rfl)
  | Read path buff ofst fh =>
    show NlinkU32 (s.Read ctx path buff ofst fh).2
    unfold Memfs.Read
    repeat' first
      | split
      | (dsimp only; split)
    all_goals (try dsimp only)
    repeat' first
      | exact h
      | (refine NlinkU32_upd ?_ _ _ rfl)
  | Readdir path fill ofst fh =>
    show NlinkU32 (s.Readdir ctx path fill ofst fh).2
    unfold Memfs.Readdir
    repeat' first
      | split
      | (dsimp only; split)
    all_goals (try dsimp only)
    repeat' first
      | exact h
      | (refine NlinkU32_upd ?_ _ _ rfl)
  | Setxattr path name value flags =>
    show NlinkU32 (s.Setxattr path name value flags).2
    unfold Memfs.Setxattr
    repeat' first
      | split
      | (dsimp only; split)
    all_goals (try dsimp only)
    repeat' first
      | exact h
      | (refine NlinkU32_upd ?_ _ _ rfl)
  | Getxattr path name =>
    show NlinkU32 (s.Getxattr path name).2
    unfold Memfs.Getxattr
    repeat' first
      | split
      | (dsimp only; split)
    all_goals (try dsimp only)
    repeat' first
      | exact h
      | (refine NlinkU32_upd ?_ _ _ rfl)
  | Removexattr path name =>
    show NlinkU32 (s.Removexattr path name).2
    unfold Memfs.Removexattr
    repeat' first
      | split
      | (dsimp only; split)
    all_goals (try dsimp only)
    repeat' first
      | exact h
      | (refine NlinkU32_upd ?_ _ _ rfl)
  | Listxattr path fill =>
    show NlinkU32 (s.Listxattr ctx path fill).2
    unfold Memfs.Listxattr
    repeat' first
      | split
      | (dsimp only; split)
    all_goals (try dsimp only)
    repeat' first
      | exact h
      | (refine NlinkU32_upd ?_ _ _ rfl)
  | Chflags path flags =>
    show NlinkU32 (s.Chflags ctx path flags).2
    unfold Memfs.Chflags
    repeat' first
      | split
      | (dsimp only; split)
    all_goals (try dsimp only)
    repeat' first
      | exact h
      | (refine NlinkU32_upd ?_ _ _ rfl)
  | Setcrtime path tmsp =>
    show NlinkU32 (s.Setcrtime ctx path tmsp).2
    unfold Memfs.Setcrtime
    repeat' first
      | split
      | (dsimp only; split)
    all_goals (try dsimp only)
    repeat' first
      | exact h
      | (refine NlinkU32_upd ?_ _ _ rfl)
  | Setchgtime path tmsp =>
    show NlinkU32 (s.Setchgtime path tmsp).2
    unfold Memfs.Setchgtime
    repeat' first
      | split
      | (dsimp only; split)
    all_goals (try dsimp only)
    repeat' first
      | exact h
      | (refine NlinkU32_upd ?_ _ _ rfl)

theorem nlinkU32_init (now : Timespec) : NlinkU32 (NewMemfs now) := by
  intro p
  show (if p = 0 then _ else zeroNode).stat.Nlink < 2 ^ 32
  split
  · show 1 < 2 ^ 32
    decide
  · show 0 < 2 ^ 32
    decide

/-- In every reachable state the link count of every node is a `uint32` value. -/
theorem Reachable.nlinkU32 {s : Memfs} (hs : Reachable s) : NlinkU32 s := by
  induction hs with
  | init now => exact nlinkU32_init now
  | step ctx op _ ih => exact nlinkU32_step ih ctx op

end

end Cgofuse

namespace Cgofuse

/-- C4. Whenever `Rename(oldpath, newpath)` returns 0 on a state in which `oldpath` resolves
to the node `old` in the slot `(oprnt, oname)` and `newpath` names a different slot
`(np, nname)`: afterwards `newpath` resolves to `old`, whose inode, payload, xattrs and link
count are unchanged; `oname` is no longer found in the old parent; a node that sat at
`newpath` is no longer found there and its link count, a `uint32`, is one less (in a
reachable state exactly one less unless it was 0, which it is not where the count of a node
is the number of its entries); and every other directory entry of the graph is unchanged. -/
theorem Rename_success_postcondition {s : Memfs} (ctx : Ctx) (oldpath newpath : Bytes)
    {oprnt : Ptr} {oname : Bytes} {old np : Nat} {nname : Bytes} {newnode : Ptr}
    (hl1 : s.lookupNode oldpath none = .ok (oprnt, oname, some old))
    (hl2 : s.lookupNode newpath none = .ok (some np, nname, newnode))
    (hdiff : ¬(oprnt = some np ∧ oname = nname))
    (hret : (s.Rename ctx oldpath newpath).1 = .ok 0) :
    (s.Rename ctx oldpath newpath).2.lookupNode newpath none = .ok (some np, nname, some old) ∧
    (((s.Rename ctx oldpath newpath).2.heap old).stat.Ino = (s.heap old).stat.Ino ∧
      ((s.Rename ctx oldpath newpath).2.heap old).data = (s.heap old).data ∧
      ((s.Rename ctx oldpath newpath).2.heap old).xatr = (s.heap old).xatr ∧
      ((s.Rename ctx oldpath newpath).2.heap old).stat.Nlink = (s.heap old).stat.Nlink) ∧
    (∀ p, oprnt = some p → ((s.Rename ctx oldpath newpath).2.heap p).child oname = none) ∧
    (∀ n, newnode = some n →
      ((s.Rename ctx oldpath newpath).2.heap np).child nname ≠ some n ∧
      ((s.Rename ctx oldpath newpath).2.heap n).stat.Nlink =
        wrap32 ((s.heap n).stat.Nlink - 1) ∧
      (Reachable s → 0 < (s.heap n).stat.Nlink →
        ((s.Rename ctx oldpath newpath).2.heap n).stat.Nlink + 1 = (s.heap n).stat.Nlink)) ∧
    (∀ q c, ¬(oprnt = some q ∧ c = oname) → ¬(q = np ∧ c = nname) →
      ((s.Rename ctx oldpath newpath).2.heap q).child c = (s.heap q).child c) := by
  -- the second lookup of `Rename`, with the ancestor, agrees with `hl2`
  obtain ⟨oprnt2, oname2, old2, np2, nname2, newnode2, h1, h2, hnm, _⟩ := Rename_ok hret
  rw [hl1] at h1
  simp only [Except.ok.injEq, Prod.mk.injEq, Option.some.injEq] at h1
  obtain ⟨e1, e2, e3⟩ := h1
  subst e1; subst e2; subst e3
  have h3 := lookupNode_anc_name h2 hnm
  rw [hl2] at h3
  simp only [Except.ok.injEq, Prod.mk.injEq, Option.some.injEq] at h3
  obtain ⟨e1, e2, e3⟩ := h3
  subst e1; subst e2; subst e3
  have hne : newnode ≠ some old := by
    unfold Memfs.lookupNode at h2
    exact lookupLoop_anc_node s.heap old (split newpath) h2 hnm (Or.inl rfl)
  obtain ⟨op, hop, hroot, hchild, hnlink, hrest, hleaf⟩ :=
    Rename_move_state hl1 h2 hnm hdiff hret
  subst hop
  -- the slots named by the two paths
  have hslot1 : oname ≠ [] → (s.heap op).child oname = some old := by
    intro hon
    rcases lookupNode_slot hl1 with h | h
    · rcases h with ⟨h, _⟩ | ⟨_, p, hp, hnd⟩
      · exact absurd h hon
      · cases hp; exact hnd.symm
    · cases h.2.1
  have hslot2 : (s.heap np).child nname = newnode := by
    rcases lookupNode_slot hl2 with h | h
    · rcases h with ⟨h, _⟩ | ⟨_, p, hp, hnd⟩
      · exact absurd h hnm
      · cases hp; exact hnd.symm
    · cases h.2.1
  refine ⟨?_, ?_, ?_, ?_, ?_⟩
  · unfold Memfs.lookupNode at h2 ⊢
    rw [hroot]
    refine lookupLoop_after_move hnm hslot2 ?_ ?_ ?_ (split newpath) h2
      (Or.inl ⟨rfl, fun hx => hnm hx.2.symm⟩)
    · intro n hn c
      exact nchld_zero_child (hleaf n hn) c
    · intro q c hc hq hT
      rw [hchild q c, if_neg hT]
      by_cases hq2 : q = op ∧ c = oname
      · exfalso
        obtain ⟨hq3, hq4⟩ := hq2
        subst hq3; subst hq4
        exact hq (hslot1 hc)
      · rw [if_neg hq2]
    · rw [hchild np nname, if_pos ⟨rfl, rfl⟩]
  · refine ⟨(hrest old).1, (hrest old).2.1, (hrest old).2.2, ?_⟩
    rw [hnlink old, if_neg hne]
  · intro p hp
    cases hp
    rw [hchild op oname, if_neg (fun hx => hdiff ⟨by rw [hx.1], hx.2⟩), if_pos ⟨rfl, rfl⟩]
  · intro n hn
    subst hn
    have key : ((s.Rename ctx oldpath newpath).2.heap n).stat.Nlink =
        wrap32 ((s.heap n).stat.Nlink - 1) := by rw [hnlink n, if_pos rfl]
    refine ⟨?_, key, fun hs h0 => ?_⟩
    · rw [hchild np nname, if_pos ⟨rfl, rfl⟩]
      intro hx
      exact hne (by rw [Option.some.inj hx])
    · rw [key]
      have := wrap32_pred_of_pos h0 (hs.nlinkU32 n)
      omega
  · intro q c h1 h2
    rw [hchild q c, if_neg h2, if_neg (fun hx => h1 ⟨by rw [hx.1], hx.2⟩)]

/-- An instance of `Rename_success_postcondition`: on the example state with the files `/a`
(node 1) and `/f` (node 2), `Rename("/a", "/f")` returns 0; afterwards `/f` resolves to
node 1 and the link count of node 2 has gone from 1 to 0. -/
theorem Rename_success_postcondition_witness :
    stAF.lookupNode (str "/a") none = .ok (some 0, str "a", some 1) ∧
    stAF.lookupNode (str "/f") none = .ok (some 0, str "f", some 2) ∧
    (stAF.Rename ctx1 (str "/a") (str "/f")).1 = .ok 0 ∧
    (stAF.Rename ctx1 (str "/a") (str "/f")).2.lookupNode (str "/f") none =
      .ok (some 0, str "f", some 1) ∧
    (stAF.heap 2).stat.Nlink = 1 ∧
    ((stAF.Rename ctx1 (str "/a") (str "/f")).2.heap 2).stat.Nlink + 1 =
      (stAF.heap 2).stat.Nlink :=
  have h := @Rename_success_postcondition stAF ctx1 (str "/a") (str "/f")
    (some 0) (str "a") 1 0 (str "f") (some 2) (by decide) (by decide) (by decide) (by decide)
  ⟨by decide, by decide, by decide, h.1, by decide,
    (h.2.2.2.1 2 rfl).2.2 stAF_reachable (by decide)⟩

end Cgofuse

namespace Cgofuse

/-! ## Counting directory entries -/

theorem sum_range_congr (f g : Nat → Nat) (N : Nat) (h : ∀ d, d < N → g d = f d) :
    ((List.range N).map g).sum = ((List.range N).map f).sum := by
  congr 1
  apply List.map_congr_left
  intro d hd
  exact h d (List.mem_range.mp hd)

theorem sum_range_update (f g : Nat → Nat) (N d0 : Nat) (hd : d0 < N)
    (h : ∀ d, d ≠ d0 → g d = f d) :
    ((List.range N).map g).sum + f d0 = ((List.range N).map f).sum + g d0 := by
  induction N with
  | zero => omega
  | succ N ih =>
    simp only [List.range_succ, List.map_append, List.sum_append, List.map_cons, List.map_nil,
      List.sum_cons, List.sum_nil, Nat.add_zero]
    by_cases hN : d0 = N
    · subst hN
      have := sum_range_congr f g d0 (fun d hd2 => h d (by omega))
      omega
    · have := ih (by omega)
      have := h N (fun hx => hN hx.symm)
      omega

theorem countP_mapDel {m : List (Bytes × Nat)} (hnd : (m.map Prod.fst).Nodup) (k : Bytes)
    (p : Nat) :
    (mapDel m k).countP (fun e => decide (e.2 = p)) +
      (if mapGet m k = some p then 1 else 0) = m.countP fun e => decide (e.2 = p) := by
  induction m with
  | nil => simp [mapDel, mapGet]
  | cons e r ih =>
    obtain ⟨k1, v1⟩ := e
    simp only [List.map_cons, List.nodup_cons] at hnd
    by_cases hk : k1 = k
    · subst hk
      have hnone : mapGet r k1 = none := by
        rw [mapGet_eq_none]
        intro e he hek
        exact hnd.1 (List.mem_map.mpr ⟨e, he, hek⟩)
      simp only [mapDel, if_true, mapGet, mapDel_of_none hnone, List.countP_cons,
        Option.some.injEq]
      by_cases hv : v1 = p
      · simp [hv]
      · simp [hv]
    · have := ih hnd.2
      simp only [mapDel, if_neg hk, mapGet, List.countP_cons]
      omega

theorem countP_mapSet (m : List (Bytes × Nat)) (k : Bytes) (v p : Nat) :
    (mapSet m k v).countP (fun e => decide (e.2 = p)) =
      (if v = p then 1 else 0) + (mapDel m k).countP fun e => decide (e.2 = p) := by
  simp only [mapSet, List.countP_cons]
  by_cases hv : v = p
  · simp [hv]; omega
  · simp [hv]

theorem refs_congr {n n2 : node_t} (h : n2.chld = n.chld) (p : Nat) : n2.refs p = n.refs p := by
  unfold node_t.refs; rw [h]

/-- Deleting a name from a children mapping removes at most the one entry under it. -/
theorem refs_mapDel {n n2 : node_t} {nx : Nat} (hok : n.chldOK nx) {k : Bytes}
    (h2 : n2.chld = n.chld.map fun m => mapDel m k) (p : Nat) :
    n2.refs p + (if n.child k = some p then 1 else 0) = n.refs p := by
  unfold node_t.refs node_t.child
  rw [h2]
  cases hm : n.chld with
  | none => simp
  | some m =>
    simp only [Option.map_some']
    exact countP_mapDel (hok m hm).2 k p

/-- Setting a name that was absent adds one entry. -/
theorem refs_mapSet {n n2 : node_t} {m : List (Bytes × Nat)} (hm : n.chld = some m)
    {k : Bytes} {v : Nat} (hk : n.child k = none)
    (h2 : n2.chld = some (mapSet m k v)) (p : Nat) :
    n2.refs p = (if v = p then 1 else 0) + n.refs p := by
  unfold node_t.refs
  unfold node_t.child at hk
  rw [hm] at hk
  rw [h2, hm]
  simp only []
  rw [countP_mapSet, mapDel_of_none hk]

theorem entries_upd (s : Memfs) (p : Nat) (f : node_t → node_t) {d0 : Nat} (hd : d0 < s.next) :
    (s.upd d0 f).entries p + (s.heap d0).refs p = s.entries p + (f (s.heap d0)).refs p := by
  unfold Memfs.entries
  have := sum_range_update (fun d => (s.heap d).refs p) (fun d => ((s.upd d0 f).heap d).refs p)
    s.next d0 hd (fun d hne => by simp only [heap_upd, if_neg hne])
  simp only [heap_upd, if_true] at this
  exact this

theorem entries_congr {s s2 : Memfs} (hn : s2.next = s.next)
    (hc : ∀ q, (s2.heap q).chld = (s.heap q).chld) (p : Nat) : s2.entries p = s.entries p := by
  unfold Memfs.entries
  rw [hn]
  exact sum_range_congr _ _ _ (fun d _ => refs_congr (hc d) p)

/-- No entry references an address that has not been allocated. -/
theorem entries_fresh {s : Memfs} (hw : WF s) {p : Nat} (hp : s.next ≤ p) : s.entries p = 0 := by
  unfold Memfs.entries
  apply List.sum_eq_zero
  intro x hx
  obtain ⟨d, _, hd⟩ := List.mem_map.mp hx
  rw [← hd]
  unfold node_t.refs
  cases hm : (s.heap d).chld with
  | none => rfl
  | some m =>
    simp only [List.countP_eq_zero, decide_eq_true_eq]
    intro e he heq
    have := ((hw.chld d m hm).1 e he).1
    omega

end Cgofuse

namespace Cgofuse

/-! ## Operations that leave every children mapping and link count alone -/

theorem LinkEq.refl (s : Memfs) : LinkEq s s := ⟨rfl, rfl, fun _ => ⟨rfl, rfl⟩⟩

theorem LinkEq.trans {s s2 s3 : Memfs} (h1 : LinkEq s s2) (h2 : LinkEq s2 s3) : LinkEq s s3 :=
  ⟨h2.1.trans h1.1, h2.2.1.trans h1.2.1,
    fun q => ⟨((h2.2.2 q).1).trans (h1.2.2 q).1, ((h2.2.2 q).2).trans (h1.2.2 q).2⟩⟩

theorem LinkEq.upd (s : Memfs) (p : Nat) (f : node_t → node_t)
    (hc : ∀ n, (f n).chld = n.chld) (hl : ∀ n, (f n).stat.Nlink = n.stat.Nlink) :
    LinkEq s (s.upd p f) := by
  refine ⟨rfl, rfl, fun q => ?_⟩
  rw [heap_upd]
  split
  · rename_i h; subst h; exact ⟨hc _, hl _⟩
  · exact ⟨rfl, rfl⟩

theorem LinkEq.upd_of {s s2 : Memfs} (h : LinkEq s s2) (p : Nat) (f : node_t → node_t)
    (hc : ∀ n, (f n).chld = n.chld) (hl : ∀ n, (f n).stat.Nlink = n.stat.Nlink) :
    LinkEq s (s2.upd p f) :=
  h.trans (LinkEq.upd s2 p f hc hl)

theorem LinkEq.nlinkInv {s s2 : Memfs} (h : LinkEq s s2) (hi : NlinkInv s) : NlinkInv s2 := by
  intro p hp hr
  rw [h.1] at hp
  rw [h.2.1] at hr
  rw [(h.2.2 p).2, entries_congr h.1 (fun q => (h.2.2 q).1) p]
  exact hi p hp hr

theorem linkEq_openNode (s : Memfs) (path : Bytes) (dir : Bool) :
    LinkEq s (s.openNode path dir).2 := by
  unfold Memfs.openNode
  split
  · exact LinkEq.refl s
  · split
    · exact LinkEq.refl s
    · rename_i n _
      split
      · exact LinkEq.refl s
      · split
        · exact LinkEq.refl s
        · have h1 : LinkEq s (s.upd n fun nd => { nd with opencnt := nd.opencnt + 1 }) := by
            refine LinkEq.upd s _ _ ?_ ?_ <;> (intro _; rfl)
          dsimp only
          split
          · exact h1
          · exact h1

theorem linkEq_closeNode (s : Memfs) (fh : Nat) : LinkEq s (s.closeNode fh).2 := by
  unfold Memfs.closeNode
  split
  · exact LinkEq.refl s
  · rename_i n _
    have h1 : LinkEq s (s.upd n fun nd => { nd with opencnt := nd.opencnt - 1 }) := by
      refine LinkEq.upd s _ _ ?_ ?_ <;> (intro _; rfl)
    dsimp only
    split
    · exact h1
    · exact h1

theorem linkEq_Utimens (s : Memfs) (ctx : Ctx) (path : Bytes) (tmsp : Option (List Timespec)) :
    LinkEq s (s.Utimens ctx path tmsp).2 := by
  unfold Memfs.Utimens
  split
  · exact LinkEq.refl s
  · split
    · exact LinkEq.refl s
    · rename_i n _
      have h1 : LinkEq s (s.upd n fun nd =>
          { nd with stat := { nd.stat with Ctim := ctx.now } }) := by
        refine LinkEq.upd s _ _ ?_ ?_ <;> (intro _; rfl)
      dsimp only
      split
      · exact h1
      · dsimp only; refine LinkEq.upd_of h1 _ _ ?_ ?_ <;> (intro _; rfl)
      · dsimp only; refine LinkEq.upd_of h1 _ _ ?_ ?_ <;> (intro _; rfl)

theorem linkEq_Write (s : Memfs) (ctx : Ctx) (path buff : Bytes) (ofst : Int) (fh : Nat) :
    LinkEq s (s.Write ctx path buff ofst fh).2 := by
  unfold Memfs.Write
  split
  · exact LinkEq.refl s
  · exact LinkEq.refl s
  · rename_i n _
    dsimp only
    split
    · exact LinkEq.refl s
    · rename_i s1 hs1
      have h1 : LinkEq s s1 := by
        split at hs1
        · split at hs1
          · cases hs1
          · cases hs1
            refine LinkEq.upd s _ _ ?_ ?_ <;> (intro _; rfl)
        · cases hs1
          exact LinkEq.refl s
      split
      · exact h1
      · dsimp only
        refine LinkEq.upd_of h1 _ _ ?_ ?_ <;> (intro _; rfl)

/-- Every operation other than the seven namespace mutations leaves all children mappings
and link counts as they were. -/
theorem linkEq_step (s : Memfs) (ctx : Ctx) (op : Op)
    (hop : match op with
      | .Mknod _ _ _ | .Mkdir _ _ | .Symlink _ _ | .Unlink _ | .Rmdir _ | .Link _ _
      | .Rename _ _ => False
      | _ => True) :
    LinkEq s (s.step ctx op).2 := by
  cases op with
  | Mknod _ _ _ => exact absurd hop id
  | Mkdir _ _ => exact absurd hop id
  | Symlink _ _ => exact absurd hop id
  | Unlink _ => exact absurd hop id
  | Rmdir _ => exact absurd hop id
  | Link _ _ => exact absurd hop id
  | Rename _ _ => exact absurd hop id
  | Open path flags => exact linkEq_openNode s _ _
  | Opendir path => exact linkEq_openNode s _ _
  | Release path fh => exact linkEq_closeNode s _
  | Releasedir path fh => exact linkEq_closeNode s _
  | Utimens path tmsp => exact linkEq_Utimens s _ _ _
  | Write path buff ofst fh => exact linkEq_Write s _ _ _ _ _
  | Readlink path =>
    show LinkEq s (s.Readlink path).2
    unfold Memfs.Readlink
    repeat' split
    all_goals exact LinkEq.refl s
  | Getattr path fh =>
    show LinkEq s (s.Getattr path fh).2
    unfold Memfs.Getattr
    repeat' split
    all_goals exact LinkEq.refl s
  | Readdir path fill ofst fh =>
    show LinkEq s (s.Readdir ctx path fill ofst fh).2
    unfold Memfs.Readdir
    repeat' split
    all_goals exact LinkEq.refl s
  | Getxattr path name =>
    show LinkEq s (s.Getxattr path name).2
    unfold Memfs.Getxattr
    repeat' split
    all_goals exact LinkEq.refl s
  | Listxattr path fill =>
    show LinkEq s (s.Listxattr ctx path fill).2
    unfold Memfs.Listxattr
    repeat' split
    all_goals exact LinkEq.refl s
  | Chmod path mode =>
    show LinkEq s (s.Chmod ctx path mode).2
    unfold Memfs.Chmod
    repeat' split
    all_goals first
      | exact LinkEq.refl s
      | (dsimp only; refine LinkEq.upd s _ _ ?_ ?_ <;> (intro _; rfl))
  | Chown path uid gid =>
    show LinkEq s (s.Chown ctx path uid gid).2
    unfold Memfs.Chown
    repeat' split
    all_goals first
      | exact LinkEq.refl s
      | (dsimp only; refine LinkEq.upd s _ _ ?_ ?_ <;> (intro _; rfl))
  | Truncate path size fh =>
    show LinkEq s (s.Truncate ctx path size fh).2
    unfold Memfs.Truncate
    repeat' split
    all_goals first
      | exact LinkEq.refl s
      | (dsimp only; refine LinkEq.upd s _ _ ?_ ?_ <;> (intro _; rfl))
  | Read path buff ofst fh =>
    show LinkEq s (s.Read ctx path buff ofst fh).2
    unfold Memfs.Read
    split
    · exact LinkEq.refl s
    · exact LinkEq.refl s
    · dsimp only
      repeat' split
      all_goals first
        | exact LinkEq.refl s
        | (dsimp only; refine LinkEq.upd s _ _ ?_ ?_ <;> (intro _; rfl))
  | Setxattr path name value flags =>
    show LinkEq s (s.Setxattr path name value flags).2
    unfold Memfs.Setxattr
    repeat' split
    all_goals first
      | exact LinkEq.refl s
      | (dsimp only; refine LinkEq.upd s _ _ ?_ ?_ <;> (intro _; rfl))
  | Removexattr path name =>
    show LinkEq s (s.Removexattr path name).2
    unfold Memfs.Removexattr
    repeat' split
    all_goals first
      | exact LinkEq.refl s
      | (dsimp only; refine LinkEq.upd s _ _ ?_ ?_ <;> (intro _; rfl))
  | Chflags path flags =>
    show LinkEq s (s.Chflags ctx path flags).2
    unfold Memfs.Chflags
    repeat' split
    all_goals first
      | exact LinkEq.refl s
      | (dsimp only; refine LinkEq.upd s _ _ ?_ ?_ <;> (intro _; rfl))
  | Setcrtime path tmsp =>
    show LinkEq s (s.Setcrtime ctx path tmsp).2
    unfold Memfs.Setcrtime
    repeat' split
    all_goals first
      | exact LinkEq.refl s
      | (dsimp only; refine LinkEq.upd s _ _ ?_ ?_ <;> (intro _; rfl))
  | Setchgtime path tmsp =>
    show LinkEq s (s.Setchgtime path tmsp).2
    unfold Memfs.Setchgtime
    repeat' split
    all_goals first
      | exact LinkEq.refl s
      | (dsimp only; refine LinkEq.upd s _ _ ?_ ?_ <;> (intro _; rfl))

end Cgofuse

namespace Cgofuse

/-! ## The link-count invariant -/

/-- Entering a node under a name that was absent adds one entry that references it. -/
theorem entries_set {s s2 : Memfs} {np : Nat} (hnp : np < s.next) {m : List (Bytes × Nat)}
    (hm : (s.heap np).chld = some m) {k : Bytes} {v : Nat}
    (habs : (s.heap np).child k = none) (hn : s2.next = s.next)
    (hsame : ∀ q, q ≠ np → (s2.heap q).chld = (s.heap q).chld)
    (hset : (s2.heap np).chld = some (mapSet m k v)) (p : Nat) :
    s2.entries p = s.entries p + (if v = p then 1 else 0) := by
  unfold Memfs.entries
  rw [hn]
  have h1 := sum_range_update (fun d => (s.heap d).refs p) (fun d => (s2.heap d).refs p)
    s.next np hnp (fun d hne => refs_congr (hsame d hne) p)
  have h2 := refs_mapSet hm habs hset p
  simp only [] at h1
  omega

/-- Deleting a name removes the entry under it, if there is one. -/
theorem entries_del {s s2 : Memfs} (hw : WF s) {op : Nat} (hop : op < s.next) {k : Bytes}
    (hn : s2.next = s.next)
    (hsame : ∀ q, q ≠ op → (s2.heap q).chld = (s.heap q).chld)
    (hdel : (s2.heap op).chld = (s.heap op).chld.map fun m => mapDel m k) (p : Nat) :
    s2.entries p + (if (s.heap op).child k = some p then 1 else 0) = s.entries p := by
  unfold Memfs.entries
  rw [hn]
  have h1 := sum_range_update (fun d => (s.heap d).refs p) (fun d => (s2.heap d).refs p)
    s.next op hop (fun d hne => refs_congr (hsame d hne) p)
  have h2 := refs_mapDel (hw.chld op) hdel p
  simp only [] at h1
  omega

/-- A newly allocated node without children adds no entry. -/
theorem entries_alloc (s : Memfs) (n1 : node_t) (hrefs : ∀ p, n1.refs p = 0) (p : Nat) :
    (s.alloc n1).2.entries p = s.entries p := by
  unfold Memfs.entries
  simp only [Memfs.alloc, List.range_succ, List.map_append, List.sum_append, List.map_cons,
    List.map_nil, List.sum_cons, List.sum_nil, if_true, hrefs, Nat.add_zero]
  apply sum_range_congr
  intro d hd
  rw [if_neg (by omega)]

theorem child_root_nil {s : Memfs} (hw : WF s) (q : Nat) : (s.heap q).child [] = none := by
  unfold node_t.child
  cases hm : (s.heap q).chld with
  | none => rfl
  | some m =>
    simp only []
    rw [mapGet_eq_none]
    intro e he
    exact ((hw.chld q m hm).1 e he).2

/-- The slot of a node found by a path: its name is empty only for the root itself. -/
theorem lookupNode_found {s : Memfs} (hw : WF s) {path : Bytes} {pr : Ptr} {nm : Bytes}
    {n : Nat} (hl : s.lookupNode path none = .ok (pr, nm, some n)) :
    ∃ pp, pr = some pp ∧ pp < s.next ∧ n < s.next ∧
      ((nm = [] ∧ n = s.root) ∨ (nm ≠ [] ∧ (s.heap pp).child nm = some n)) := by
  obtain ⟨pp, hpp⟩ := lookupNode_parent hl
  subst hpp
  refine ⟨pp, rfl, (hw.lookup_lt hl).1 pp rfl, (hw.lookup_lt hl).2 n rfl, ?_⟩
  rcases lookupNode_slot hl with h | h
  · rcases h with ⟨h1, _, h3⟩ | ⟨h1, p, hp, hnd⟩
    · exact Or.inl ⟨h1, Option.some.inj h3⟩
    · cases hp; exact Or.inr ⟨h1, hnd.symm⟩
  · cases h.2.1

/-- Removing the slot of a node, together with one from its link count, keeps the link-count
invariant. -/
theorem NlinkInv_of_del {s s1 : Memfs} (hw : WF s) (hi : NlinkInv s) (hn : s1.next = s.next)
    (hr : s1.root = s.root) {pp n : Nat} {nm : Bytes} (hpp : pp < s.next)
    (hslot : (nm = [] ∧ n = s.root) ∨ (nm ≠ [] ∧ (s.heap pp).child nm = some n))
    (hchld : ∀ q, (s1.heap q).chld =
      if q = pp then (s.heap q).chld.map fun m => mapDel m nm else (s.heap q).chld)
    (hnl : ∀ q, (s1.heap q).stat.Nlink =
      if q = n then wrap32 ((s.heap q).stat.Nlink - 1) else (s.heap q).stat.Nlink) :
    NlinkInv s1 := by
  intro p hp hroot
  rw [hn] at hp
  rw [hr] at hroot
  have hent := @entries_del s s1 hw pp hpp nm hn
    (fun q hq => by rw [hchld q, if_neg hq])
    (by rw [hchld pp, if_pos rfl]) p
  rw [hnl p]
  have hinv := hi p hp hroot
  rcases hslot with ⟨h1, h2⟩ | ⟨_, h2⟩
  · subst h1
    rw [child_root_nil hw pp, if_neg (by simp)] at hent
    rw [if_neg (by rw [h2]; exact hroot), hinv]
    congr 1; omega
  · rw [h2] at hent
    by_cases hpn : p = n
    · rw [if_pos hpn]
      rw [if_pos (by rw [hpn])] at hent
      rw [hinv, wrap32_pred_mod (by omega)]
      congr 1; omega
    · rw [if_neg hpn]
      rw [if_neg (fun hx => hpn (Option.some.inj hx).symm)] at hent
      rw [hinv]; congr 1; omega

/-- A successful `removeNode` keeps the link-count invariant. -/
theorem nlinkInv_removeNode {s : Memfs} (hw : WF s) (hi : NlinkInv s) {ctx : Ctx}
    {path : Bytes} {dir : Bool} (hret : (s.removeNode ctx path dir).1 = .ok 0) :
    NlinkInv (s.removeNode ctx path dir).2 := by
  obtain ⟨pp, nm, n, hl, _, hst⟩ := removeNode_ok hret
  obtain ⟨pp2, hpp2, hpp, hn, hslot⟩ := lookupNode_found hw hl
  cases hpp2
  rw [hst]
  have hstate := removeNode_state s ctx.now pp n nm
  exact NlinkInv_of_del hw hi rfl rfl hpp hslot (fun q => (hstate q).1)
    (fun q => (hstate q).2.1)

end Cgofuse

namespace Cgofuse

/-- Entering a newly allocated node with link count 1 under an absent name keeps the
link-count invariant. -/
theorem NlinkInv_of_new {s s1 : Memfs} (hw : WF s) (hi : NlinkInv s)
    (hn : s1.next = s.next + 1) (hr : s1.root = s.root) {pp : Nat} (hpp : pp < s.next)
    {m : List (Bytes × Nat)} (hm : (s.heap pp).chld = some m) {name : Bytes}
    (habs : (s.heap pp).child name = none)
    (hsame : ∀ q, q ≠ pp → q < s.next → (s1.heap q).chld = (s.heap q).chld)
    (hset : (s1.heap pp).chld = some (mapSet m name s.next))
    (hnew : ∀ p, (s1.heap s.next).refs p = 0)
    (hnl : ∀ q, (s1.heap q).stat.Nlink = if q = s.next then 1 else (s.heap q).stat.Nlink) :
    NlinkInv s1 := by
  have hent : ∀ p, s1.entries p = s.entries p + (if s.next = p then 1 else 0) := by
    intro p
    unfold Memfs.entries
    rw [hn]
    simp only [List.range_succ, List.map_append, List.sum_append, List.map_cons, List.map_nil,
      List.sum_cons, List.sum_nil, Nat.add_zero, hnew]
    have h1 := sum_range_update (fun d => (s.heap d).refs p)
      (fun d => if d < s.next then (s1.heap d).refs p else (s.heap d).refs p)
      s.next pp hpp (fun d hne => by
        dsimp only
        by_cases hd : d < s.next
        · rw [if_pos hd]; exact refs_congr (hsame d hne hd) p
        · rw [if_neg hd])
    have h2 := refs_mapSet hm habs hset p
    have h3 := sum_range_congr (fun d => (s1.heap d).refs p)
      (fun d => if d < s.next then (s1.heap d).refs p else (s.heap d).refs p) s.next
      (fun d hd => by dsimp only; rw [if_pos hd])
    simp only [if_pos hpp] at h1
    omega
  intro p hp hroot
  rw [hn] at hp
  rw [hr] at hroot
  rw [hnl p, hent p]
  by_cases hpn : p = s.next
  · subst hpn
    rw [if_pos rfl, if_pos rfl, entries_fresh hw (Nat.le_refl _)]
    rfl
  · rw [if_neg hpn, if_neg (fun hx => hpn hx.symm), hi p (by omega) hroot]
    simp

/-- Entering an existing node under an absent name, together with one more on its link
count, keeps the link-count invariant. -/
theorem NlinkInv_of_link {s s1 : Memfs} (hi : NlinkInv s) (hn : s1.next = s.next)
    (hr : s1.root = s.root) {np old : Nat} (hnp : np < s.next) {m : List (Bytes × Nat)}
    (hm : (s.heap np).chld = some m) {name : Bytes} (habs : (s.heap np).child name = none)
    (hsame : ∀ q, q ≠ np → (s1.heap q).chld = (s.heap q).chld)
    (hset : (s1.heap np).chld = some (mapSet m name old))
    (hnl : ∀ q, (s1.heap q).stat.Nlink =
      if q = old then wrap32 ((s.heap q).stat.Nlink + 1) else (s.heap q).stat.Nlink) :
    NlinkInv s1 := by
  intro p hp hroot
  rw [hn] at hp
  rw [hr] at hroot
  rw [hnl p, entries_set hnp hm habs hn hsame hset p, hi p hp hroot]
  by_cases hpo : p = old
  · rw [if_pos hpo, if_pos hpo.symm]; exact wrap32_succ_mod _
  · rw [if_neg hpo, if_neg (fun hx => hpo hx.symm)]; simp

/-- Moving an entry from one slot to another, absent one keeps the link-count invariant. -/
theorem NlinkInv_of_move {s : Memfs} (hw : WF s) (hi : NlinkInv s) {op np old : Nat}
    {oname nname : Bytes} (hop : op < s.next) (hnp : np < s.next)
    (hslot : (oname = [] ∧ old = s.root) ∨ (oname ≠ [] ∧ (s.heap op).child oname = some old))
    (habs : (s.heap np).child nname = none) {m : List (Bytes × Nat)}
    (hm : ((s.upd op fun nd => { nd with chld := nd.chld.map fun m => mapDel m oname }).heap
      np).chld = some m) :
    NlinkInv ((s.upd op fun nd => { nd with chld := nd.chld.map fun m => mapDel m oname }).upd
      np fun nd => { nd with chld := some (mapSet m nname old) }) := by
  have hwmid : WF (s.upd op fun nd =>
      { nd with chld := nd.chld.map fun m => mapDel m oname }) := by
    refine WF.upd_chld hw _ _ ?_ ?_ ?_
    · intro _; rfl
    · intro _; rfl
    · exact chldOK_mapDel (hw.chld _) _ rfl
  have hmid := fun p => @entries_del s (s.upd op fun nd =>
      { nd with chld := nd.chld.map fun m => mapDel m oname }) hw op hop oname rfl
    (fun q hq => by rw [heap_upd, if_neg hq]) (by rw [heap_upd, if_pos rfl]) p
  have habs2 : ((s.upd op fun nd =>
      { nd with chld := nd.chld.map fun m => mapDel m oname }).heap np).child nname = none := by
    rw [heap_upd]
    by_cases h : np = op
    · rw [if_pos h, @child_mapDel (s.heap op) _ oname rfl]
      split
      · rfl
      · rw [← h]; exact habs
    · rw [if_neg h]; exact habs
  have hfin := fun p => @entries_set (s.upd op fun nd =>
      { nd with chld := nd.chld.map fun m => mapDel m oname })
    ((s.upd op fun nd => { nd with chld := nd.chld.map fun m => mapDel m oname }).upd
      np fun nd => { nd with chld := some (mapSet m nname old) }) np hnp m hm nname old habs2 rfl
    (fun q hq => by rw [heap_upd, if_neg hq]) (by rw [heap_upd, if_pos rfl]) p
  intro p hp hroot
  have hp2 : p < s.next := hp
  have hroot2 : p ≠ s.root := hroot
  have hnl : (((s.upd op fun nd =>
      { nd with chld := nd.chld.map fun m => mapDel m oname }).upd
      np fun nd => { nd with chld := some (mapSet m nname old) }).heap p).stat.Nlink =
      (s.heap p).stat.Nlink := by
    simp only [heap_upd]
    by_cases h1 : p = np <;> by_cases h2 : p = op <;> by_cases h3 : np = op <;> simp_all
  rw [hnl, hfin p, hi p hp2 hroot2]
  have h1 := hmid p
  rcases hslot with ⟨h2, h3⟩ | ⟨_, h3⟩
  · subst h2
    rw [child_root_nil hw op, if_neg (by simp)] at h1
    rw [if_neg (by rw [h3]; exact fun hx => hroot2 hx.symm)]
    omega
  · rw [h3] at h1
    by_cases hpo : old = p
    · rw [if_pos hpo]
      rw [if_pos (by rw [hpo])] at h1
      omega
    · rw [if_neg hpo]
      rw [if_neg (fun hx => hpo (Option.some.inj hx))] at h1
      omega

end Cgofuse

namespace Cgofuse

theorem newNode_refs (dev ino mode uid gid : Nat) (t : Timespec) (p : Nat) :
    (newNode dev ino mode uid gid t).refs p = 0 := by
  unfold node_t.refs newNode
  dsimp only
  split <;> rename_i h
  · rfl
  · split at h
    · cases h; rfl
    · cases h

/-- A `makeNode` that returns keeps the link-count invariant. -/
theorem nlinkInv_makeNode {s : Memfs} (hw : WF s) (hi : NlinkInv s) {ctx : Ctx} {path : Bytes}
    {mode dev : Nat} {data : Option Bytes} {c : Int}
    (hret : (s.makeNode ctx path mode dev data).1 = .ok c) :
    NlinkInv (s.makeNode ctx path mode dev data).2 := by
  unfold Memfs.makeNode at hret ⊢
  cases hl : s.lookupNode path none with
  | error e => rw [hl] at hret; cases hret
  | ok r =>
    obtain ⟨prnt, name, node⟩ := r
    rw [hl] at hret
    dsimp only at hret ⊢
    cases prnt with
    | none => exact hi
    | some pp =>
      dsimp only at hret ⊢
      by_cases hnode : node ≠ none
      · rw [if_pos hnode]; exact hi
      · rw [if_neg hnode] at hret ⊢
        have hnode2 : node = none := by
          by_contra hne; exact hnode hne
        subst hnode2
        have hpp := (hw.lookup_lt hl).1 pp rfl
        have habs : (s.heap pp).child name = none := by
          rcases lookupNode_slot hl with h | h
          · rcases h with ⟨_, _, h⟩ | ⟨_, p, hp, hnd⟩
            · cases h
            · cases hp; exact hnd.symm
          · cases h.2.1
        have h2 : ∀ n1 : node_t, (∀ p, n1.refs p = 0) → n1.stat.Nlink = 1 →
            (match (({ s with ino := s.ino + 1 }.alloc n1).2.heap pp).chld with
              | none => ((Except.error Panic.nilMapWrite : Except Panic Int),
                  ({ s with ino := s.ino + 1 }.alloc n1).2)
              | some m => (Except.ok 0, ({ s with ino := s.ino + 1 }.alloc n1).2.upd pp fun nd =>
                  { nd with chld := some (mapSet m name ({ s with ino := s.ino + 1 }.alloc n1).1)
                            stat := { nd.stat with
                              Ctim := (({ s with ino := s.ino + 1 }.alloc n1).2.heap
                                ({ s with ino := s.ino + 1 }.alloc n1).1).stat.Ctim
                              Mtim := (({ s with ino := s.ino + 1 }.alloc n1).2.heap
                                ({ s with ino := s.ino + 1 }.alloc n1).1).stat.Ctim } })).1 =
              .ok c →
            NlinkInv (match (({ s with ino := s.ino + 1 }.alloc n1).2.heap pp).chld with
              | none => ((Except.error Panic.nilMapWrite : Except Panic Int),
                  ({ s with ino := s.ino + 1 }.alloc n1).2)
              | some m => (Except.ok 0, ({ s with ino := s.ino + 1 }.alloc n1).2.upd pp fun nd =>
                  { nd with chld := some (mapSet m name ({ s with ino := s.ino + 1 }.alloc n1).1)
                            stat := { nd.stat with
                              Ctim := (({ s with ino := s.ino + 1 }.alloc n1).2.heap
                                ({ s with ino := s.ino + 1 }.alloc n1).1).stat.Ctim
                              Mtim := (({ s with ino := s.ino + 1 }.alloc n1).2.heap
                                ({ s with ino := s.ino + 1 }.alloc n1).1).stat.Ctim } })).2 := by
          intro n1 hrefs hnl hret2
          have hheap : ∀ q, ({ s with ino := s.ino + 1 }.alloc n1).2.heap q =
              if q = s.next then n1 else s.heap q := fun _ => rfl
          cases hm : (({ s with ino := s.ino + 1 }.alloc n1).2.heap pp).chld with
          | none => rw [hm] at hret2; cases hret2
          | some m =>
            dsimp only
            have hm2 : (s.heap pp).chld = some m := by
              rw [hheap, if_neg (by omega)] at hm; exact hm
            refine NlinkInv_of_new hw hi rfl rfl hpp hm2 habs ?_ ?_ ?_ ?_
            · intro q hq hq2
              rw [heap_upd, if_neg hq, hheap, if_neg (by omega)]
            · rw [heap_upd, if_pos rfl]
              rfl
            · intro p
              rw [heap_upd, if_neg (by omega), hheap, if_pos rfl]
              exact hrefs p
            · intro q
              rw [heap_upd]
              by_cases hq : q = pp
              · rw [if_pos hq, if_neg (by omega)]
                show (({ s with ino := s.ino + 1 }.alloc n1).2.heap pp).stat.Nlink = _
                rw [hheap, if_neg (by omega), hq]
              · rw [if_neg hq, hheap]
                by_cases hq2 : q = s.next
                · rw [if_pos hq2, if_pos hq2]; exact hnl
                · rw [if_neg hq2, if_neg hq2]
        cases data with
        | none =>
          refine h2 _ ?_ ?_ hret
          · intro p; exact newNode_refs _ _ _ _ _ _ p
          · rfl
        | some d =>
          refine h2 _ ?_ ?_ hret
          · intro p; exact newNode_refs dev (s.ino + 1) mode ctx.uid ctx.gid ctx.now p
          · rfl

end Cgofuse

namespace Cgofuse

/-- A `removeNode` that returns a code other than 0 leaves the state as it was. -/
theorem removeNode_ret {s : Memfs} {ctx : Ctx} {path : Bytes} {dir : Bool} {c : Int}
    (hret : (s.removeNode ctx path dir).1 = .ok c) (hc : c ≠ 0) :
    (s.removeNode ctx path dir).2 = s := by
  unfold Memfs.removeNode at hret ⊢
  split
  · rfl
  · rename_i hl
    rw [hl] at hret
    dsimp only at hret ⊢
    split
    · rfl
    · dsimp only at hret ⊢
      split
      · rfl
      · rename_i h1
        rw [if_neg h1] at hret
        split
        · rfl
        · rename_i h2
          rw [if_neg h2] at hret
          split
          · rfl
          · rename_i h3
            rw [if_neg h3] at hret
            split
            · cases hret
            · exact absurd (Except.ok.inj hret).symm hc

/-- The ways in which `Link` returns: with a code other than 0 and the state as it was, or
with 0, the old node entered under the absent new name and its link count raised by one. -/
theorem Link_ret {s : Memfs} {ctx : Ctx} {oldpath newpath : Bytes} {c : Int}
    (hret : (s.Link ctx oldpath newpath).1 = .ok c) :
    (c ≠ 0 ∧ (s.Link ctx oldpath newpath).2 = s) ∨
    (c = 0 ∧ ∃ oprnt oname old np nname m,
      s.lookupNode oldpath none = .ok (oprnt, oname, some old) ∧
      s.lookupNode newpath none = .ok (some np, nname, none) ∧
      (s.heap np).chld = some m ∧
      (s.Link ctx oldpath newpath).2.next = s.next ∧
      (s.Link ctx oldpath newpath).2.root = s.root ∧
      (∀ q, ((s.Link ctx oldpath newpath).2.heap q).chld =
        if q = np then some (mapSet m nname old) else (s.heap q).chld) ∧
      (∀ q, ((s.Link ctx oldpath newpath).2.heap q).stat.Nlink =
        if q = old then wrap32 ((s.heap q).stat.Nlink + 1) else (s.heap q).stat.Nlink)) := by
  unfold Memfs.Link at hret ⊢
  cases hl1 : s.lookupNode oldpath none with
  | error e => rw [hl1] at hret; cases hret
  | ok r1 =>
    obtain ⟨oprnt, oname, oldnode⟩ := r1
    rw [hl1] at hret
    dsimp only at hret ⊢
    cases oldnode with
    | none =>
      left
      exact ⟨by rw [← Except.ok.inj hret]; decide, rfl⟩
    | some old =>
      dsimp only at hret ⊢
      cases hl2 : s.lookupNode newpath none with
      | error e => rw [hl2] at hret; cases hret
      | ok r2 =>
        obtain ⟨newprnt, nname, newnode⟩ := r2
        rw [hl2] at hret
        dsimp only at hret ⊢
        cases newprnt with
        | none =>
          left
          exact ⟨by rw [← Except.ok.inj hret]; decide, rfl⟩
        | some np =>
          dsimp only at hret ⊢
          by_cases hnode : newnode ≠ none
          · rw [if_pos hnode] at hret ⊢
            left
            exact ⟨by rw [← Except.ok.inj hret]; decide, rfl⟩
          · rw [if_neg hnode] at hret ⊢
            have hnode2 : newnode = none := by
              by_contra hne; exact hnode hne
            subst hnode2
            right
            have hch : ((s.upd old fun nd =>
                { nd with stat := { nd.stat with Nlink := wrap32 (nd.stat.Nlink + 1) } }).heap np).chld =
                (s.heap np).chld := by
              rw [heap_upd]; split
              · rename_i h; rw [h]
              · rfl
            rw [hch] at hret ⊢
            cases hm : (s.heap np).chld with
            | none => rw [hm] at hret; cases hret
            | some m =>
              rw [hm] at hret
              dsimp only at hret ⊢
              refine ⟨(Except.ok.inj hret).symm, oprnt, oname, old, np, nname, m, rfl, rfl,
                hm, rfl, rfl, ?_, ?_⟩
              · intro q
                simp only [heap_upd]
                by_cases h1 : q = np <;> by_cases h2 : q = old <;> by_cases h3 : np = old <;>
                  simp_all
              · intro q
                simp only [heap_upd]
                by_cases h1 : q = np <;> by_cases h2 : q = old <;> by_cases h3 : np = old <;>
                  simp_all

/-- A `Link` that returns keeps the link-count invariant. -/
theorem nlinkInv_Link {s : Memfs} (hw : WF s) (hi : NlinkInv s) {ctx : Ctx}
    {oldpath newpath : Bytes} {c : Int} (hret : (s.Link ctx oldpath newpath).1 = .ok c) :
    NlinkInv (s.Link ctx oldpath newpath).2 := by
  rcases Link_ret hret with ⟨_, h⟩ | ⟨_, oprnt, oname, old, np, nname, m, _, hl2, hm, hn, hr,
    hchld, hnl⟩
  · rw [h]; exact hi
  · have hnp := (hw.lookup_lt hl2).1 np rfl
    have habs : (s.heap np).child nname = none := by
      rcases lookupNode_slot hl2 with h | h
      · rcases h with ⟨_, _, h⟩ | ⟨_, p, hp, hnd⟩
        · cases h
        · cases hp; exact hnd.symm
      · cases h.2.1
    exact NlinkInv_of_link hi hn hr hnp hm habs
      (fun q hq => by rw [hchld q, if_neg hq]) (by rw [hchld np, if_pos rfl]) hnl

end Cgofuse

namespace Cgofuse

/-- A `Rename` that returns a code other than 0 leaves the state as it was. -/
theorem Rename_ret_ne {s : Memfs} {ctx : Ctx} {oldpath newpath : Bytes} {c : Int}
    (hret : (s.Rename ctx oldpath newpath).1 = .ok c) (hc : c ≠ 0) :
    (s.Rename ctx oldpath newpath).2 = s := by
  unfold Memfs.Rename at hret ⊢
  cases hl1 : s.lookupNode oldpath none with
  | error e => rfl
  | ok r1 =>
    obtain ⟨oprnt, oname, oldnode⟩ := r1
    rw [hl1] at hret
    dsimp only at hret ⊢
    cases oldnode with
    | none => rfl
    | some old =>
      dsimp only at hret ⊢
      cases hl2 : s.lookupNode newpath (some old) with
      | error e => rfl
      | ok r2 =>
        obtain ⟨newprnt, nname, newnode⟩ := r2
        rw [hl2] at hret
        dsimp only at hret ⊢
        cases newprnt with
        | none => rfl
        | some np =>
          dsimp only at hret ⊢
          by_cases hnm : nname = []
          · rw [if_pos hnm]
          · rw [if_neg hnm] at hret ⊢
            by_cases hsame : oprnt = some np ∧ oname = nname
            · rw [if_pos hsame]
            · rw [if_neg hsame] at hret ⊢
              by_cases hnn : newnode ≠ none
              · rw [if_pos hnn] at hret ⊢
                have hrm := @removeNode_ret s ctx newpath (s.heap old).isDir
                generalize s.removeNode ctx newpath (s.heap old).isDir = r at hret hrm ⊢
                obtain ⟨r1, s1⟩ := r
                cases r1 with
                | error e => cases hret
                | ok errc =>
                  dsimp only at hret ⊢
                  by_cases he : errc ≠ 0
                  · rw [if_pos he]
                    exact hrm rfl he
                  · rw [if_neg he] at hret ⊢
                    exfalso
                    unfold Memfs.moveEntry at hret
                    split at hret
                    · cases hret
                    · dsimp only at hret
                      split at hret
                      · cases hret
                      · exact hc (Except.ok.inj hret).symm
              · rw [if_neg hnn] at hret ⊢
                dsimp only at hret ⊢
                rw [if_neg (by simp)] at hret ⊢
                exfalso
                unfold Memfs.moveEntry at hret
                split at hret
                · cases hret
                · dsimp only at hret
                  split at hret
                  · cases hret
                  · exact hc (Except.ok.inj hret).symm

/-- A `Rename` that returns keeps the link-count invariant. -/
theorem nlinkInv_Rename {s : Memfs} (hw : WF s) (hi : NlinkInv s) {ctx : Ctx}
    {oldpath newpath : Bytes} {c : Int} (hret : (s.Rename ctx oldpath newpath).1 = .ok c) :
    NlinkInv (s.Rename ctx oldpath newpath).2 := by
  by_cases hc : c = 0
  swap
  · rw [Rename_ret_ne hret hc]; exact hi
  subst hc
  obtain ⟨oprnt, oname, old, np, nname, newnode, hl1, hl2, hnm, hcase⟩ := Rename_ok hret
  have hl3 := lookupNode_anc_name hl2 hnm
  obtain ⟨op, hop, hoplt, _, hslot⟩ := lookupNode_found hw hl1
  subst hop
  have hnp := (hw.lookup_lt hl2).1 np rfl
  have hslot2 : (s.heap np).child nname = newnode := by
    rcases lookupNode_slot hl3 with h | h
    · rcases h with ⟨h, _⟩ | ⟨_, p, hp, hnd⟩
      · exact absurd h hnm
      · cases hp; exact hnd.symm
    · cases h.2.1
  rcases hcase with ⟨_, _, hst⟩ | ⟨hdiff, hcase⟩
  · rw [hst]; exact hi
  rcases hcase with ⟨hnone, hmv, hst⟩ | ⟨hsome, hrm, hmv, hst⟩
  · subst hnone
    obtain ⟨op2, m, hop2, hm, hst2⟩ := moveEntry_ok hmv
    cases hop2
    rw [hst, hst2]
    exact NlinkInv_of_move hw hi hoplt hnp hslot hslot2 hm
  · obtain ⟨pp, nm, n, hl4, _, hrs⟩ := removeNode_ok hrm
    rw [hl3] at hl4
    simp only [Except.ok.injEq, Prod.mk.injEq, Option.some.injEq] at hl4
    obtain ⟨e1, e2, e3⟩ := hl4
    subst e1; subst e2; subst e3
    have hw1 := hw.removeNode ctx newpath (s.heap old).isDir
    have hi1 := nlinkInv_removeNode hw hi hrm
    rw [hst]
    rw [hrs] at hmv hw1 hi1 ⊢
    obtain ⟨op2, m, hop2, hm, hst2⟩ := moveEntry_ok hmv
    cases hop2
    rw [hst2]
    refine NlinkInv_of_move hw1 hi1 hoplt hnp ?_ ?_ hm
    · rcases hslot with h | ⟨h1, h2⟩
      · exact Or.inl h
      · right
        refine ⟨h1, ?_⟩
        rw [removeNode_state_child s ctx.now np n nname op oname,
          if_neg (fun hx => hdiff ⟨by rw [hx.1], hx.2⟩)]
        exact h2
    · rw [removeNode_state_child s ctx.now np n nname np nname, if_pos ⟨rfl, rfl⟩]

end Cgofuse

namespace Cgofuse

/-- C6. Link counts are `uint32` values. The link-count invariant (for every node other than
the root, `stat.Nlink` is the total number of (directory, name) child-mapping entries that
reference the node, modulo `2^32`) holds in the state made by `NewMemfs`, and every operation
that returns on a reachable state in which it holds leaves a state in which it holds; where
it holds, the link count of a node other than the root that fewer than `2^32` entries
reference is the number of these entries. `Link(a, b)` that returns 0 raises the link count
of the node at `a`, the root included, by one modulo `2^32`: by exactly one unless the count
was `2^32 - 1`, and then to 0. `Unlink(a)` that returns 0 lowers it by one modulo `2^32`: in
a reachable state by exactly one unless the count was 0. -/
theorem nlink_invariant :
    (∀ now, NlinkInv (NewMemfs now)) ∧
    (∀ (s : Memfs) (ctx : Ctx) (op : Op) (c : Int), Reachable s → NlinkInv s →
      (s.step ctx op).1 = .ok c → NlinkInv (s.step ctx op).2) ∧
    (∀ (s : Memfs) (p : Nat), NlinkInv s → p < s.next → p ≠ s.root → s.entries p < 2 ^ 32 →
      (s.heap p).stat.Nlink = s.entries p) ∧
    (∀ (s : Memfs) (ctx : Ctx) (a b : Bytes) (pr : Ptr) (nm : Bytes) (old : Nat),
      s.lookupNode a none = .ok (pr, nm, some old) → (s.Link ctx a b).1 = .ok 0 →
      ((s.Link ctx a b).2.heap old).stat.Nlink = wrap32 ((s.heap old).stat.Nlink + 1) ∧
      ((s.heap old).stat.Nlink + 1 < 2 ^ 32 →
        ((s.Link ctx a b).2.heap old).stat.Nlink = (s.heap old).stat.Nlink + 1) ∧
      ((s.heap old).stat.Nlink = 2 ^ 32 - 1 →
        ((s.Link ctx a b).2.heap old).stat.Nlink = 0)) ∧
    (∀ (s : Memfs) (ctx : Ctx) (a : Bytes) (pr : Ptr) (nm : Bytes) (n : Nat),
      s.lookupNode a none = .ok (pr, nm, some n) → (s.Unlink ctx a).1 = .ok 0 →
      ((s.Unlink ctx a).2.heap n).stat.Nlink = wrap32 ((s.heap n).stat.Nlink - 1) ∧
      (Reachable s → 0 < (s.heap n).stat.Nlink →
        ((s.Unlink ctx a).2.heap n).stat.Nlink + 1 = (s.heap n).stat.Nlink)) := by
  refine ⟨?_, ?_, ?_, ?_, ?_⟩
  · intro now p hp hr
    have hp2 : p < 1 := hp
    have hr2 : p ≠ 0 := hr
    omega
  · intro s ctx op c hs hi hret
    have hw := hs.wf
    have hrm : ∀ path dir, (s.removeNode ctx path dir).1 = .ok c →
        NlinkInv (s.removeNode ctx path dir).2 := by
      intro path dir h
      by_cases hc : c = 0
      · subst hc; exact nlinkInv_removeNode hw hi h
      · rw [removeNode_ret h hc]; exact hi
    cases op with
    | Mknod path mode dev => exact nlinkInv_makeNode hw hi hret
    | Mkdir path mode => exact nlinkInv_makeNode hw hi hret
    | Symlink target newpath => exact nlinkInv_makeNode hw hi hret
    | Unlink path => exact hrm _ _ hret
    | Rmdir path => exact hrm _ _ hret
    | Link oldpath newpath => exact nlinkInv_Link hw hi hret
    | Rename oldpath newpath => exact nlinkInv_Rename hw hi hret
    | Readlink path => exact (linkEq_step s ctx _ trivial).nlinkInv hi
    | Chmod path mode => exact (linkEq_step s ctx _ trivial).nlinkInv hi
    | Chown path uid gid => exact (linkEq_step s ctx _ trivial).nlinkInv hi
    | Utimens path tmsp => exact (linkEq_step s ctx _ trivial).nlinkInv hi
    | Open path flags => exact (linkEq_step s ctx _ trivial).nlinkInv hi
    | Getattr path fh => exact (linkEq_step s ctx _ trivial).nlinkInv hi
    | Truncate path size fh => exact (linkEq_step s ctx _ trivial).nlinkInv hi
    | Read path buff ofst fh => exact (linkEq_step s ctx _ trivial).nlinkInv hi
    | Write path buff ofst fh => exact (linkEq_step s ctx _ trivial).nlinkInv hi
    | Release path fh => exact (linkEq_step s ctx _ trivial).nlinkInv hi
    | Opendir path => exact (linkEq_step s ctx _ trivial).nlinkInv hi
    | Readdir path fill ofst fh => exact (linkEq_step s ctx _ trivial).nlinkInv hi
    | Releasedir path fh => exact (linkEq_step s ctx _ trivial).nlinkInv hi
    | Setxattr path name value flags => exact (linkEq_step s ctx _ trivial).nlinkInv hi
    | Getxattr path name => exact (linkEq_step s ctx _ trivial).nlinkInv hi
    | Removexattr path name => exact (linkEq_step s ctx _ trivial).nlinkInv hi
    | Listxattr path fill => exact (linkEq_step s ctx _ trivial).nlinkInv hi
    | Chflags path flags => exact (linkEq_step s ctx _ trivial).nlinkInv hi
    | Setcrtime path tmsp => exact (linkEq_step s ctx _ trivial).nlinkInv hi
    | Setchgtime path tmsp => exact (linkEq_step s ctx _ trivial).nlinkInv hi
  · intro s p hi hp hr hlt
    rw [hi p hp hr, Nat.mod_eq_of_lt hlt]
  · intro s ctx a b pr nm old hl hret
    have key : ((s.Link ctx a b).2.heap old).stat.Nlink =
        wrap32 ((s.heap old).stat.Nlink + 1) := ?_
    · refine ⟨key, fun h => ?_, fun h => ?_⟩
      · rw [key]; exact wrap32_succ_of_lt h
      · rw [key, h]; rfl
    rcases Link_ret hret with ⟨h, _⟩ | ⟨_, oprnt, oname, old2, np, nname, m, hl1, _, _, _, _,
      _, hnl⟩
    · exact absurd rfl h
    · rw [hl] at hl1
      simp only [Except.ok.injEq, Prod.mk.injEq, Option.some.injEq] at hl1
      rw [hnl old, if_pos hl1.2.2]
  · intro s ctx a pr nm n hl hret
    have key : ((s.Unlink ctx a).2.heap n).stat.Nlink =
        wrap32 ((s.heap n).stat.Nlink - 1) := ?_
    · refine ⟨key, fun hs h0 => ?_⟩
      rw [key]
      have := wrap32_pred_of_pos h0 (hs.nlinkU32 n)
      omega
    obtain ⟨pp, nm2, n2, hl2, _, hst⟩ := removeNode_ok hret
    rw [hl] at hl2
    simp only [Except.ok.injEq, Prod.mk.injEq, Option.some.injEq] at hl2
    obtain ⟨_, _, e3⟩ := hl2
    subst e3
    have hst2 : (s.Unlink ctx a).2 = _ := hst
    rw [hst2, (removeNode_state s ctx.now pp n nm2 n).2.1, if_pos rfl]

/-- An instance of `nlink_invariant`: the invariant holds in the example state and after
`Link("/a", "/b")` there, which raises the link count of `/a` from 1 to 2; and after two
calls of `Rmdir("/")` on a fresh engine, `Link("/", "/r")` returns 0 and takes the link count
of the root from `2^32 - 1` to 0. -/
theorem nlink_invariant_witness :
    NlinkInv stA ∧ NlinkInv (stA.step ctx1 (.Link (str "/a") (str "/b"))).2 ∧
    ((stA.Link ctx1 (str "/a") (str "/b")).2.heap 1).stat.Nlink = (stA.heap 1).stat.Nlink + 1 ∧
    (stRR.Link ctx1 (str "/") (str "/r")).1 = .ok 0 ∧
    (stRR.heap 0).stat.Nlink = 2 ^ 32 - 1 ∧
    ((stRR.Link ctx1 (str "/") (str "/r")).2.heap 0).stat.Nlink = 0 :=
  have h1 : NlinkInv stA :=
    nlink_invariant.2.1 (NewMemfs t0) ctx0 (.Mknod (str "/a") 0o100644 0) 0 (Reachable.init t0)
      (nlink_invariant.1 t0) (by decide)
  ⟨h1,
   nlink_invariant.2.1 stA ctx1 (.Link (str "/a") (str "/b")) 0 stA_reachable h1 (by decide),
   (nlink_invariant.2.2.2.1 stA ctx1 (str "/a") (str "/b") (some 0) (str "a") 1 (by decide)
     (by decide)).2.1 (by decide),
   by decide, by decide,
   (nlink_invariant.2.2.2.1 stRR ctx1 (str "/") (str "/r") (some 0) [] 0 (by decide)
     (by decide)).2.2 (by decide)⟩

/-- The failing run of C6: on a fresh engine, `Rmdir("/")` returns 0 twice and leaves the
root, which is still the root and an empty directory, with the link count `2^32 - 1`; the
call `Link("/", "/r")` then returns 0 and does not raise the link count of the node by one:
the count is 0 afterwards, with the entry `r` of the root referencing the root. -/
theorem Link_root_count_wraps :
    Reachable stRR ∧
    ((NewMemfs t0).step ctx0 (.Rmdir (str "/"))).1 = .ok 0 ∧
    (((NewMemfs t0).step ctx0 (.Rmdir (str "/"))).2.step ctx0 (.Rmdir (str "/"))).1 = .ok 0 ∧
    stRR.lookupNode (str "/") none = .ok (some 0, [], some 0) ∧
    (stRR.heap 0).stat.Nlink = 4294967295 ∧
    (stRR.step ctx1 (.Link (str "/") (str "/r"))).1 = .ok 0 ∧
    ((stRR.step ctx1 (.Link (str "/") (str "/r"))).2.heap 0).stat.Nlink = 0 ∧
    ((stRR.step ctx1 (.Link (str "/") (str "/r"))).2.heap 0).child (str "r") = some 0 :=
  ⟨Reachable.step ctx0 (.Rmdir (str "/"))
      (Reachable.step ctx0 (.Rmdir (str "/")) (Reachable.init t0)),
    by decide, by decide, by decide, by decide, by decide, by decide, by decide⟩

end Cgofuse

namespace Cgofuse

/-! ## Where the loop guard of `Rename` does fire -/

theorem lookupLoop_filter (h : Nat → node_t) (anc : Ptr) (cs : List Bytes) (prnt : Ptr)
    (name : Bytes) (node : Ptr) :
    lookupLoop h anc (cs.filter fun c => c ≠ []) prnt name node =
      lookupLoop h anc cs prnt name node := by
  induction cs generalizing prnt name node with
  | nil => rfl
  | cons c cs ih =>
    by_cases hc0 : c ≠ []
    · rw [List.filter_cons_of_pos (by simpa using hc0)]
      unfold lookupLoop
      rw [if_pos hc0]
      split
      · rfl
      · cases node with
        | none => rfl
        | some p =>
          dsimp only
          split
          · rfl
          · exact ih _ _ _
    · rw [List.filter_cons_of_neg (by simpa using hc0)]
      conv => rhs; unfold lookupLoop
      rw [if_neg hc0]
      exact ih _ _ _

theorem lookupNode_comps (s : Memfs) (path : Bytes) (anc : Ptr) :
    s.lookupNode path anc = lookupLoop s.heap anc (comps path) (some s.root) [] (some s.root) := by
  unfold Memfs.lookupNode comps
  rw [lookupLoop_filter]

/-- A walk that ends on a node meets that node, as the ancestor, within the same
components, whatever follows them. -/
theorem lookupLoop_hit (h : Nat → node_t) (n : Nat) (A : List Bytes) (E : List Bytes)
    {prnt : Ptr} {name : Bytes} {node : Ptr} {pr : Ptr} {nm : Bytes}
    (hr : lookupLoop h none A prnt name node = .ok (pr, nm, some n))
    (hA : ∀ c ∈ A, c ≠ []) (hne : A ≠ []) :
    ∃ p, lookupLoop h (some n) (A ++ E) prnt name node = .ok (some p, [], some n) := by
  induction A generalizing prnt name node with
  | nil => exact absurd rfl hne
  | cons c A ih =>
    have hc0 : c ≠ [] := hA c (List.mem_cons_self _ _)
    rw [List.cons_append]
    unfold lookupLoop at hr ⊢
    rw [if_pos hc0] at hr ⊢
    by_cases hl : 255 < c.length
    · rw [if_pos hl] at hr; cases hr
    · rw [if_neg hl] at hr ⊢
      cases node with
      | none =>
        simp only [Except.ok.injEq, Prod.mk.injEq] at hr
        cases hr.2.2
      | some p =>
        dsimp only at hr ⊢
        rw [if_neg (by simp)] at hr
        by_cases hh : (h p).child c = some n
        · rw [if_pos ⟨by simp, hh⟩, hh]
          exact ⟨p, rfl⟩
        · rw [if_neg (fun hx => hh hx.2)]
          by_cases hA2 : A = []
          · subst hA2
            simp only [lookupLoop, Except.ok.injEq, Prod.mk.injEq] at hr
            exact absurd hr.2.2 hh
          · exact ih hr (fun c2 hc2 => hA c2 (List.mem_cons_of_mem _ hc2)) hA2

/-- The loop guard of `Rename`, where it works: if `oldpath` resolves to a node and the
non-empty components of `newpath` are those of `oldpath` followed by any others, then, unless
`oldpath` is the root path and other components do follow, `Rename(oldpath, newpath)` returns
`-EINVAL` and leaves the state as it was. This covers `newpath = oldpath`. -/
theorem Rename_guard_EINVAL (s : Memfs) (ctx : Ctx) (oldpath newpath : Bytes)
    {pr : Ptr} {nm : Bytes} {n : Nat} (extra : List Bytes)
    (hl : s.lookupNode oldpath none = .ok (pr, nm, some n))
    (hcomps : comps newpath = comps oldpath ++ extra)
    (hcase : comps oldpath ≠ [] ∨ extra = []) :
    s.Rename ctx oldpath newpath = (.ok (-EINVAL), s) := by
  have h2 : ∃ p x, s.lookupNode newpath (some n) = .ok (some p, [], x) := by
    rw [lookupNode_comps, hcomps]
    by_cases hA : comps oldpath = []
    · rcases hcase with h | h
      · exact absurd hA h
      · rw [hA, h]
        exact ⟨s.root, some s.root, rfl⟩
    · rw [lookupNode_comps] at hl
      have hne : ∀ c ∈ comps oldpath, c ≠ [] := by
        intro c hc
        unfold comps at hc
        simpa using (List.mem_filter.mp hc).2
      obtain ⟨p, hp⟩ := lookupLoop_hit s.heap n (comps oldpath) extra hl hne hA
      exact ⟨p, some n, hp⟩
  obtain ⟨p, x, h2⟩ := h2
  unfold Memfs.Rename
  rw [hl]
  dsimp only
  rw [h2]
  dsimp only
  rw [if_pos rfl]

/-- An instance of `Rename_guard_EINVAL`, the scenario of the specification: after
`Mkdir("/d")` and `Mkdir("/d/e")`, `Rename("/d", "/d/e/f")` returns `-EINVAL`. -/
theorem Rename_guard_EINVAL_witness :
    (((NewMemfs t0).Mkdir ctx0 (str "/d") 0o777).2.Mkdir ctx0 (str "/d/e") 0o777).2.Rename ctx1
      (str "/d") (str "/d/e/f") =
      (.ok (-EINVAL),
        (((NewMemfs t0).Mkdir ctx0 (str "/d") 0o777).2.Mkdir ctx0 (str "/d/e") 0o777).2) :=
  @Rename_guard_EINVAL _ ctx1 (str "/d") (str "/d/e/f") (some 0) (str "d") 1
    [str "e", str "f"] (by decide) (by decide) (by decide)

end Cgofuse

namespace Cgofuse

/-! ## Returned error codes leave the state alone -/

theorem Atomic_same {r : Except Panic Int × Memfs} {s : Memfs} (h : r.2 = s) : Atomic r s :=
  ⟨fun _ _ _ => h, fun _ _ => h⟩

theorem Atomic_of_ok {r : Except Panic Int × Memfs} {s : Memfs} {c : Int} (h1 : r.1 = .ok c)
    (h0 : 0 ≤ c) : Atomic r s := by
  refine ⟨fun c2 h2 h3 => ?_, fun e h2 => ?_⟩
  · rw [h1] at h2
    have := Except.ok.inj h2
    omega
  · rw [h1] at h2; cases h2

theorem Atomic_of_err {r : Except Panic Int × Memfs} {s : Memfs} {e : Panic}
    (h1 : r.1 = .error e) (he : ∀ x, e ≠ .fuseError x) : Atomic r s := by
  refine ⟨fun c2 h2 _ => ?_, fun x h2 => ?_⟩
  · rw [h1] at h2; cases h2
  · rw [h1] at h2
    exact absurd (Except.error.inj h2) (he x)

theorem Atomic_makeNode (s : Memfs) (ctx : Ctx) (path : Bytes) (mode dev : Nat)
    (data : Option Bytes) : Atomic (s.makeNode ctx path mode dev data) s := by
  unfold Memfs.makeNode
  repeat' first
    | exact Atomic_same rfl
    | exact Atomic_of_ok rfl (Int.le_refl 0)
    | exact Atomic_of_err rfl (fun _ h => by cases h)
    | split
    | (dsimp only; split)

theorem Atomic_removeNode (s : Memfs) (ctx : Ctx) (path : Bytes) (dir : Bool) :
    Atomic (s.removeNode ctx path dir) s := by
  unfold Memfs.removeNode
  repeat' first
    | exact Atomic_same rfl
    | exact Atomic_of_ok rfl (Int.le_refl 0)
    | exact Atomic_of_err rfl (fun _ h => by cases h)
    | split

theorem Atomic_Link (s : Memfs) (ctx : Ctx) (oldpath newpath : Bytes) :
    Atomic (s.Link ctx oldpath newpath) s := by
  unfold Memfs.Link
  repeat' first
    | exact Atomic_same rfl
    | exact Atomic_of_ok rfl (Int.le_refl 0)
    | exact Atomic_of_err rfl (fun _ h => by cases h)
    | split
    | (dsimp only; split)

theorem Atomic_moveEntry (s s0 : Memfs) (oldprnt : Ptr) (oldname : Bytes) (np : Nat)
    (newname : Bytes) (old : Nat) : Atomic (s.moveEntry oldprnt oldname np newname old) s0 := by
  unfold Memfs.moveEntry
  repeat' first
    | exact Atomic_of_ok rfl (Int.le_refl 0)
    | exact Atomic_of_err rfl (fun _ h => by cases h)
    | split
    | (dsimp only; split)

theorem Atomic_Rename (s : Memfs) (ctx : Ctx) (oldpath newpath : Bytes) :
    Atomic (s.Rename ctx oldpath newpath) s := by
  unfold Memfs.Rename
  cases hl1 : s.lookupNode oldpath none with
  | error e => exact Atomic_same rfl
  | ok r1 =>
    obtain ⟨oprnt, oname, oldnode⟩ := r1
    dsimp only
    cases oldnode with
    | none => exact Atomic_same rfl
    | some old =>
      dsimp only
      cases hl2 : s.lookupNode newpath (some old) with
      | error e => exact Atomic_same rfl
      | ok r2 =>
        obtain ⟨newprnt, nname, newnode⟩ := r2
        dsimp only
        cases newprnt with
        | none => exact Atomic_same rfl
        | some np =>
          dsimp only
          split
          · exact Atomic_same rfl
          · split
            · exact Atomic_same rfl
            · have hr : Atomic (if newnode ≠ none then
                  s.removeNode ctx newpath (s.heap old).isDir else (.ok 0, s)) s := by
                split
                · exact Atomic_removeNode _ _ _ _
                · exact Atomic_same rfl
              generalize (if newnode ≠ none then
                  s.removeNode ctx newpath (s.heap old).isDir else (.ok 0, s)) = r at hr
              obtain ⟨r1, s1⟩ := r
              cases r1 with
              | error e =>
                exact ⟨fun c h _ => (by cases h), fun x h => hr.2 x h⟩
              | ok errc =>
                dsimp only
                split
                · exact ⟨fun c h hc => hr.1 c h hc, fun x h => (by cases h)⟩
                · exact Atomic_moveEntry _ _ _ _ _ _ _

end Cgofuse

namespace Cgofuse

theorem Atomic_Write (s : Memfs) (ctx : Ctx) (path buff : Bytes) (ofst : Int) (fh : Nat) :
    Atomic (s.Write ctx path buff ofst fh) s := by
  unfold Memfs.Write
  split
  · exact Atomic_same rfl
  · exact Atomic_same rfl
  · dsimp only
    split
    · exact Atomic_same rfl
    · split
      · exact Atomic_of_err rfl (fun _ h => by cases h)
      · exact Atomic_of_ok rfl (Int.ofNat_nonneg _)

/-- Every operation is atomic on a returned error code: a call that returns a negative code,
or that raises a `fuse.Error` (`ENAMETOOLONG`, `ENOSPC`), leaves the engine state exactly as it
was. (A call that ends in a Go run-time panic need not.) -/
theorem step_atomic (s : Memfs) (ctx : Ctx) (op : Op) : Atomic (s.step ctx op) s := by
  cases op with
  | Mknod path mode dev => exact Atomic_makeNode _ _ _ _ _ _
  | Mkdir path mode => exact Atomic_makeNode _ _ _ _ _ _
  | Symlink target newpath => exact Atomic_makeNode _ _ _ _ _ _
  | Unlink path => exact Atomic_removeNode _ _ _ _
  | Rmdir path => exact Atomic_removeNode _ _ _ _
  | Link oldpath newpath => exact Atomic_Link _ _ _ _
  | Rename oldpath newpath => exact Atomic_Rename _ _ _ _
  | Write path buff ofst fh => exact Atomic_Write _ _ _ _ _ _
  | Readlink path =>
    show Atomic (code Prod.fst (s.Readlink path)) s
    unfold Memfs.Readlink
    repeat' first
      | exact Atomic_same rfl
      | split
  | Chmod path mode =>
    show Atomic (s.Chmod ctx path mode) s
    unfold Memfs.Chmod
    repeat' first
      | exact Atomic_same rfl
      | exact Atomic_of_ok rfl (Int.le_refl 0)
      | split
  | Chown path uid gid =>
    show Atomic (s.Chown ctx path uid gid) s
    unfold Memfs.Chown
    repeat' first
      | exact Atomic_same rfl
      | exact Atomic_of_ok rfl (Int.le_refl 0)
      | split
  | Utimens path tmsp =>
    show Atomic (s.Utimens ctx path tmsp) s
    unfold Memfs.Utimens
    repeat' first
      | exact Atomic_same rfl
      | exact Atomic_of_ok rfl (Int.le_refl 0)
      | exact Atomic_of_err rfl (fun _ h => by cases h)
      | split
      | (dsimp only; split)
  | Open path flags =>
    show Atomic (code Prod.fst (s.openNode path false)) s
    unfold Memfs.openNode
    repeat' first
      | exact Atomic_same rfl
      | exact Atomic_of_ok rfl (Int.le_refl 0)
      | split
  | Opendir path =>
    show Atomic (code Prod.fst (s.openNode path true)) s
    unfold Memfs.openNode
    repeat' first
      | exact Atomic_same rfl
      | exact Atomic_of_ok rfl (Int.le_refl 0)
      | split
  | Getattr path fh =>
    show Atomic (code Prod.fst (s.Getattr path fh)) s
    unfold Memfs.Getattr
    repeat' first
      | exact Atomic_same rfl
      | split
  | Truncate path size fh =>
    show Atomic (s.Truncate ctx path size fh) s
    unfold Memfs.Truncate
    repeat' first
      | exact Atomic_same rfl
      | exact Atomic_of_ok rfl (Int.le_refl 0)
      | split
  | Read path buff ofst fh =>
    show Atomic (code Prod.fst (s.Read ctx path buff ofst fh)) s
    unfold Memfs.Read
    repeat' first
      | exact Atomic_same rfl
      | exact Atomic_of_ok rfl (Int.ofNat_nonneg _)
      | split
      | (dsimp only; split)
  | Release path fh =>
    show Atomic (s.closeNode fh) s
    unfold Memfs.closeNode
    repeat' first
      | exact Atomic_same rfl
      | exact Atomic_of_ok rfl (Int.le_refl 0)
      | split
  | Releasedir path fh =>
    show Atomic (s.closeNode fh) s
    unfold Memfs.closeNode
    repeat' first
      | exact Atomic_same rfl
      | exact Atomic_of_ok rfl (Int.le_refl 0)
      | split
  | Readdir path fill ofst fh =>
    show Atomic (code Prod.fst (s.Readdir ctx path fill ofst fh)) s
    unfold Memfs.Readdir
    repeat' first
      | exact Atomic_same rfl
      | split
  | Setxattr path name value flags =>
    show Atomic (s.Setxattr path name value flags) s
    unfold Memfs.Setxattr
    repeat' first
      | exact Atomic_same rfl
      | exact Atomic_of_ok rfl (Int.le_refl 0)
      | split
  | Getxattr path name =>
    show Atomic (code Prod.fst (s.Getxattr path name)) s
    unfold Memfs.Getxattr
    repeat' first
      | exact Atomic_same rfl
      | split
  | Removexattr path name =>
    show Atomic (s.Removexattr path name) s
    unfold Memfs.Removexattr
    repeat' first
      | exact Atomic_same rfl
      | exact Atomic_of_ok rfl (Int.le_refl 0)
      | split
  | Listxattr path fill =>
    show Atomic (s.Listxattr ctx path fill) s
    unfold Memfs.Listxattr
    repeat' first
      | exact Atomic_same rfl
      | split
  | Chflags path flags =>
    show Atomic (s.Chflags ctx path flags) s
    unfold Memfs.Chflags
    repeat' first
      | exact Atomic_same rfl
      | exact Atomic_of_ok rfl (Int.le_refl 0)
      | split
  | Setcrtime path tmsp =>
    show Atomic (s.Setcrtime ctx path tmsp) s
    unfold Memfs.Setcrtime
    repeat' first
      | exact Atomic_same rfl
      | exact Atomic_of_ok rfl (Int.le_refl 0)
      | split
  | Setchgtime path tmsp =>
    show Atomic (s.Setchgtime path tmsp) s
    unfold Memfs.Setchgtime
    repeat' first
      | exact Atomic_same rfl
      | exact Atomic_of_ok rfl (Int.le_refl 0)
      | split

end Cgofuse

namespace Cgofuse

/-! ## `makeNode` under a parent that has a children mapping -/

/-- The walk along a path whose last slot was empty is the same after that slot has been
filled, up to its last step, which now finds the new node. -/
theorem lookupLoop_after_set {h h2 : Nat → node_t} {nx T a : Nat} {tn : Bytes}
    (hch : ∀ p, (h p).chldOK nx) (habs : (h T).child tn = none)
    (hsame : ∀ q c, q < nx → ¬(q = T ∧ c = tn) → (h2 q).child c = (h q).child c)
    (hnew : (h2 T).child tn = some a)
    (cs : List Bytes) {prnt : Ptr} {name : Bytes} {node node2 : Ptr}
    (hnode : ∀ n, node = some n → n < nx)
    (hr : lookupLoop h none cs prnt name node = .ok (some T, tn, none))
    (hrel : (node2 = node ∧ ¬(prnt = some T ∧ name = tn)) ∨
      (prnt = some T ∧ name = tn ∧ node = none ∧ node2 = some a)) :
    lookupLoop h2 none cs prnt name node2 = .ok (some T, tn, some a) := by
  induction cs generalizing prnt name node node2 with
  | nil =>
    simp only [lookupLoop, Except.ok.injEq, Prod.mk.injEq] at hr ⊢
    rcases hrel with ⟨_, h2⟩ | ⟨h1, h2, _, h4⟩
    · exact absurd ⟨hr.1, hr.2.1⟩ h2
    · exact ⟨h1, h2, h4⟩
  | cons c cs ih =>
    unfold lookupLoop at hr ⊢
    by_cases hc0 : c ≠ []
    · rw [if_pos hc0] at hr ⊢
      by_cases hl : 255 < c.length
      · rw [if_pos hl] at hr; cases hr
      · rw [if_neg hl] at hr ⊢
        rcases hrel with ⟨h1, h2⟩ | ⟨_, _, h3, _⟩
        · subst h1
          cases node2 with
          | none =>
            simp only [Except.ok.injEq, Prod.mk.injEq] at hr
            cases hr.1
          | some p =>
            dsimp only at hr ⊢
            rw [if_neg (by simp)] at hr ⊢
            have hp : p < nx := hnode p rfl
            by_cases ht : p = T ∧ c = tn
            · obtain ⟨ht1, ht2⟩ := ht
              subst ht1; subst ht2
              rw [habs] at hr
              rw [hnew]
              exact ih (fun n hn => by cases hn) hr (Or.inr ⟨rfl, rfl, rfl, rfl⟩)
            · rw [hsame p c hp ht]
              exact ih (fun n hn => child_lt (hch p) hn) hr
                (Or.inl ⟨rfl, fun hx => ht ⟨Option.some.inj hx.1, hx.2⟩⟩)
        · subst h3
          simp only [Except.ok.injEq, Prod.mk.injEq] at hr
          cases hr.1
    · rw [if_neg hc0] at hr ⊢
      exact ih hnode hr hrel

end Cgofuse

namespace Cgofuse

/-- The bytes of `sliceOf d` are `d`. -/
theorem range_map_getD (d : Bytes) : (List.range d.length).map (fun i => d.getD i 0) = d := by
  apply List.ext_getElem
  · simp
  · intro i h1 h2
    simp [List.getD_eq_getElem, h2]

/-- Where the parent of a missing path has a children mapping, `makeNode` returns 0: the
path then resolves to a new node that carries the incremented inode counter, link count 1,
the given mode and the given data, and that is entered under its name in the parent; no
other node changes. -/
theorem makeNode_under_directory {s : Memfs} (hs : Reachable s) (ctx : Ctx) (path : Bytes)
    (mode dev : Nat) (data : Option Bytes) {pp : Nat} {name : Bytes} {m : List (Bytes × Nat)}
    (hl : s.lookupNode path none = .ok (some pp, name, none))
    (hm : (s.heap pp).chld = some m) :
    (s.makeNode ctx path mode dev data).1 = .ok 0 ∧
    (s.makeNode ctx path mode dev data).2.ino = s.ino + 1 ∧
    (s.makeNode ctx path mode dev data).2.lookupNode path none
      = .ok (some pp, name, some s.next) ∧
    ((s.makeNode ctx path mode dev data).2.heap pp).chld = some (mapSet m name s.next) ∧
    ((s.makeNode ctx path mode dev data).2.heap s.next).stat.Ino = s.ino + 1 ∧
    ((s.makeNode ctx path mode dev data).2.heap s.next).stat.Nlink = 1 ∧
    ((s.makeNode ctx path mode dev data).2.heap s.next).stat.Mode = mode ∧
    ((s.makeNode ctx path mode dev data).2.heap s.next).stat.Size = ((data.getD []).length : Int) ∧
    (s.makeNode ctx path mode dev data).2.content s.next = data.getD [] ∧
    ∀ q, q ≠ pp → q ≠ s.next → (s.makeNode ctx path mode dev data).2.heap q = s.heap q := by
  have hw := hs.wf
  have hpp : pp < s.next := (hw.lookup_lt hl).1 pp rfl
  have hne : s.next ≠ pp := by omega
  unfold Memfs.makeNode
  rw [hl]
  dsimp only [Memfs.alloc]
  rw [if_neg (by simp)]
  split
  · rename_i hx; rw [if_neg (Ne.symm hne), hm] at hx; cases hx
  · rename_i m2 hx
    rw [if_neg (Ne.symm hne), hm] at hx
    cases hx
    refine ⟨rfl, rfl, ?_, ?_, ?_, ?_, ?_, ?_, ?_, ?_⟩
    · unfold Memfs.lookupNode at hl ⊢
      refine lookupLoop_after_set hw.chld ?_ ?_ ?_ (split path)
        (fun n hn => (by cases hn; exact hw.root_lt)) hl
        (Or.inl ⟨rfl, fun hx => lookupNode_name hl hx.2.symm⟩)
      · rcases lookupNode_slot hl with h | h
        · rcases h with ⟨_, _, h⟩ | ⟨_, p, h1, h2⟩
          · cases h
          · cases h1; exact h2.symm
        · cases h.2.1
      · intro q c hq hqc
        by_cases hqp : q = pp
        · subst hqp
          have hc : c ≠ name := fun hx => hqc ⟨rfl, hx⟩
          rw [heap_upd, if_pos rfl]
          exact (child_mapSet hm rfl c).trans (if_neg hc)
        · rw [heap_upd, if_neg hqp]
          dsimp only
          rw [if_neg (by omega)]
      · rw [heap_upd, if_pos rfl]
        exact (child_mapSet hm rfl name).trans (if_pos rfl)
    · rw [heap_upd, if_pos rfl]
    · rw [heap_upd, if_neg hne]
      dsimp only
      rw [if_pos rfl]
      cases data <;> rfl
    · rw [heap_upd, if_neg hne]
      dsimp only
      rw [if_pos rfl]
      cases data <;> rfl
    · rw [heap_upd, if_neg hne]
      dsimp only
      rw [if_pos rfl]
      cases data <;> rfl
    · rw [heap_upd, if_neg hne]
      dsimp only
      rw [if_pos rfl]
      cases data <;> rfl
    · unfold Memfs.content
      rw [heap_upd, if_neg hne]
      dsimp only
      rw [if_pos rfl]
      cases data with
      | none => rfl
      | some d =>
        show (List.range ((d.length : Int)).toNat).map (fun i => d.getD i 0) = d
        rw [Int.toNat_ofNat]
        exact range_map_getD d
    · intro q h1 h2
      rw [heap_upd, if_neg h1]
      dsimp only
      rw [if_neg h2]

/-- The theorem above at `Symlink("x", "/l")` in the state that holds the file `/a`: the
parent is the root directory, and the new link holds the target `x`. -/
theorem makeNode_under_directory_witness :
    (stA.makeNode ctx0 (str "/l") (S_IFLNK ||| 0o777) 0 (some (str "x"))).1 = .ok 0 ∧
    (stA.makeNode ctx0 (str "/l") (S_IFLNK ||| 0o777) 0 (some (str "x"))).2.content 2
      = str "x" :=
  have h := makeNode_under_directory stA_reachable ctx0 (str "/l") (S_IFLNK ||| 0o777) 0
    (some (str "x"))
    (show stA.lookupNode (str "/l") none = .ok (some 0, str "l", none) from by decide)
    (show (stA.heap 0).chld = some [(str "a", 1)] from by decide)
  ⟨h.1, h.2.2.2.2.2.2.2.2.1⟩

end Cgofuse

namespace Cgofuse

/-! ## `Rename` onto the same slot -/

/-- C3 (the divergence, in general). If `oldpath` resolves to a node and `newpath` resolves to
the same parent and the same final name (in particular `newpath = oldpath`), then
`Rename(oldpath, newpath)` returns `-EINVAL`, not 0, with the state as it was: the walk along
`newpath` meets the old node as the ancestor and comes back with an empty name, which is
tested before the same-slot branch `oldprnt == newprnt && oldname == newname`. That branch is
taken in no state. -/
theorem Rename_same_slot_EINVAL (s : Memfs) (ctx : Ctx) (oldpath newpath : Bytes)
    {pr : Ptr} {nm : Bytes} {n : Nat} {x : Ptr}
    (hl : s.lookupNode oldpath none = .ok (pr, nm, some n))
    (hl2 : s.lookupNode newpath none = .ok (pr, nm, x)) :
    s.Rename ctx oldpath newpath = (.ok (-EINVAL), s) := by
  obtain ⟨pp, hpp⟩ := lookupNode_parent hl
  subst hpp
  have h2 : ∃ p y, s.lookupNode newpath (some n) = .ok (some p, [], y) := by
    unfold Memfs.lookupNode at hl2 ⊢
    rcases lookupLoop_anc s.heap n (split newpath) (some s.root) [] (some s.root) with h1 | ⟨p, h1⟩
    · by_cases hnm : nm = []
      · subst hnm
        exact ⟨pp, x, h1.trans hl2⟩
      · exfalso
        have hx : x ≠ some n := lookupLoop_anc_node s.heap n (split newpath) (h1.trans hl2) hnm
          (Or.inl rfl)
        have e1 : some n = (s.heap pp).child nm := by
          rcases lookupNode_slot hl with h | h
          · rcases h with ⟨h, _, _⟩ | ⟨_, p, h3, h4⟩
            · exact absurd h hnm
            · cases h3; exact h4
          · cases h.2.1
        have e2 : x = (s.heap pp).child nm := by
          have hl3 : s.lookupNode newpath none = .ok (some pp, nm, x) := hl2
          rcases lookupNode_slot hl3 with h | h
          · rcases h with ⟨h, _, _⟩ | ⟨_, p, h3, h4⟩
            · exact absurd h hnm
            · cases h3; exact h4
          · cases h.2.1
        exact hx (e2.trans e1.symm)
    · exact ⟨p, some n, h1⟩
  obtain ⟨p, y, h2⟩ := h2
  unfold Memfs.Rename
  rw [hl]
  dsimp only
  rw [h2]
  dsimp only
  rw [if_pos rfl]

/-- C3, the failing input: the theorem at `Rename("/a", "/a")` in the state that holds the
file `/a`. The path names the same slot twice, yet the call returns `-EINVAL`. -/
theorem Rename_same_slot_EINVAL_witness :
    stA.lookupNode (str "/a") none = .ok (some 0, str "a", some 1) ∧
    stA.Rename ctx1 (str "/a") (str "/a") = (.ok (-EINVAL), stA) :=
  ⟨by decide,
   Rename_same_slot_EINVAL stA ctx1 (str "/a") (str "/a")
    (show stA.lookupNode (str "/a") none = .ok (some 0, str "a", some 1) from by decide)
    (show stA.lookupNode (str "/a") none = .ok (some 0, str "a", some 1) from by decide)⟩

/-! ## The refusals of `makeNode` -/

/-- The call `makeNode` returns `-ENOENT` when the walk reports no parent and `-EEXIST` when it
reports a node (the root path included); the state stays as it was. -/
theorem makeNode_refused (s : Memfs) (ctx : Ctx) (path : Bytes) (mode dev : Nat)
    (data : Option Bytes) :
    (∀ nm nd, s.lookupNode path none = .ok (none, nm, nd) →
      s.makeNode ctx path mode dev data = (.ok (-ENOENT), s)) ∧
    (∀ pp nm n, s.lookupNode path none = .ok (some pp, nm, some n) →
      s.makeNode ctx path mode dev data = (.ok (-EEXIST), s)) := by
  refine ⟨fun nm nd h => ?_, fun pp nm n h => ?_⟩
  · unfold Memfs.makeNode
    rw [h]
  · unfold Memfs.makeNode
    rw [h]
    dsimp only
    rw [if_pos (by simp)]

end Cgofuse

namespace Cgofuse

section
set_option linter.unusedTactic false
set_option linter.unreachableTactic false

/-! ## Inode numbers stay below the counter -/

theorem InoOK_upd {s : Memfs} (h : InoOK s) (p : Nat) (f : node_t → node_t)
    (hf : (f (s.heap p)).stat.Ino = (s.heap p).stat.Ino) : InoOK (s.upd p f) := by
  intro q
  rw [heap_upd]
  split
  · rw [hf]; exact h p
  · exact h q

theorem InoOK_openmap {s : Memfs} (h : InoOK s) (m : List (Nat × Nat)) :
    InoOK { s with openmap := m } := h

theorem InoOK_alloc {s : Memfs} (h : InoOK s) (n1 : node_t) (hn : n1.stat.Ino ≤ s.ino + 1) :
    InoOK ({ s with ino := s.ino + 1 }.alloc n1).2 := by
  intro q
  show (if q = s.next then n1 else s.heap q).stat.Ino ≤ s.ino + 1
  split
  · exact hn
  · exact Nat.le_succ_of_le (h q)

theorem inoOK_makeNode {s : Memfs} (h : InoOK s) (ctx : Ctx) (path : Bytes) (mode dev : Nat)
    (data : Option Bytes) : InoOK (s.makeNode ctx path mode dev data).2 := by
  unfold Memfs.makeNode
  cases data <;>
  repeat' first
    | split
    | (dsimp only; split)
  all_goals (try dsimp only)
  all_goals first
    | exact h
    | exact InoOK_alloc h _ (Nat.le_refl _)
    | (refine InoOK_upd (InoOK_alloc h _ (Nat.le_refl _)) _ _ rfl)

theorem inoOK_removeNode {s : Memfs} (h : InoOK s) (ctx : Ctx) (path : Bytes) (dir : Bool) :
    InoOK (s.removeNode ctx path dir).2 := by
  unfold Memfs.removeNode
  repeat' first
    | split
    | (dsimp only; split)
  all_goals (try dsimp only)
  repeat' first
    | exact h
    | (refine InoOK_upd ?_ _ _ rfl)

theorem inoOK_Link {s : Memfs} (h : InoOK s) (ctx : Ctx) (oldpath newpath : Bytes) :
    InoOK (s.Link ctx oldpath newpath).2 := by
  unfold Memfs.Link
  repeat' first
    | split
    | (dsimp only; split)
  all_goals (try dsimp only)
  repeat' first
    | exact h
    | (refine InoOK_upd ?_ _ _ rfl)

theorem inoOK_moveEntry {s : Memfs} (h : InoOK s) (oldprnt : Ptr) (oldname : Bytes) (np : Nat)
    (newname : Bytes) (old : Nat) : InoOK (s.moveEntry oldprnt oldname np newname old).2 := by
  unfold Memfs.moveEntry
  repeat' first
    | split
    | (dsimp only; split)
  all_goals (try dsimp only)
  repeat' first
    | exact h
    | (refine InoOK_upd ?_ _ _ rfl)

theorem inoOK_Rename {s : Memfs} (h : InoOK s) (ctx : Ctx) (oldpath newpath : Bytes) :
    InoOK (s.Rename ctx oldpath newpath).2 := by
  unfold Memfs.Rename
  split
  · exact h
  · split
    · exact h
    · split
      · exact h
      · split
        · exact h
        · split
          · exact h
          · split
            · exact h
            · dsimp only
              split
              · rename_i e s1 hs1
                have h1 : InoOK s1 := by
                  split at hs1
                  · have e2 := congrArg Prod.snd hs1
                    dsimp only at e2
                    rw [← e2]
                    exact inoOK_removeNode h _ _ _
                  · cases hs1
                exact h1
              · rename_i errc s1 hs1
                have h1 : InoOK s1 := by
                  split at hs1
                  · have e2 := congrArg Prod.snd hs1
                    dsimp only at e2
                    rw [← e2]
                    exact inoOK_removeNode h _ _ _
                  · cases hs1; exact h
                split
                · exact h1
                · exact inoOK_moveEntry h1 _ _ _ _ _

theorem inoOK_openNode {s : Memfs} (h : InoOK s) (path : Bytes) (dir : Bool) :
    InoOK (s.openNode path dir).2 := by
  unfold Memfs.openNode
  split
  · exact h
  · split
    · exact h
    · rename_i n _
      split
      · exact h
      · split
        · exact h
        · have h1 : InoOK (s.upd n fun nd => { nd with opencnt := nd.opencnt + 1 }) :=
            InoOK_upd h _ _ rfl
          dsimp only
          split
          · exact h1
          · exact h1

theorem inoOK_closeNode {s : Memfs} (h : InoOK s) (fh : Nat) : InoOK (s.closeNode fh).2 := by
  unfold Memfs.closeNode
  split
  · exact h
  · rename_i n _
    have h1 : InoOK (s.upd n fun nd => { nd with opencnt := nd.opencnt - 1 }) :=
      InoOK_upd h _ _ rfl
    dsimp only
    split
    · exact h1
    · exact h1

end

end Cgofuse

namespace Cgofuse

section
set_option linter.unusedTactic false
set_option linter.unreachableTactic false

theorem inoOK_Write {s : Memfs} (h : InoOK s) (ctx : Ctx) (path buff : Bytes) (ofst : Int)
    (fh : Nat) : InoOK (s.Write ctx path buff ofst fh).2 := by
  unfold Memfs.Write
  split
  · exact h
  · exact h
  · rename_i n _
    dsimp only
    split
    · exact h
    · rename_i s1 hs1
      have h1 : InoOK s1 := by
        split at hs1
        · split at hs1
          · cases hs1
          · cases hs1
            exact InoOK_upd h _ _ rfl
        · cases hs1
          exact h
      split
      · exact h1
      · dsimp only
        exact InoOK_upd h1 _ _ rfl

/-- Every operation keeps the inode numbers of all nodes at or below the counter. -/
theorem inoOK_step {s : Memfs} (h : InoOK s) (ctx : Ctx) (op : Op) :
    InoOK (s.step ctx op).2 := by
  cases op with
  | Mknod path mode dev => exact inoOK_makeNode h _ _ _ _ _
  | Mkdir path mode => exact inoOK_makeNode h _ _ _ _ _
  | Symlink target newpath => exact inoOK_makeNode h _ _ _ _ _
  | Unlink path => exact inoOK_removeNode h _ _ _
  | Rmdir path => exact inoOK_removeNode h _ _ _
  | Link oldpath newpath => exact inoOK_Link h _ _ _
  | Rename oldpath newpath => exact inoOK_Rename h _ _ _
  | Open path flags => exact inoOK_openNode h _ _
  | Opendir path => exact inoOK_openNode h _ _
  | Release path fh => exact inoOK_closeNode h _
  | Releasedir path fh => exact inoOK_closeNode h _
  | Write path buff ofst fh => exact inoOK_Write h _ _ _ _ _
  | Readlink path =>
    show InoOK (s.Readlink path).2
    unfold Memfs.Readlink
    repeat' first
      | split
      | (dsimp only; split)
    all_goals (try dsimp only)
    repeat' first
      | exact h
      | (refine InoOK_upd ?_ _ _ rfl)
  | Chmod path mode =>
    show InoOK (s.Chmod ctx path mode).2
    unfold Memfs.Chmod
    repeat' first
      | split
      | (dsimp only; split)
    all_goals (try dsimp only)
    repeat' first
      | exact h
      | (refine InoOK_upd ?_ _ _ rfl)
  | Chown path uid gid =>
    show InoOK (s.Chown ctx path uid gid).2
    unfold Memfs.Chown
    repeat' first
      | split
      | (dsimp only; split)
    all_goals (try dsimp only)
    repeat' first
      | exact h
      | (refine InoOK_upd ?_ _ _ rfl)
  | Utimens path tmsp =>
    show InoOK (s.Utimens ctx path tmsp).2
    unfold Memfs.Utimens
    repeat' first
      | split
      | (dsimp only; split)
    all_goals (try dsimp only)
    repeat' first
      | exact h
      | (refine InoOK_upd ?_ _ _ rfl)
  | Getattr path fh =>
    show InoOK (s.Getattr path fh).2
    unfold Memfs.Getattr
    repeat' first
      | split
      | (dsimp only; split)
    all_goals (try dsimp only)
    repeat' first
      | exact h
      | (refine InoOK_upd ?_ _ _ rfl)
  | Truncate path size fh =>
    show InoOK (s.Truncate ctx path size fh).2
    unfold Memfs.Truncate
    repeat' first
      | split
      | (dsimp only; split)
    all_goals (try dsimp only)
    repeat' first
      | exact h
      | (refine InoOK_upd ?_ _ _ rfl)
  | Read path buff ofst fh =>
    show InoOK (s.Read ctx path buff ofst fh).2
    unfold Memfs.Read
    repeat' first
      | split
      | (dsimp only; split)
    all_goals (try dsimp only)
    repeat' first
      | exact h
      | (refine InoOK_upd ?_ _ _ rfl)
  | Readdir path fill ofst fh =>
    show InoOK (s.Readdir ctx path fill ofst fh).2
    unfold Memfs.Readdir
    repeat' first
      | split
      | (dsimp only; split)
    all_goals (try dsimp only)
    repeat' first
      | exact h
      | (refine InoOK_upd ?_ _ _ rfl)
  | Setxattr path name value flags =>
    show InoOK (s.Setxattr path name value flags).2
    unfold Memfs.Setxattr
    repeat' first
      | split
      | (dsimp only; split)
    all_goals (try dsimp only)
    repeat' first
      | exact h
      | (refine InoOK_upd ?_ _ _ rfl)
  | Getxattr path name =>
    show InoOK (s.Getxattr path name).2
    unfold Memfs.Getxattr
    repeat' first
      | split
      | (dsimp only; split)
    all_goals (try dsimp only)
    repeat' first
      | exact h
      | (refine InoOK_upd ?_ _ _ rfl)
  | Removexattr path name =>
    show InoOK (s.Removexattr path name).2
    unfold Memfs.Removexattr
    repeat' first
      | split
      | (dsimp only; split)
    all_goals (try dsimp only)
    repeat' first
      | exact h
      | (refine InoOK_upd ?_ _ _ rfl)
  | Listxattr path fill =>
    show InoOK (s.Listxattr ctx path fill).2
    unfold Memfs.Listxattr
    repeat' first
      | split
      | (dsimp only; split)
    all_goals (try dsimp only)
    repeat' first
      | exact h
      | (refine InoOK_upd ?_ _ _ rfl)
  | Chflags path flags =>
    show InoOK (s.Chflags ctx path flags).2
    unfold Memfs.Chflags
    repeat' first
      | split
      | (dsimp only; split)
    all_goals (try dsimp only)
    repeat' first
      | exact h
      | (refine InoOK_upd ?_ _ _ rfl)
  | Setcrtime path tmsp =>
    show InoOK (s.Setcrtime ctx path tmsp).2
    unfold Memfs.Setcrtime
    repeat' first
      | split
      | (dsimp only; split)
    all_goals (try dsimp only)
    repeat' first
      | exact h
      | (refine InoOK_upd ?_ _ _ rfl)
  | Setchgtime path tmsp =>
    show InoOK (s.Setchgtime path tmsp).2
    unfold Memfs.Setchgtime
    repeat' first
      | split
      | (dsimp only; split)
    all_goals (try dsimp only)
    repeat' first
      | exact h
      | (refine InoOK_upd ?_ _ _ rfl)

theorem inoOK_init (now : Timespec) : InoOK (NewMemfs now) := by
  intro p
  show (if p = 0 then _ else zeroNode).stat.Ino ≤ 1
  split
  · exact Nat.le_refl _
  · exact Nat.zero_le _

/-- In every reachable state no node carries an inode number above the counter. -/
theorem Reachable.inoOK {s : Memfs} (hs : Reachable s) : InoOK s := by
  induction hs with
  | init now => exact inoOK_init now
  | step ctx op _ ih => exact inoOK_step ih ctx op

end

end Cgofuse

namespace Cgofuse

/-- The inode number that `makeNode` gives to a new node is fresh: in a reachable state it is
the incremented counter, which is above the inode number of every node there is. -/
theorem makeNode_fresh_ino {s : Memfs} (hs : Reachable s) (ctx : Ctx) (path : Bytes)
    (mode dev : Nat) (data : Option Bytes) {pp : Nat} {name : Bytes} {m : List (Bytes × Nat)}
    (hl : s.lookupNode path none = .ok (some pp, name, none))
    (hm : (s.heap pp).chld = some m) (q : Nat) :
    (s.heap q).stat.Ino < ((s.makeNode ctx path mode dev data).2.heap s.next).stat.Ino := by
  rw [(makeNode_under_directory hs ctx path mode dev data hl hm).2.2.2.2.1]
  exact Nat.lt_succ_of_le (hs.inoOK q)

end Cgofuse

namespace Cgofuse

/-! ## `Write`: the size and the bytes it leaves -/

theorem content_getD (s : Memfs) (n : Nat) {i : Nat} (hi : i < (s.heap n).stat.Size.toNat) :
    (s.content n).getD i 0 = (s.heap n).data.arr i := by
  unfold Memfs.content
  rw [List.getD_eq_getElem _ _ (by simpa using hi)]
  simp

/-- C11 (as amended). For every reachable state, every node reached by path (handle = all-ones)
or by an open handle, with content `C` of size `s`, every byte string `B` and every offset
`o ≥ 0` with `o + |B| + 65535 < 2^63`, in a call during which `make` returns a buffer of the
capacity `o + |B|` rounded up to 64 KiB (the capacity is within the allocation limit of the
run-time and the operating system has the memory) if the file has to grow and its payload
does not have that capacity already: `Write(p, B, o)` returns `|B|`; afterwards the size is `max(s, o + |B|)`,
the bytes `[o, o + |B|)` are `B`, the bytes of the gap `[s, o)` are zero, and every byte of
`[0, s)` outside `[o, o + |B|)` is as it was in `C`. -/
theorem Write_gap_fill {s : Memfs} (hs : Reachable s) (ctx : Ctx) (path : Bytes)
    (fh n : Nat) (hn : s.getNode path fh = .ok (some n)) (B : Bytes) (ofst : Int)
    (h0 : 0 ≤ ofst) (h1 : ofst + B.length + 65535 < 2 ^ 63)
    (h2 : (s.heap n).stat.Size < ofst + B.length →
      ((s.heap n).data.cap : Int) ≠ roundUp (ofst + B.length) →
      ctx.grants (roundUp (ofst + B.length))) :
    (s.Write ctx path B ofst fh).1 = .ok (B.length : Int) ∧
    ((s.Write ctx path B ofst fh).2.heap n).stat.Size =
      max (s.heap n).stat.Size (ofst + B.length) ∧
    (∀ i, i < B.length →
      ((s.Write ctx path B ofst fh).2.content n).getD (ofst.toNat + i) 0 = B.getD i 0) ∧
    (∀ i, (s.heap n).stat.Size.toNat ≤ i → i < ofst.toNat →
      ((s.Write ctx path B ofst fh).2.content n).getD i 0 = 0) ∧
    (∀ i, i < (s.heap n).stat.Size.toNat → ¬(ofst.toNat ≤ i ∧ i < ofst.toNat + B.length) →
      ((s.Write ctx path B ofst fh).2.content n).getD i 0 = (s.content n).getD i 0) := by
  obtain ⟨s2, hw, _, _, _, hsz, _, harr⟩ := Write_spec hs.wf ctx hn B h0 h1 h2
  have hdat := hs.wf.data n
  have hsz0 : 0 ≤ (s.heap n).stat.Size := by rw [hdat.1]; omega
  rw [hw]
  dsimp only
  refine ⟨rfl, hsz, ?_, ?_, ?_⟩
  · intro i hi
    have hlt : ofst.toNat + i < (s2.heap n).stat.Size.toNat := by rw [hsz]; omega
    rw [content_getD s2 n hlt, harr _ hlt, if_pos (by omega)]
    congr 1
    omega
  · intro i hi1 hi2
    have hlt : i < (s2.heap n).stat.Size.toNat := by rw [hsz]; omega
    rw [content_getD s2 n hlt, harr _ hlt, if_neg (by omega), if_neg (by omega)]
  · intro i hi1 hi2
    have hlt : i < (s2.heap n).stat.Size.toNat := by rw [hsz]; omega
    rw [content_getD s2 n hlt, harr _ hlt, if_neg hi2, if_pos hi1, content_getD s n hi1]

/-- An instance of `Write_gap_fill`: two bytes written at offset 3 of the empty file `/a` of
the example state. -/
theorem Write_gap_fill_witness :
    (stA.Write ctx1 (str "/a") (str "hi") 3 noHandle).1 = .ok 2 ∧
    ((stA.Write ctx1 (str "/a") (str "hi") 3 noHandle).2.heap 1).stat.Size = 5 ∧
    (stA.Write ctx1 (str "/a") (str "hi") 3 noHandle).2.content 1 = [0, 0, 0, 104, 105] :=
  have h := Write_gap_fill stA_reachable ctx1 (str "/a") noHandle 1 (by decide) (str "hi") 3
    (by decide) (by decide) (fun _ _ => by decide)
  ⟨h.1, h.2.1, by decide⟩

/-- C11 fails as stated: on the regular file `/a` of the example state (size 0), `Write` of
two bytes at the offset `2^63 - 65536` ends in `ENOSPC`, because rounding the new size up to
the allocation unit overflows; the size stays 0 and is not `max(0, o + 2)`. The same happens
for two bytes at the offset `2^50`, where the capacity is above the allocation limit of the
run-time, whatever memory the operating system has. -/
theorem Write_gap_huge_offset_size :
    Reachable stA ∧ stA.getNode (str "/a") noHandle = .ok (some 1) ∧
    (stA.heap 1).stat.Mode = 0o100644 ∧ (stA.heap 1).stat.Size = 0 ∧
    (0 : Int) ≤ maxInt64 - 65535 ∧
    (stA.Write ctx1 (str "/a") [1, 1] (maxInt64 - 65535) noHandle).1 =
      .error (.fuseError (-ENOSPC)) ∧
    ((stA.Write ctx1 (str "/a") [1, 1] (maxInt64 - 65535) noHandle).2.heap 1).stat.Size = 0 ∧
    max (stA.heap 1).stat.Size (maxInt64 - 65535 + 2) ≠ 0 ∧
    maxAlloc = 2 ^ 48 ∧
    (stA.Write ctxBig (str "/a") [1, 1] (2 ^ 50) noHandle).1 =
      .error (.fuseError (-ENOSPC)) ∧
    ((stA.Write ctxBig (str "/a") [1, 1] (2 ^ 50) noHandle).2.heap 1).stat.Size = 0 :=
  ⟨stA_reachable, by decide, by decide, by decide, by decide, by decide, by decide, by decide,
    by decide, by decide, by decide⟩

end Cgofuse

namespace Cgofuse

/-! ## The result of `resize` -/

/-- C20 (as amended). For every input buffer, every target size `≥ 0` with
`size + 65535 < 2^63`, and either value of the zero-init flag. If the capacity of the buffer
differs from the size rounded up to a multiple of 65536, `resize` allocates: when `make`
returns a buffer of the rounded size, `resize` returns a buffer whose length is the size,
whose capacity is the rounded size, whose first `min(old length, size)` bytes are those of
the input and whose bytes from the old length up to the size are zero; when the rounded size
is above the allocation limit of the run-time, `resize` raises `ENOSPC`; when it is within
the limit and the operating system does not have the memory, the process ends. If the
capacity is already the rounded size, `resize` does not allocate: with the flag set it
returns a buffer of that shape, in the same capacity; with the flag not set it returns the
input buffer as it is, its length included. -/
theorem resize_result_shape (ctx : Ctx) (sl : slice_t) (size : Int) (zeroinit : Bool)
    (h0 : 0 ≤ size) (h1 : size + 65535 < 2 ^ 63) :
    ((sl.cap : Int) ≠ roundUp size → ctx.grants (roundUp size) →
      ∃ d, resize ctx sl size zeroinit = .ok d ∧ d.len = size.toNat ∧
        (d.cap : Int) = roundUp size ∧
        (∀ i, i < min sl.len size.toNat → d.arr i = sl.arr i) ∧
        (∀ i, sl.len ≤ i → i < size.toNat → d.arr i = 0)) ∧
    ((sl.cap : Int) ≠ roundUp size → (maxAlloc : Int) < roundUp size →
      resize ctx sl size zeroinit = .error (.fuseError (-ENOSPC))) ∧
    ((sl.cap : Int) ≠ roundUp size → roundUp size ≤ maxAlloc →
      (ctx.avail : Int) < roundUp size → resize ctx sl size zeroinit = .error .fatal) ∧
    ((sl.cap : Int) = roundUp size → zeroinit = true →
      ∃ d, resize ctx sl size zeroinit = .ok d ∧ d.len = size.toNat ∧
        (d.cap : Int) = roundUp size ∧
        (∀ i, i < min sl.len size.toNat → d.arr i = sl.arr i) ∧
        (∀ i, sl.len ≤ i → i < size.toNat → d.arr i = 0)) ∧
    ((sl.cap : Int) = roundUp size → zeroinit = false →
      resize ctx sl size zeroinit = .ok sl) := by
  have hA := allocsize_eq_roundUp h0 h1
  have hge : size ≤ roundUp size := by unfold roundUp; omega
  have hr0 : 0 ≤ roundUp size := by omega
  refine ⟨?_, ?_, ?_, ?_, ?_⟩
  · intro hc hm
    unfold Ctx.grants at hm
    unfold resize
    simp only []
    rw [hA, if_pos hc, if_neg (by omega), if_neg (by omega)]
    refine ⟨_, rfl, rfl, ?_, ?_, ?_⟩
    · show ((roundUp size).toNat : Int) = roundUp size
      omega
    · intro i hi
      show (if i < min size.toNat sl.len then sl.arr i else 0) = sl.arr i
      rw [if_pos (by omega)]
    · intro i hi1 hi2
      show (if i < min size.toNat sl.len then sl.arr i else 0) = 0
      rw [if_neg (by omega)]
  · intro hc hm
    unfold resize
    simp only []
    rw [hA, if_pos hc, if_pos (Or.inr (Or.inr hm))]
  · intro hc hm ha
    unfold resize
    simp only []
    rw [hA, if_pos hc, if_neg (by omega), if_pos ha]
  · intro hc hz
    unfold resize
    simp only []
    rw [hA, if_neg (not_not.mpr hc), if_pos hz, if_neg (by omega)]
    refine ⟨_, rfl, rfl, hc, ?_, ?_⟩
    · intro i hi
      show (if sl.len ≤ i ∧ i < size.toNat then 0 else sl.arr i) = sl.arr i
      rw [if_neg (by omega)]
    · intro i hi1 hi2
      show (if sl.len ≤ i ∧ i < size.toNat then 0 else sl.arr i) = 0
      rw [if_pos ⟨hi1, hi2⟩]
  · intro hc hz
    unfold resize
    simp only []
    rw [hA, if_neg (not_not.mpr hc), if_neg (by simp [hz])]

/-- An instance of `resize_result_shape`: the empty buffer grown to 10 bytes, with the
flag set, in a call during which the operating system can give `2^32` bytes. -/
theorem resize_result_shape_witness :
    ∃ d, resize ctx0 nilSlice 10 true = .ok d ∧ d.len = (10 : Int).toNat ∧
      (d.cap : Int) = roundUp 10 ∧
      (∀ i, i < min nilSlice.len (10 : Int).toNat → d.arr i = nilSlice.arr i) ∧
      (∀ i, nilSlice.len ≤ i → i < (10 : Int).toNat → d.arr i = 0) :=
  (resize_result_shape ctx0 nilSlice 10 true (by decide) (by decide)).1 (by decide)
    (by decide)

/-- C20 fails as stated, in three ways. For an empty buffer of capacity 65536, the target
size 10 and the flag not set, `resize` returns a buffer of length 0, not 10: the capacity is
already the rounded size, and the length is only adjusted under the flag. For the target
size `2^63 - 1`, rounding up overflows and `resize` returns no buffer but raises `ENOSPC`.
For the target size `2^50`, which is above the allocation limit of the run-time, `resize`
raises `ENOSPC` as well, whatever memory the operating system has. -/
theorem resize_same_capacity_keeps_length :
    emptyPage.len ≤ emptyPage.cap ∧ (0 : Int) ≤ 10 ∧
    (resize ctx0 emptyPage 10 false).map slice_t.len = .ok 0 ∧
    (resize ctx0 emptyPage 10 false).map slice_t.len ≠ .ok 10 ∧
    (0 : Int) ≤ maxInt64 ∧
    (resize ctx0 nilSlice maxInt64 true).map slice_t.len = .error (.fuseError (-ENOSPC)) ∧
    (resize ctxBig nilSlice (2 ^ 50) true).map slice_t.len = .error (.fuseError (-ENOSPC)) :=
  ⟨by decide, by decide, by decide, by decide, by decide, by decide, by decide⟩

end Cgofuse

namespace Cgofuse

/-! ## Extended attributes -/

theorem xattr_mapSet {n n2 : node_t} {name value : Bytes}
    (h2 : n2.xatr = some (mapSet (n.xatr.getD []) name value)) (k : Bytes) :
    n2.xattr k = if k = name then some value else n.xattr k := by
  unfold node_t.xattr
  rw [h2]
  by_cases hk : k = name
  · subst hk; rw [if_pos rfl]; exact mapGet_mapSet_same _ k value
  · rw [if_neg hk]
    show mapGet (mapSet (n.xatr.getD []) name value) k = _
    rw [mapGet_mapSet_ne _ value hk]
    cases n.xatr <;> rfl

theorem xattr_mapDel {n n2 : node_t} {name : Bytes}
    (h2 : n2.xatr = n.xatr.map fun m => mapDel m name) (k : Bytes) :
    n2.xattr k = if k = name then none else n.xattr k := by
  unfold node_t.xattr
  rw [h2]
  cases n.xatr with
  | none => simp
  | some m =>
    by_cases hk : k = name
    · subst hk; rw [if_pos rfl]; exact mapGet_mapDel_same m k
    · rw [if_neg hk]; exact mapGet_mapDel_ne m hk

/-- C16. For every state, every path that resolves to a node, every attribute name other
than `com.apple.ResourceFork`, every value `v` and `flags = 0`: `Setxattr` returns 0; then
`Getxattr` returns `(0, v)` and changes nothing; then `Removexattr` returns 0; then `Getxattr`
returns `-ENOATTR`; and the attributes of the node under every other name are, after the
`Setxattr` and after the `Removexattr`, what they were at the start. -/
theorem xattr_roundtrip (s : Memfs) (path name value : Bytes) {pr : Ptr} {nm : Bytes}
    {n : Nat} (hl : s.lookupNode path none = .ok (pr, nm, some n))
    (hname : name ≠ resourceFork) :
    (s.Setxattr path name value 0).1 = .ok 0 ∧
    ((s.Setxattr path name value 0).2.Getxattr path name).1 = .ok (0, some value) ∧
    ((s.Setxattr path name value 0).2.Getxattr path name).2 = (s.Setxattr path name value 0).2 ∧
    ((s.Setxattr path name value 0).2.Removexattr path name).1 = .ok 0 ∧
    (((s.Setxattr path name value 0).2.Removexattr path name).2.Getxattr path name).1
      = .ok (-ENOATTR, none) ∧
    ∀ k, k ≠ name →
      (((s.Setxattr path name value 0).2.heap n).xattr k = (s.heap n).xattr k ∧
       (((s.Setxattr path name value 0).2.Removexattr path name).2.heap n).xattr k
        = (s.heap n).xattr k) := by
  have hrf : ¬ resourceFork = name := fun h => hname h.symm
  have hset : s.Setxattr path name value 0 = (.ok 0, s.upd n fun nd =>
      { nd with xatr := some (mapSet (nd.xatr.getD []) name value) }) := by
    unfold Memfs.Setxattr
    rw [hl]
    dsimp only
    rw [if_neg hrf, if_neg (by decide), if_neg (by decide)]
  rw [hset]
  dsimp only
  generalize hs1 : (s.upd n fun nd =>
      { nd with xatr := some (mapSet (nd.xatr.getD []) name value) }) = s1
  have hl1 : s1.lookupNode path none = .ok (pr, nm, some n) := by
    rw [← hs1, lookupNode_upd_congr s n _ rfl]; exact hl
  have hx1 : ∀ k, (s1.heap n).xattr k = if k = name then some value else (s.heap n).xattr k := by
    intro k
    rw [← hs1, upd_heap_same]
    exact xattr_mapSet rfl k
  have hget : s1.Getxattr path name = (.ok (0, some value), s1) := by
    unfold Memfs.Getxattr
    rw [hl1]
    dsimp only
    rw [if_neg hrf, hx1 name, if_pos rfl]
  have hrem : s1.Removexattr path name = (.ok 0, s1.upd n fun nd =>
      { nd with xatr := nd.xatr.map fun m => mapDel m name }) := by
    unfold Memfs.Removexattr
    rw [hl1]
    dsimp only
    rw [if_neg hrf, hx1 name, if_pos rfl, if_neg (by simp)]
  rw [hget, hrem]
  dsimp only
  generalize hs2 : (s1.upd n fun nd =>
      { nd with xatr := nd.xatr.map fun m => mapDel m name }) = s2
  have hl2 : s2.lookupNode path none = .ok (pr, nm, some n) := by
    rw [← hs2, lookupNode_upd_congr s1 n _ rfl]; exact hl1
  have hx2 : ∀ k, (s2.heap n).xattr k = if k = name then none else (s1.heap n).xattr k := by
    intro k
    rw [← hs2, upd_heap_same]
    exact xattr_mapDel rfl k
  refine ⟨rfl, rfl, rfl, rfl, ?_, ?_⟩
  · unfold Memfs.Getxattr
    rw [hl2]
    dsimp only
    rw [if_neg hrf, hx2 name, if_pos rfl]
  · intro k hk
    rw [hx2 k, if_neg hk, hx1 k, if_neg hk]
    exact ⟨rfl, rfl⟩

/-- An instance of `xattr_roundtrip`: the attribute `u` with value `v` on the file `/a` of
the example state. -/
theorem xattr_roundtrip_witness :
    (stA.Setxattr (str "/a") (str "u") (str "v") 0).1 = .ok 0 ∧
    ((stA.Setxattr (str "/a") (str "u") (str "v") 0).2.Getxattr (str "/a") (str "u")).1
      = .ok (0, some (str "v")) :=
  have h := xattr_roundtrip stA (str "/a") (str "u") (str "v")
    (show stA.lookupNode (str "/a") none = .ok (some 0, str "a", some 1) from by decide)
    (by decide)
  ⟨h.1, h.2.1⟩

end Cgofuse

namespace Cgofuse

/-! ## The order of a `range` loop -/

theorem perm_mapDel {α : Type} {m : List (Bytes × α)} {k : Bytes} {v : α}
    (hnd : (m.map Prod.fst).Nodup) (h : mapGet m k = some v) :
    m.Perm ((k, v) :: mapDel m k) := by
  induction m with
  | nil => cases h
  | cons e r ih =>
    obtain ⟨k1, v1⟩ := e
    simp only [List.map_cons, List.nodup_cons] at hnd
    by_cases h1 : k1 = k
    · subst h1
      simp only [mapGet, if_true, Option.some.injEq] at h
      subst h
      have hn : mapGet r k1 = none :=
        mapGet_eq_none.mpr (fun e he hk => hnd.1 (List.mem_map.mpr ⟨e, he, hk⟩))
      simp only [mapDel, if_true, mapDel_of_none hn]
      exact List.Perm.refl _
    · simp only [mapGet, if_neg h1] at h
      simp only [mapDel, if_neg h1]
      exact ((ih hnd.2 h).cons (k1, v1)).trans (List.Perm.swap _ _ _)

/-- A `range` loop visits every entry of the map once. -/
theorem rangeOrder_perm {α : Type} (order : List Bytes) {m : List (Bytes × α)}
    (hnd : (m.map Prod.fst).Nodup) : (rangeOrder order m).Perm m := by
  induction order generalizing m with
  | nil => exact List.Perm.refl _
  | cons k ks ih =>
    unfold rangeOrder
    cases h : mapGet m k with
    | none => exact ih hnd
    | some v =>
      exact ((ih (nodup_keys_mapDel k hnd)).cons _).trans (perm_mapDel hnd h).symm

/-- Every order of the entries of a map is the order of some `range` loop. -/
theorem rangeOrder_of_perm {α : Type} (l : List (Bytes × α)) {m : List (Bytes × α)}
    (hnd : (m.map Prod.fst).Nodup) (hp : l.Perm m) : rangeOrder (l.map Prod.fst) m = l := by
  induction l generalizing m with
  | nil =>
    have : m = [] := List.Perm.eq_nil hp.symm
    subst this
    rfl
  | cons e r ih =>
    obtain ⟨k, v⟩ := e
    have hmem : (k, v) ∈ m := hp.subset (List.mem_cons_self _ _)
    have hg := mapGet_of_mem hnd hmem
    have hr : r.Perm (mapDel m k) := (hp.trans (perm_mapDel hnd hg)).cons_inv
    simp only [List.map_cons, rangeOrder, hg]
    rw [ih (nodup_keys_mapDel k hnd) hr]

/-! ## The calls that `Readdir` makes -/

theorem readdirLoop_spec (s : Memfs) (fill : List FillCall → FillCall → Bool)
    (m : List (Bytes × Nat)) (hist : List FillCall) :
    ∃ k, k ≤ m.length ∧
      readdirLoop s.heap fill m hist = hist ++ (m.take k).map s.dirCall ∧
      (∀ i e, i + 1 < k → m[i]? = some e →
        fill (hist ++ (m.take i).map s.dirCall) (s.dirCall e) = true) ∧
      (k < m.length → 0 < k ∧ ∀ e, m[k - 1]? = some e →
        fill (hist ++ (m.take (k - 1)).map s.dirCall) (s.dirCall e) = false) ∧
      ((∀ h c, fill h c = true) → k = m.length) := by
  induction m generalizing hist with
  | nil =>
    refine ⟨0, Nat.le_refl _, ?_, ?_, ?_, ?_⟩
    · simp [readdirLoop]
    · intro i e hi; omega
    · intro h; exact absurd h (Nat.lt_irrefl _)
    · intro _; rfl
  | cons e r ih =>
    obtain ⟨name, c⟩ := e
    unfold readdirLoop
    dsimp only
    by_cases hf : fill hist (name, some (s.heap c).stat, 0) = true
    · rw [if_pos hf]
      obtain ⟨k, hk, hres, htrue, hlast, hall⟩ := ih (hist ++ [(name, some (s.heap c).stat, 0)])
      refine ⟨k + 1, by simpa using hk, ?_, ?_, ?_, ?_⟩
      · rw [hres]
        simp [Memfs.dirCall]
      · intro i e hi he
        cases i with
        | zero =>
          simp only [List.getElem?_cons_zero, Option.some.injEq] at he
          subst he
          simpa [Memfs.dirCall] using hf
        | succ j =>
          simp only [List.getElem?_cons_succ] at he
          have := htrue j e (by omega) he
          simpa [Memfs.dirCall] using this
      · intro hlt
        have hlt2 : k < r.length := by simpa using hlt
        obtain ⟨hk0, hl⟩ := hlast hlt2
        refine ⟨Nat.succ_pos _, ?_⟩
        intro e he
        have hk1 : k + 1 - 1 = (k - 1) + 1 := by omega
        rw [hk1] at he ⊢
        simp only [List.getElem?_cons_succ] at he
        have := hl e he
        simpa [Memfs.dirCall] using this
      · intro ha
        simp [hall ha]
    · rw [if_neg hf]
      refine ⟨1, by simp, ?_, ?_, ?_, ?_⟩
      · simp [Memfs.dirCall]
      · intro i e hi; omega
      · intro _
        refine ⟨Nat.one_pos, ?_⟩
        intro e he
        simp only [Nat.sub_self, List.getElem?_cons_zero, Option.some.injEq] at he
        subst he
        simpa [Memfs.dirCall] using hf
      · intro ha
        exact absurd (ha _ _) hf

/-- C19 (as amended). For every reachable state, every open handle `fh` (with its node `n`)
and every callback `fill`: `Readdir` returns 0 and leaves the state as it was. It calls
`fill` for `.` and for `..`, whatever these two calls answer, and then for the entries of the
children mapping in the order `v` of the `range` loop of this call, which holds every entry
once and no name twice, and which can be any order of the entries: it calls `fill` for the
first `k` entries of `v`, one call each, where every call for an entry but the last was
answered `true` and, if `k` is less than the number of entries, the last was answered
`false`. When `fill` always answers `true`, it is called once for `.`, once for `..` and once
for every entry. -/
theorem Readdir_calls {s : Memfs} (hs : Reachable s) (ctx : Ctx) (path : Bytes)
    (fill : List FillCall → FillCall → Bool) (ofst : Int) (fh : Nat) {n : Nat}
    (hn : mapGet s.openmap fh = some n) :
    (s.visits ctx n).Perm ((s.heap n).chld.getD []) ∧
    ((s.visits ctx n).map Prod.fst).Nodup ∧
    (∀ l : List (Bytes × Nat), l.Perm ((s.heap n).chld.getD []) →
      s.visits { ctx with order := l.map Prod.fst } n = l) ∧
    ∃ k, k ≤ (s.visits ctx n).length ∧
      s.Readdir ctx path fill ofst fh =
        (.ok (0, s.dirHead n ++ ((s.visits ctx n).take k).map s.dirCall), s) ∧
      (∀ i e, i + 1 < k → (s.visits ctx n)[i]? = some e →
        fill (s.dirHead n ++ ((s.visits ctx n).take i).map s.dirCall) (s.dirCall e) = true) ∧
      (k < (s.visits ctx n).length → 0 < k ∧
        ∀ e, (s.visits ctx n)[k - 1]? = some e →
          fill (s.dirHead n ++ ((s.visits ctx n).take (k - 1)).map s.dirCall) (s.dirCall e)
            = false) ∧
      ((∀ h c, fill h c = true) → k = ((s.heap n).chld.getD []).length) := by
  have hnd : (((s.heap n).chld.getD []).map Prod.fst).Nodup := by
    cases hc : (s.heap n).chld with
    | none => simp
    | some m => exact ((hs.wf.chld n) m hc).2
  have hperm : (s.visits ctx n).Perm ((s.heap n).chld.getD []) := rangeOrder_perm _ hnd
  refine ⟨hperm, ?_, ?_, ?_⟩
  · exact (List.Perm.nodup_iff (hperm.map Prod.fst)).mpr hnd
  · intro l hl
    exact rangeOrder_of_perm l hnd hl
  · obtain ⟨k, hk, hres, h1, h2, h3⟩ :=
      readdirLoop_spec s fill (s.visits ctx n) (s.dirHead n)
    refine ⟨k, hk, ?_, h1, h2, fun ha => by rw [h3 ha, hperm.length_eq]⟩
    unfold Memfs.Readdir
    dsimp only
    rw [hn]
    dsimp only
    rw [← hres]
    rfl

/-- An instance of `Readdir_calls`: the root of the example state with the files `/a` and
`/f`, open under the handle 1, read with a callback that answers `false` to the call for
`a`. In a call during which the loop visits `f` first, `fill` is called for `.`, `..`, `f`
and `a`; in a call during which the loop visits `a` first, it is called for `.`, `..` and
`a`, and not for `f`. With a callback that always answers `true` it is called for all. -/
theorem Readdir_calls_witness :
    (stAFO.visits ctxA 0).Perm ((stAFO.heap 0).chld.getD []) ∧
    (stAFO.visits ctx1 0).map Prod.fst = [str "f", str "a"] ∧
    (stAFO.visits ctxA 0).map Prod.fst = [str "a", str "f"] ∧
    Except.map (fun r => (r.1, r.2.map Prod.fst))
      (stAFO.Readdir ctx1 (str "/") notA 0 1).1
      = .ok (0, [str ".", str "..", str "f", str "a"]) ∧
    Except.map (fun r => (r.1, r.2.map Prod.fst))
      (stAFO.Readdir ctxA (str "/") notA 0 1).1
      = .ok (0, [str ".", str "..", str "a"]) ∧
    Except.map (fun r => (r.1, r.2.map Prod.fst))
      (stAFO.Readdir ctxA (str "/") (fun _ _ => true) 0 1).1
      = .ok (0, [str ".", str "..", str "a", str "f"]) :=
  have h := Readdir_calls
    (Reachable.step ctx0 (.Opendir (str "/")) stAF_reachable) ctxA (str "/") notA 0 1
    (show mapGet stAFO.openmap 1 = some 0 from by decide)
  ⟨h.1, by decide, by decide, by decide, by decide, by decide⟩

/-- C19 fails as stated: on the root of the example state, open under the handle 1, a
callback that always answers `false` is called three times, for `.`, for `..` and for the
entry `a`: the answers to the calls for `.` and `..` are not looked at. -/
theorem Readdir_goes_on_after_false :
    Reachable stAO ∧ mapGet stAO.openmap 1 = some 0 ∧
    Except.map (fun r => (r.1, r.2.map Prod.fst))
      (stAO.Readdir ctx0 (str "/") (fun _ _ => false) 0 1).1
      = .ok (0, [str ".", str "..", str "a"]) :=
  ⟨Reachable.step ctx0 (.Opendir (str "/")) stA_reachable, by decide, by decide⟩

end Cgofuse

namespace Cgofuse

/-! ## Mode bits -/

theorem perm_type_disjoint (i : Nat) :
    ((0o7777 : Nat).testBit i && S_IFMT.testBit i) = false := by
  have h0 : (0o7777 : Nat) &&& S_IFMT = 0 := by decide
  rw [← Nat.testBit_and, h0, Nat.zero_testBit]

theorem mode_type_bits (M m : Nat) :
    ((M &&& S_IFMT) ||| (m &&& 0o7777)) &&& S_IFMT = M &&& S_IFMT := by
  apply Nat.eq_of_testBit_eq
  intro i
  have h := perm_type_disjoint i
  simp only [Nat.testBit_and, Nat.testBit_or]
  cases M.testBit i <;> cases m.testBit i <;> cases hP : (0o7777 : Nat).testBit i <;>
    cases hF : S_IFMT.testBit i <;> simp_all

theorem mode_perm_bits (M m : Nat) :
    ((M &&& S_IFMT) ||| (m &&& 0o7777)) &&& 0o7777 = m &&& 0o7777 := by
  apply Nat.eq_of_testBit_eq
  intro i
  have h := perm_type_disjoint i
  simp only [Nat.testBit_and, Nat.testBit_or]
  cases M.testBit i <;> cases m.testBit i <;> cases hP : (0o7777 : Nat).testBit i <;>
    cases hF : S_IFMT.testBit i <;> simp_all

theorem mkdir_mode_isDir (m : Nat) : S_IFDIR = (S_IFDIR ||| (m &&& 0o7777)) &&& S_IFMT := by
  have h0 : S_IFDIR &&& S_IFMT = S_IFDIR := by decide
  have h := mode_type_bits S_IFDIR m
  rw [h0] at h
  exact h.symm

theorem isSome_map_eq {α β : Type} (o : Option α) (f : α → β) :
    (o.map f).isSome = o.isSome := by
  cases o <;> rfl

end Cgofuse

namespace Cgofuse

/-! ## What the operations keep -/

theorem keep_refl (o : Bool) (d : Nat → Prop) (s : Memfs) : Keep o d s s :=
  ⟨⟨Nat.le_refl _, Nat.le_succ _, rfl⟩,
    fun _ _ => ⟨rfl, rfl, rfl, fun _ => rfl, fun _ => ⟨rfl, rfl⟩⟩,
    fun _ h1 h2 => absurd (Nat.lt_of_le_of_lt h1 h2) (Nat.lt_irrefl _), fun _ => rfl⟩

theorem isDir_congr {n n2 : node_t}
    (h : n2.stat.Mode &&& S_IFMT = n.stat.Mode &&& S_IFMT) : n2.isDir = n.isDir := by
  unfold node_t.isDir
  rw [h]

theorem newOK_congr {ino : Nat} {n n2 : node_t} (h : n.newOK ino)
    (hI : n2.stat.Ino = n.stat.Ino)
    (hM : n2.stat.Mode &&& S_IFMT = n.stat.Mode &&& S_IFMT)
    (hC : n2.chld.isSome = n.chld.isSome) (hO : n2.opencnt = n.opencnt)
    (hD : n2.data = n.data) (hS : n2.stat.Size = n.stat.Size) : n2.newOK ino := by
  obtain ⟨h1, h2, h3, h4, h5⟩ := h
  refine ⟨hI.trans h1, hO.trans h2, ?_, ?_, ?_⟩
  · unfold node_t.shapeOK at h3 ⊢
    rw [hC, isDir_congr hM]; exact h3
  · unfold node_t.capOK at h4 ⊢
    rw [hM, hD, hS]; exact h4
  · rw [isDir_congr hM, hD]; exact h5

/-- An update that leaves the inode number, the type bits, the presence of a children
mapping, the open count, the payload and the size of its node alone. -/
theorem keep_upd_all {o : Bool} {d : Nat → Prop} {s s2 : Memfs} (h : Keep o d s s2) (p : Nat)
    (f : node_t → node_t)
    (hI : (f (s2.heap p)).stat.Ino = (s2.heap p).stat.Ino)
    (hM : (f (s2.heap p)).stat.Mode &&& S_IFMT = (s2.heap p).stat.Mode &&& S_IFMT)
    (hC : (f (s2.heap p)).chld.isSome = (s2.heap p).chld.isSome)
    (hO : (f (s2.heap p)).opencnt = (s2.heap p).opencnt)
    (hD : (f (s2.heap p)).data = (s2.heap p).data)
    (hS : (f (s2.heap p)).stat.Size = (s2.heap p).stat.Size) : Keep o d s (s2.upd p f) := by
  obtain ⟨h1, h2, h3, h4⟩ := h
  refine ⟨h1, ?_, ?_, h4⟩
  · intro q hq
    obtain ⟨a1, a2, a3, a4, a5⟩ := h2 q hq
    rw [heap_upd]
    split
    · rename_i hqp
      subst hqp
      exact ⟨hI.trans a1, hM.trans a2, hC.trans a3, fun ho => hO.trans (a4 ho),
        fun hd => ⟨hD.trans (a5 hd).1, hS.trans (a5 hd).2⟩⟩
    · exact ⟨a1, a2, a3, a4, a5⟩
  · intro q hq1 hq2
    have hn := h3 q hq1 hq2
    rw [heap_upd]
    split
    · rename_i hqp
      subst hqp
      exact newOK_congr hn hI hM hC hO hD hS
    · exact hn

/-- An update in a state with no new node; the open count need only be kept under `o`, the
payload and the size only if `d` selects the node. -/
theorem keep_upd_same {o : Bool} {d : Nat → Prop} {s s2 : Memfs} (h : Keep o d s s2)
    (hnx : s2.next = s.next) (p : Nat) (f : node_t → node_t)
    (hI : (f (s2.heap p)).stat.Ino = (s2.heap p).stat.Ino)
    (hM : (f (s2.heap p)).stat.Mode &&& S_IFMT = (s2.heap p).stat.Mode &&& S_IFMT)
    (hC : (f (s2.heap p)).chld.isSome = (s2.heap p).chld.isSome)
    (hO : o = true → (f (s2.heap p)).opencnt = (s2.heap p).opencnt)
    (hD : d p → (f (s2.heap p)).data = (s2.heap p).data ∧
      (f (s2.heap p)).stat.Size = (s2.heap p).stat.Size) : Keep o d s (s2.upd p f) := by
  obtain ⟨h1, h2, h3, h4⟩ := h
  refine ⟨h1, ?_, ?_, h4⟩
  · intro q hq
    obtain ⟨a1, a2, a3, a4, a5⟩ := h2 q hq
    rw [heap_upd]
    split
    · rename_i hqp
      subst hqp
      exact ⟨hI.trans a1, hM.trans a2, hC.trans a3, fun ho => (hO ho).trans (a4 ho),
        fun hd => ⟨(hD hd).1.trans (a5 hd).1, (hD hd).2.trans (a5 hd).2⟩⟩
    · exact ⟨a1, a2, a3, a4, a5⟩
  · intro q hq1 hq2
    have : (s2.upd p f).next = s2.next := rfl
    omega

theorem keep_set_openmap {d : Nat → Prop} {s s2 : Memfs} (h : Keep false d s s2)
    (m : List (Nat × Nat)) : Keep false d s { s2 with openmap := m } :=
  ⟨h.1, h.2.1, h.2.2.1, fun ho => Bool.noConfusion ho⟩

theorem keep_alloc (o : Bool) (d : Nat → Prop) (s : Memfs) (n1 : node_t)
    (hn : n1.newOK s.ino) : Keep o d s ({ s with ino := s.ino + 1 }.alloc n1).2 := by
  refine ⟨⟨Nat.le_succ _, Nat.le_refl _, rfl⟩, ?_, ?_, fun _ => rfl⟩
  · intro q hq
    have hne : q ≠ s.next := by omega
    have he : ({ s with ino := s.ino + 1 }.alloc n1).2.heap q = s.heap q := by
      simp only [Memfs.alloc, if_neg hne]
    rw [he]
    exact ⟨rfl, rfl, rfl, fun _ => rfl, fun _ => ⟨rfl, rfl⟩⟩
  · intro q hq1 hq2
    have hq3 : q < s.next + 1 := hq2
    have he : q = s.next := by omega
    subst he
    have he : ({ s with ino := s.ino + 1 }.alloc n1).2.heap s.next = n1 := by
      simp only [Memfs.alloc, if_true]
    rw [he]
    exact hn

theorem newNode_newOK (dev ino mode uid gid : Nat) (tmsp : Timespec) :
    (newNode dev (ino + 1) mode uid gid tmsp).newOK ino := by
  refine ⟨rfl, rfl, ?_, Or.inr rfl, fun _ => rfl⟩
  unfold node_t.shapeOK node_t.isDir newNode
  dsimp only
  by_cases h : S_IFDIR = mode &&& S_IFMT
  · rw [if_pos h]; simp [h]
  · rw [if_neg h]; simp [h]

end Cgofuse

namespace Cgofuse

section
set_option linter.unusedTactic false
set_option linter.unreachableTactic false

theorem newNode_data_newOK (dev ino mode uid gid : Nat) (tmsp : Timespec) (d : Bytes)
    (hm : mode &&& S_IFMT = S_IFLNK) :
    node_t.newOK ino { newNode dev (ino + 1) mode uid gid tmsp with
      data := sliceOf d
      stat := { (newNode dev (ino + 1) mode uid gid tmsp).stat with Size := d.length } } := by
  have hnd : ¬ S_IFDIR = mode &&& S_IFMT := by rw [hm]; decide
  refine ⟨rfl, rfl, ?_, Or.inl hm, ?_⟩
  · unfold node_t.shapeOK node_t.isDir newNode
    dsimp only
    rw [if_neg hnd]; simp [hnd]
  · intro h
    unfold node_t.isDir newNode at h
    dsimp only at h
    simp [hnd] at h

theorem keep_makeNode (s : Memfs) (ctx : Ctx) (path : Bytes) (mode dev : Nat)
    (data : Option Bytes) (hdm : data = none ∨ mode &&& S_IFMT = S_IFLNK) :
    Keep true (fun _ => True) s (s.makeNode ctx path mode dev data).2 := by
  unfold Memfs.makeNode
  split
  · exact keep_refl _ _ _
  · rename_i prnt name node hl
    split
    · exact keep_refl _ _ _
    · rename_i pp
      split
      · exact keep_refl _ _ _
      · have h2 : ∀ n1 : node_t, n1.newOK s.ino →
            Keep true (fun _ => True) s
              (match (({ s with ino := s.ino + 1 }.alloc n1).2.heap pp).chld with
              | none => ((Except.error Panic.nilMapWrite : Except Panic Int),
                  ({ s with ino := s.ino + 1 }.alloc n1).2)
              | some m => (Except.ok 0, ({ s with ino := s.ino + 1 }.alloc n1).2.upd pp fun nd =>
                  { nd with chld := some (mapSet m name ({ s with ino := s.ino + 1 }.alloc n1).1)
                            stat := { nd.stat with
                              Ctim := (({ s with ino := s.ino + 1 }.alloc n1).2.heap
                                ({ s with ino := s.ino + 1 }.alloc n1).1).stat.Ctim
                              Mtim := (({ s with ino := s.ino + 1 }.alloc n1).2.heap
                                ({ s with ino := s.ino + 1 }.alloc n1).1).stat.Ctim } })).2 := by
          intro n1 hn1
          have h3 := keep_alloc true (fun _ => True) s n1 hn1
          split
          · exact h3
          · rename_i m hm
            dsimp only
            exact keep_upd_all h3 _ _ rfl rfl (by rw [hm]; rfl) rfl rfl rfl
        cases data with
        | none => exact h2 _ (newNode_newOK _ _ _ _ _ _)
        | some d =>
          have hm : mode &&& S_IFMT = S_IFLNK := by
            rcases hdm with h | h
            · cases h
            · exact h
          exact h2 _ (newNode_data_newOK _ _ _ _ _ _ _ hm)

theorem keep_removeNode (s : Memfs) (ctx : Ctx) (path : Bytes) (dir : Bool) :
    Keep true (fun _ => True) s (s.removeNode ctx path dir).2 := by
  unfold Memfs.removeNode
  repeat' first
    | split
    | (dsimp only; split)
  all_goals (try dsimp only)
  repeat' first
    | exact keep_refl _ _ _
    | (refine keep_upd_all ?_ _ _ rfl rfl rfl rfl rfl rfl)
    | (refine keep_upd_all ?_ _ _ rfl rfl (isSome_map_eq _ _) rfl rfl rfl)

theorem keep_Link (s : Memfs) (ctx : Ctx) (oldpath newpath : Bytes) :
    Keep true (fun _ => True) s (s.Link ctx oldpath newpath).2 := by
  unfold Memfs.Link
  repeat' first
    | split
    | (dsimp only; split)
  all_goals (try dsimp only)
  repeat' first
    | exact keep_refl _ _ _
    | (refine keep_upd_all ?_ _ _ rfl rfl rfl rfl rfl rfl)
    | (refine keep_upd_all ?_ _ _ rfl rfl (by rename_i hm; rw [hm]; rfl) rfl rfl rfl)

theorem keep_moveEntry {s0 s : Memfs} (h : Keep true (fun _ => True) s0 s) (oldprnt : Ptr)
    (oldname : Bytes) (np : Nat) (newname : Bytes) (old : Nat) :
    Keep true (fun _ => True) s0 (s.moveEntry oldprnt oldname np newname old).2 := by
  unfold Memfs.moveEntry
  repeat' first
    | split
    | (dsimp only; split)
  all_goals (try dsimp only)
  repeat' first
    | exact h
    | (refine keep_upd_all ?_ _ _ rfl rfl (isSome_map_eq _ _) rfl rfl rfl)
    | (refine keep_upd_all ?_ _ _ rfl rfl (by rename_i hm; rw [hm]; rfl) rfl rfl rfl)

theorem keep_Rename (s : Memfs) (ctx : Ctx) (oldpath newpath : Bytes) :
    Keep true (fun _ => True) s (s.Rename ctx oldpath newpath).2 := by
  unfold Memfs.Rename
  split
  · exact keep_refl _ _ _
  · split
    · exact keep_refl _ _ _
    · split
      · exact keep_refl _ _ _
      · split
        · exact keep_refl _ _ _
        · split
          · exact keep_refl _ _ _
          · split
            · exact keep_refl _ _ _
            · dsimp only
              split
              · rename_i e s1 hs1
                have h1 : Keep true (fun _ => True) s s1 := by
                  split at hs1
                  · have e2 := congrArg Prod.snd hs1
                    dsimp only at e2
                    rw [← e2]
                    exact keep_removeNode _ _ _ _
                  · cases hs1
                exact h1
              · rename_i errc s1 hs1
                have h1 : Keep true (fun _ => True) s s1 := by
                  split at hs1
                  · have e2 := congrArg Prod.snd hs1
                    dsimp only at e2
                    rw [← e2]
                    exact keep_removeNode _ _ _ _
                  · cases hs1; exact keep_refl _ _ _
                split
                · exact h1
                · exact keep_moveEntry h1 _ _ _ _ _

end

end Cgofuse

namespace Cgofuse

section
set_option linter.unusedTactic false
set_option linter.unreachableTactic false

theorem keep_openNode (s : Memfs) (path : Bytes) (dir : Bool) :
    Keep false (fun _ => True) s (s.openNode path dir).2 := by
  unfold Memfs.openNode
  split
  · exact keep_refl _ _ _
  · split
    · exact keep_refl _ _ _
    · rename_i n _
      split
      · exact keep_refl _ _ _
      · split
        · exact keep_refl _ _ _
        · have h1 : Keep false (fun _ => True) s
              (s.upd n fun nd => { nd with opencnt := nd.opencnt + 1 }) :=
            keep_upd_same (keep_refl _ _ _) rfl _ _ rfl rfl rfl (fun h => Bool.noConfusion h)
              (fun _ => ⟨rfl, rfl⟩)
          dsimp only
          split
          · exact keep_set_openmap h1 _
          · exact h1

theorem keep_closeNode (s : Memfs) (fh : Nat) :
    Keep false (fun _ => True) s (s.closeNode fh).2 := by
  unfold Memfs.closeNode
  split
  · exact keep_refl _ _ _
  · rename_i n _
    have h1 : Keep false (fun _ => True) s
        (s.upd n fun nd => { nd with opencnt := nd.opencnt - 1 }) :=
      keep_upd_same (keep_refl _ _ _) rfl _ _ rfl rfl rfl (fun h => Bool.noConfusion h)
        (fun _ => ⟨rfl, rfl⟩)
    dsimp only
    split
    · exact keep_set_openmap h1 _
    · exact h1

theorem keep_Truncate (s : Memfs) (ctx : Ctx) (path : Bytes) (size : Int) (fh : Nat) :
    Keep true (fun q => s.getNode path fh ≠ .ok (some q)) s
      (s.Truncate ctx path size fh).2 := by
  unfold Memfs.Truncate
  split
  · exact keep_refl _ _ _
  · exact keep_refl _ _ _
  · rename_i n hn
    split
    · exact keep_refl _ _ _
    · exact keep_upd_same (keep_refl _ _ _) rfl _ _ rfl rfl rfl (fun _ => rfl)
        (fun h => absurd hn h)

theorem keep_Write (s : Memfs) (ctx : Ctx) (path buff : Bytes) (ofst : Int) (fh : Nat) :
    Keep true (fun q => s.getNode path fh ≠ .ok (some q)) s
      (s.Write ctx path buff ofst fh).2 := by
  unfold Memfs.Write
  split
  · exact keep_refl _ _ _
  · exact keep_refl _ _ _
  · rename_i n hn
    dsimp only
    split
    · exact keep_refl _ _ _
    · rename_i s1 hs1
      have h1 : Keep true (fun q => s.getNode path fh ≠ .ok (some q)) s s1 ∧
          s1.next = s.next := by
        split at hs1
        · split at hs1
          · cases hs1
          · cases hs1
            refine ⟨?_, rfl⟩
            refine keep_upd_same (keep_refl _ _ _) rfl _ _ rfl rfl rfl (fun _ => rfl) ?_
            intro h
            exact absurd hn h
        · cases hs1
          exact ⟨keep_refl _ _ _, rfl⟩
      split
      · exact h1.1
      · dsimp only
        apply keep_upd_same h1.1 h1.2
        · rfl
        · rfl
        · rfl
        · intro _; rfl
        · intro h
          exact absurd hn h

theorem keep_Readlink (s : Memfs) (path : Bytes) :
    Keep true (fun _ => True) s (s.Readlink path).2 := by
  unfold Memfs.Readlink
  repeat' first
    | split
    | (dsimp only; split)
  all_goals first
    | exact keep_refl _ _ _
    | (dsimp only; exact keep_refl _ _ _)

theorem keep_Chmod (s : Memfs) (ctx : Ctx) (path : Bytes) (mode : Nat) :
    Keep true (fun _ => True) s (s.Chmod ctx path mode).2 := by
  unfold Memfs.Chmod
  repeat' first
    | split
    | (dsimp only; split)
  all_goals (try dsimp only)
  repeat' first
    | exact keep_refl _ _ _
    | (refine keep_upd_all ?_ _ _ rfl rfl rfl rfl rfl rfl)
    | (refine keep_upd_all ?_ _ _ rfl (mode_type_bits _ _) rfl rfl rfl rfl)

theorem keep_Chown (s : Memfs) (ctx : Ctx) (path : Bytes) (uid gid : Nat) :
    Keep true (fun _ => True) s (s.Chown ctx path uid gid).2 := by
  unfold Memfs.Chown
  repeat' first
    | split
    | (dsimp only; split)
  all_goals (try dsimp only)
  repeat' first
    | exact keep_refl _ _ _
    | (refine keep_upd_all ?_ _ _ rfl rfl rfl rfl rfl rfl)
    | (refine keep_upd_all ?_ _ _ rfl (mode_type_bits _ _) rfl rfl rfl rfl)

theorem keep_Utimens (s : Memfs) (ctx : Ctx) (path : Bytes) (tmsp : Option (List Timespec)) :
    Keep true (fun _ => True) s (s.Utimens ctx path tmsp).2 := by
  unfold Memfs.Utimens
  repeat' first
    | split
    | (dsimp only; split)
  all_goals (try dsimp only)
  repeat' first
    | exact keep_refl _ _ _
    | (refine keep_upd_all ?_ _ _ rfl rfl rfl rfl rfl rfl)
    | (refine keep_upd_all ?_ _ _ rfl (mode_type_bits _ _) rfl rfl rfl rfl)

theorem keep_Getattr (s : Memfs) (path : Bytes) (fh : Nat) :
    Keep true (fun _ => True) s (s.Getattr path fh).2 := by
  unfold Memfs.Getattr
  repeat' first
    | split
    | (dsimp only; split)
  all_goals first
    | exact keep_refl _ _ _
    | (dsimp only; exact keep_refl _ _ _)

theorem keep_Read (s : Memfs) (ctx : Ctx) (path buff : Bytes) (ofst : Int) (fh : Nat) :
    Keep true (fun _ => True) s (s.Read ctx path buff ofst fh).2 := by
  unfold Memfs.Read
  repeat' first
    | split
    | (dsimp only; split)
  all_goals (try dsimp only)
  repeat' first
    | exact keep_refl _ _ _
    | (refine keep_upd_all ?_ _ _ rfl rfl rfl rfl rfl rfl)
    | (refine keep_upd_all ?_ _ _ rfl (mode_type_bits _ _) rfl rfl rfl rfl)

theorem keep_Readdir (s : Memfs) (ctx : Ctx) (path : Bytes)
    (fill : List FillCall → FillCall → Bool) (ofst : Int) (fh : Nat) :
    Keep true (fun _ => True) s (s.Readdir ctx path fill ofst fh).2 := by
  unfold Memfs.Readdir
  repeat' first
    | split
    | (dsimp only; split)
  all_goals first
    | exact keep_refl _ _ _
    | (dsimp only; exact keep_refl _ _ _)

theorem keep_Setxattr (s : Memfs) (path name value : Bytes) (flags : Int) :
    Keep true (fun _ => True) s (s.Setxattr path name value flags).2 := by
  unfold Memfs.Setxattr
  repeat' first
    | split
    | (dsimp only; split)
  all_goals (try dsimp only)
  repeat' first
    | exact keep_refl _ _ _
    | (refine keep_upd_all ?_ _ _ rfl rfl rfl rfl rfl rfl)
    | (refine keep_upd_all ?_ _ _ rfl (mode_type_bits _ _) rfl rfl rfl rfl)

theorem keep_Getxattr (s : Memfs) (path name : Bytes) :
    Keep true (fun _ => True) s (s.Getxattr path name).2 := by
  unfold Memfs.Getxattr
  repeat' first
    | split
    | (dsimp only; split)
  all_goals first
    | exact keep_refl _ _ _
    | (dsimp only; exact keep_refl _ _ _)

theorem keep_Removexattr (s : Memfs) (path name : Bytes) :
    Keep true (fun _ => True) s (s.Removexattr path name).2 := by
  unfold Memfs.Removexattr
  repeat' first
    | split
    | (dsimp only; split)
  all_goals (try dsimp only)
  repeat' first
    | exact keep_refl _ _ _
    | (refine keep_upd_all ?_ _ _ rfl rfl rfl rfl rfl rfl)
    | (refine keep_upd_all ?_ _ _ rfl (mode_type_bits _ _) rfl rfl rfl rfl)

theorem keep_Listxattr (s : Memfs) (ctx : Ctx) (path : Bytes)
    (fill : List Bytes → Bytes → Bool) :
    Keep true (fun _ => True) s (s.Listxattr ctx path fill).2 := by
  unfold Memfs.Listxattr
  repeat' first
    | split
    | (dsimp only; split)
  all_goals first
    | exact keep_refl _ _ _
    | (dsimp only; exact keep_refl _ _ _)

theorem keep_Chflags (s : Memfs) (ctx : Ctx) (path : Bytes) (flags : Nat) :
    Keep true (fun _ => True) s (s.Chflags ctx path flags).2 := by
  unfold Memfs.Chflags
  repeat' first
    | split
    | (dsimp only; split)
  all_goals (try dsimp only)
  repeat' first
    | exact keep_refl _ _ _
    | (refine keep_upd_all ?_ _ _ rfl rfl rfl rfl rfl rfl)
    | (refine keep_upd_all ?_ _ _ rfl (mode_type_bits _ _) rfl rfl rfl rfl)

theorem keep_Setcrtime (s : Memfs) (ctx : Ctx) (path : Bytes) (tmsp : Timespec) :
    Keep true (fun _ => True) s (s.Setcrtime ctx path tmsp).2 := by
  unfold Memfs.Setcrtime
  repeat' first
    | split
    | (dsimp only; split)
  all_goals (try dsimp only)
  repeat' first
    | exact keep_refl _ _ _
    | (refine keep_upd_all ?_ _ _ rfl rfl rfl rfl rfl rfl)
    | (refine keep_upd_all ?_ _ _ rfl (mode_type_bits _ _) rfl rfl rfl rfl)

theorem keep_Setchgtime (s : Memfs) (path : Bytes) (tmsp : Timespec) :
    Keep true (fun _ => True) s (s.Setchgtime path tmsp).2 := by
  unfold Memfs.Setchgtime
  repeat' first
    | split
    | (dsimp only; split)
  all_goals (try dsimp only)
  repeat' first
    | exact keep_refl _ _ _
    | (refine keep_upd_all ?_ _ _ rfl rfl rfl rfl rfl rfl)
    | (refine keep_upd_all ?_ _ _ rfl (mode_type_bits _ _) rfl rfl rfl rfl)

/-- What every operation keeps: see `Keep`. The handle table and the open counts are kept by
all operations but `Open`, `Opendir`, `Release` and `Releasedir`; the payload and the size of
a node are kept by all operations but a `Write` or `Truncate` that designates the node. -/
theorem step_keep (s : Memfs) (ctx : Ctx) (op : Op) :
    Keep op.keepsOpen (s.keepsData op) s (s.step ctx op).2 := by
  cases op with
  | Mknod path mode dev => exact keep_makeNode s ctx path mode dev none (Or.inl rfl)
  | Mkdir path mode => exact keep_makeNode s ctx path _ 0 none (Or.inl rfl)
  | Symlink target newpath =>
    exact keep_makeNode s ctx newpath (S_IFLNK ||| 0o777) 0 (some target) (Or.inr (by decide))
  | Unlink path => exact keep_removeNode s ctx path false
  | Rmdir path => exact keep_removeNode s ctx path true
  | Link oldpath newpath => exact keep_Link s ctx oldpath newpath
  | Rename oldpath newpath => exact keep_Rename s ctx oldpath newpath
  | Open path flags => exact keep_openNode s path false
  | Opendir path => exact keep_openNode s path true
  | Release path fh => exact keep_closeNode s fh
  | Releasedir path fh => exact keep_closeNode s fh
  | Write path buff ofst fh => exact keep_Write s ctx path buff ofst fh
  | Truncate path size fh => exact keep_Truncate s ctx path size fh
  | Readlink path => exact keep_Readlink s path
  | Chmod path mode => exact keep_Chmod s ctx path mode
  | Chown path uid gid => exact keep_Chown s ctx path uid gid
  | Utimens path tmsp => exact keep_Utimens s ctx path tmsp
  | Getattr path fh => exact keep_Getattr s path fh
  | Read path buff ofst fh => exact keep_Read s ctx path buff ofst fh
  | Readdir path fill ofst fh => exact keep_Readdir s ctx path fill ofst fh
  | Setxattr path name value flags => exact keep_Setxattr s path name value flags
  | Getxattr path name => exact keep_Getxattr s path name
  | Removexattr path name => exact keep_Removexattr s path name
  | Listxattr path fill => exact keep_Listxattr s ctx path fill
  | Chflags path flags => exact keep_Chflags s ctx path flags
  | Setcrtime path tmsp => exact keep_Setcrtime s ctx path tmsp
  | Setchgtime path tmsp => exact keep_Setchgtime s path tmsp

end

end Cgofuse

namespace Cgofuse

/-! ## `Chmod` and the type bits -/

/-- C18. For every state, every path that resolves to a node with mode `M`, and every mode
`m`: `Chmod(p, m)` returns 0, and `Getattr(p)` then returns a mode whose permission bits are
`m & 0o7777` and whose type bits are `M & S_IFMT`. No operation, whether it returns or
panics, changes the type bits of a node that exists when it is called. -/
theorem Chmod_permission_bits (s : Memfs) (ctx : Ctx) (path : Bytes) (mode : Nat)
    {pr : Ptr} {nm : Bytes} {n : Nat}
    (hl : s.lookupNode path none = .ok (pr, nm, some n)) :
    (s.Chmod ctx path mode).1 = .ok 0 ∧
    (∃ st, ((s.Chmod ctx path mode).2.Getattr path noHandle).1 = .ok (0, some st) ∧
      st.Mode &&& 0o7777 = mode &&& 0o7777 ∧
      st.Mode &&& S_IFMT = (s.heap n).stat.Mode &&& S_IFMT) ∧
    ∀ (s0 : Memfs) (c : Ctx) (op : Op) (q : Nat), q < s0.next →
      ((s0.step c op).2.heap q).stat.Mode &&& S_IFMT = (s0.heap q).stat.Mode &&& S_IFMT := by
  have hch : s.Chmod ctx path mode = (.ok 0, s.upd n fun nd =>
      { nd with stat := { nd.stat with Mode := (nd.stat.Mode &&& S_IFMT) ||| (mode &&& 0o7777)
                                       Ctim := ctx.now } }) := by
    unfold Memfs.Chmod
    rw [hl]
  rw [hch]
  dsimp only
  refine ⟨rfl, ?_, ?_⟩
  · generalize hs1 : (s.upd n fun nd =>
      { nd with stat := { nd.stat with Mode := (nd.stat.Mode &&& S_IFMT) ||| (mode &&& 0o7777)
                                       Ctim := ctx.now } }) = s1
    have hl1 : s1.lookupNode path none = .ok (pr, nm, some n) := by
      rw [← hs1, lookupNode_upd_congr s n _ rfl]; exact hl
    have hm1 : (s1.heap n).stat.Mode = ((s.heap n).stat.Mode &&& S_IFMT) ||| (mode &&& 0o7777) := by
      rw [← hs1, upd_heap_same]
    refine ⟨(s1.heap n).stat, ?_, ?_, ?_⟩
    · unfold Memfs.Getattr Memfs.getNode
      rw [if_pos rfl, hl1]
    · rw [hm1]
      exact mode_perm_bits _ _
    · rw [hm1]
      exact mode_type_bits _ _
  · intro s0 c op q hq
    exact ((step_keep s0 c op).2.1 q hq).2.1

/-- An instance of `Chmod_permission_bits`: `Chmod("/a", 0o600)` on the file `/a` of the
example state, whose mode is `0o100644`. -/
theorem Chmod_permission_bits_witness :
    (stA.Chmod ctx1 (str "/a") 0o600).1 = .ok 0 ∧
    ((stA.Chmod ctx1 (str "/a") 0o600).2.heap 1).stat.Mode = 0o100600 :=
  have h := Chmod_permission_bits stA ctx1 (str "/a") 0o600
    (show stA.lookupNode (str "/a") none = .ok (some 0, str "a", some 1) from by decide)
  ⟨h.1, by decide⟩

end Cgofuse

namespace Cgofuse

/-! ## The capacity that `resize` leaves -/

theorem allocsize_lt {size : Int} (h1 : 2 ^ 63 ≤ size + 65535) :
    Int.tdiv (wrap64 (size + allocunit - 1)) allocunit * allocunit < size := by
  have hx : size + allocunit - 1 = size + 65535 := by unfold allocunit; omega
  rw [hx]
  have hw1 : wrap64 (size + 65535) < 2 ^ 63 := by unfold wrap64; omega
  unfold allocunit
  by_cases hw : 0 ≤ wrap64 (size + 65535)
  · rw [Int.tdiv_eq_ediv hw (by omega)]
    omega
  · have h2 : Int.tdiv (wrap64 (size + 65535)) (64 * 1024) =
        -(Int.tdiv (-(wrap64 (size + 65535))) (64 * 1024)) := by
      rw [Int.neg_tdiv, Int.neg_neg]
    rw [h2, Int.tdiv_eq_ediv (by omega) (by omega)]
    omega

theorem resize_cap {ctx : Ctx} {sl d : slice_t} {size : Int}
    (h : resize ctx sl size true = .ok d) :
    (d.cap : Int) = roundUp size := by
  unfold resize at h
  simp only [] at h
  split at h
  · split at h
    · cases h
    · rename_i h2
      split at h
      · cases h
      · simp only [Except.ok.injEq] at h
        subst h
        have h3 : size + 65535 < 2 ^ 63 := by
          by_contra hne
          have := @allocsize_lt size (by omega)
          omega
        have hA := @allocsize_eq_roundUp size (by omega) h3
        show ((_ : Int).toNat : Int) = _
        rw [hA] at h2 ⊢
        unfold roundUp
        omega
  · rename_i hc
    simp only [if_true] at h
    split at h
    · cases h
    · rename_i h2
      simp only [Except.ok.injEq] at h
      subst h
      have hc2 : (sl.cap : Int) =
          Int.tdiv (wrap64 (size + allocunit - 1)) allocunit * allocunit := by
        by_contra hne; exact hc hne
      have h3 : size + 65535 < 2 ^ 63 := by
        by_contra hne
        have := @allocsize_lt size (by omega)
        omega
      have hA := @allocsize_eq_roundUp size (by omega) h3
      show (sl.cap : Int) = _
      rw [hc2, hA]

end Cgofuse

namespace Cgofuse

/-! ## The shape of the nodes -/

theorem capOK_Truncate {s : Memfs} (ctx : Ctx) (path : Bytes) (size : Int) (fh : Nat)
    {q : Nat} (h : (s.heap q).capOK) : ((s.Truncate ctx path size fh).2.heap q).capOK := by
  unfold Memfs.Truncate
  split
  · exact h
  · exact h
  · rename_i n hn
    split
    · exact h
    · rename_i d hd
      dsimp only
      rw [heap_upd]
      split
      · exact Or.inr (resize_cap hd)
      · exact h

theorem capOK_Write {s : Memfs} (ctx : Ctx) (path buff : Bytes) (ofst : Int) (fh : Nat)
    {q : Nat} (h : (s.heap q).capOK) : ((s.Write ctx path buff ofst fh).2.heap q).capOK := by
  unfold Memfs.Write
  split
  · exact h
  · exact h
  · rename_i n hn
    dsimp only
    split
    · exact h
    · rename_i s1 hs1
      have h1 : (s1.heap q).capOK := by
        split at hs1
        · split at hs1
          · cases hs1
          · rename_i d hd
            cases hs1
            rw [heap_upd]
            split
            · exact Or.inr (resize_cap hd)
            · exact h
        · cases hs1
          exact h
      split
      · exact h1
      · dsimp only
        rw [heap_upd]
        split
        · rename_i hqn
          subst hqn
          exact h1
        · exact h1

theorem shapeOK_keep {o : Bool} {d : Nat → Prop} {s s2 : Memfs} (hk : Keep o d s s2) {q : Nat}
    (hq : q < s.next) (h : (s.heap q).shapeOK) : (s2.heap q).shapeOK := by
  obtain ⟨_, h2, h3, _⟩ := hk.2.1 q hq
  unfold node_t.shapeOK at h ⊢
  rw [h3, isDir_congr h2]; exact h

theorem nodeInv_step {s : Memfs} (h : NodeInv s) (ctx : Ctx) (op : Op) :
    NodeInv (s.step ctx op).2 := by
  have hk := step_keep s ctx op
  intro p hp
  by_cases hq : p < s.next
  · refine ⟨shapeOK_keep hk hq (h p hq).1, ?_⟩
    have hc := (h p hq).2
    have hgen : s.keepsData op p → ((s.step ctx op).2.heap p).capOK := by
      intro hd
      obtain ⟨_, h2, _, _, h5⟩ := hk.2.1 p hq
      unfold node_t.capOK at hc ⊢
      rw [h2, (h5 hd).1, (h5 hd).2]; exact hc
    cases op with
    | Write path buff ofst fh => exact capOK_Write ctx path buff ofst fh hc
    | Truncate path size fh => exact capOK_Truncate ctx path size fh hc
    | _ => exact hgen trivial
  · have hn := hk.2.2.1 p (by omega) hp
    exact ⟨hn.2.2.1, hn.2.2.2.1⟩

theorem nodeInv_init (now : Timespec) : NodeInv (NewMemfs now) := by
  intro p hp
  have hp1 : p < 1 := hp
  have hp0 : p = 0 := by omega
  subst hp0
  have hn := newNode_newOK 0 0 (S_IFDIR ||| 0o777) 0 0 now
  exact ⟨hn.2.2.1, hn.2.2.2.1⟩

/-- In every reachable state every node has a children mapping exactly if it is a directory,
and a payload whose capacity is its size rounded up (symbolic links apart). -/
theorem Reachable.nodeInv {s : Memfs} (hs : Reachable s) : NodeInv s := by
  induction hs with
  | init now => exact nodeInv_init now
  | step ctx op _ ih => exact nodeInv_step ih ctx op

end Cgofuse

namespace Cgofuse

theorem stAW_reachable : Reachable stAW :=
  Reachable.step ctx0 (.Write (str "/a") (str "hello") 0 noHandle) stA_reachable

theorem roundUp_dvd (x : Int) : (65536 : Int) ∣ roundUp x :=
  Dvd.intro_left _ rfl

/-- C13. In every reachable state, every node with the type bits of a regular file satisfies
`size ≤ len(payload) ≤ cap(payload)`, and the capacity of its payload is the size rounded up
to the next multiple of 65536, a multiple of 65536. -/
theorem payload_capacity {s : Memfs} (hs : Reachable s) {p : Nat} (hp : p < s.next)
    (hreg : (s.heap p).stat.Mode &&& S_IFMT = S_IFREG) :
    (s.heap p).stat.Size ≤ ((s.heap p).data.len : Int) ∧
    (s.heap p).data.len ≤ (s.heap p).data.cap ∧
    ((s.heap p).data.cap : Int) = roundUp (s.heap p).stat.Size ∧
    (65536 : Int) ∣ ((s.heap p).data.cap : Int) := by
  have hd := hs.wf.data p
  have hc : ((s.heap p).data.cap : Int) = roundUp (s.heap p).stat.Size := by
    rcases (hs.nodeInv p hp).2 with h | h
    · rw [hreg] at h
      exact absurd h (by decide)
    · exact h
  refine ⟨Int.le_of_eq hd.1, hd.2, hc, ?_⟩
  rw [hc]
  exact roundUp_dvd _

/-- An instance of `payload_capacity`: the file `/a` after `Write("/a", "hello", 0)` has size
5, a payload of length 5 and the capacity 65536. -/
theorem payload_capacity_witness :
    (stAW.heap 1).stat.Size = 5 ∧ (stAW.heap 1).data.len = 5 ∧ (stAW.heap 1).data.cap = 65536 ∧
    ((stAW.heap 1).data.cap : Int) = roundUp (stAW.heap 1).stat.Size :=
  ⟨by decide, by decide, by decide,
    (payload_capacity stAW_reachable (show 1 < stAW.next from by decide) (by decide)).2.2.1⟩

/-- C14 (as amended). In every reachable state the length of the payload of every node is
exactly its size (so it is a multiple of 65536 only if the size is one), and it is at most
the capacity; for a node with the type bits of a regular file it is the capacity that is a
multiple of 65536. -/
theorem payload_length_is_size {s : Memfs} (hs : Reachable s) (p : Nat) :
    ((s.heap p).data.len : Int) = (s.heap p).stat.Size ∧
    (s.heap p).data.len ≤ (s.heap p).data.cap ∧
    (p < s.next → (s.heap p).stat.Mode &&& S_IFMT = S_IFREG →
      (65536 : Int) ∣ ((s.heap p).data.cap : Int)) := by
  have hd := hs.wf.data p
  refine ⟨hd.1.symm, hd.2, fun hp hreg => ?_⟩
  rcases (hs.nodeInv p hp).2 with h | h
  · rw [hreg] at h
    exact absurd h (by decide)
  · rw [h]
    exact roundUp_dvd _

/-- An instance of `payload_length_is_size`: the file `/a` after `Write("/a", "hello", 0)`. -/
theorem payload_length_is_size_witness :
    ((stAW.heap 1).data.len : Int) = (stAW.heap 1).stat.Size ∧
    (65536 : Int) ∣ ((stAW.heap 1).data.cap : Int) :=
  have h := payload_length_is_size stAW_reachable 1
  ⟨h.1, h.2.2 (by decide) (by decide)⟩

/-- C14 fails as stated: after `Mknod("/a", 0o100644, 0)` and `Write("/a", "hello", 0)`, which
returns 5, the regular file `/a` has a payload of length 5, neither 0 nor a multiple of
65536. -/
theorem payload_length_five :
    Reachable stAW ∧
    (stA.step ctx0 (.Write (str "/a") (str "hello") 0 noHandle)).1 = .ok 5 ∧
    stAW.lookupNode (str "/a") none = .ok (some 0, str "a", some 1) ∧
    (stAW.heap 1).stat.Mode &&& S_IFMT = S_IFREG ∧
    (stAW.heap 1).stat.Size = 5 ∧ (stAW.heap 1).data.len = 5 ∧
    (stAW.heap 1).data.len ≠ 0 ∧ (stAW.heap 1).data.len % 65536 ≠ 0 :=
  ⟨stAW_reachable, by decide, by decide, by decide, by decide, by decide, by decide, by decide⟩

/-- C15 (as amended). In every reachable state, also one left by a call that failed, a node
has a children mapping exactly if it is a directory; so no non-directory node has one. If
moreover every directory has an empty payload, it is so again after every operation other
than a `Write` or `Truncate` whose path or handle designates a directory. -/
theorem node_shape {s : Memfs} (hs : Reachable s) :
    (∀ p, p < s.next → (s.heap p).chld.isSome = (s.heap p).isDir) ∧
    ∀ (ctx : Ctx) (op : Op), DirEmpty s →
      (∀ q, q < s.next → (s.heap q).isDir = true → s.keepsData op q) →
      DirEmpty (s.step ctx op).2 := by
  refine ⟨fun p hp => (hs.nodeInv p hp).1, ?_⟩
  intro ctx op hde hop p hp hdir
  have hk := step_keep s ctx op
  by_cases hq : p < s.next
  · obtain ⟨_, h2, _, _, h5⟩ := hk.2.1 p hq
    rw [isDir_congr h2] at hdir
    rw [(h5 (hop p hq hdir)).1]
    exact hde p hq hdir
  · exact (hk.2.2.1 p (by omega) hp).2.2.2.2 hdir

/-- An instance of `node_shape`: `Mkdir("/d", 0o755)` in the example state. -/
theorem node_shape_witness :
    (∀ p, p < stA.next → (stA.heap p).chld.isSome = (stA.heap p).isDir) ∧
    DirEmpty (stA.step ctx1 (.Mkdir (str "/d") 0o755)).2 :=
  have h := node_shape stA_reachable
  ⟨h.1, h.2 ctx1 (.Mkdir (str "/d") 0o755)
    (fun p hp _ => by
      have hp2 : p < 2 := hp
      have h01 : p = 0 ∨ p = 1 := by omega
      rcases h01 with h0 | h1
      · subst h0; decide
      · subst h1; decide)
    (fun _ _ _ => trivial)⟩

/-- C15 fails as stated: on a fresh engine `Write("/", "x", 0)` returns 1, and the root, a
directory, then has a payload of length 1. -/
theorem Write_on_directory :
    Reachable (NewMemfs t0) ∧ (NewMemfs t0).lookupNode (str "/") none = .ok (some 0, [], some 0) ∧
    ((NewMemfs t0).heap 0).isDir = true ∧ ((NewMemfs t0).heap 0).data.len = 0 ∧
    ((NewMemfs t0).step ctx1 (.Write (str "/") (str "x") 0 noHandle)).1 = .ok 1 ∧
    (((NewMemfs t0).step ctx1 (.Write (str "/") (str "x") 0 noHandle)).2.heap 0).isDir = true ∧
    (((NewMemfs t0).step ctx1 (.Write (str "/") (str "x") 0 noHandle)).2.heap 0).data.len = 1 :=
  ⟨Reachable.init t0, by decide, by decide, by decide, by decide, by decide, by decide⟩

end Cgofuse

namespace Cgofuse

/-! ## Inode numbers are distinct -/

theorem inoInj_step {s : Memfs} (hi : InoInj s) (ho : InoOK s) (ctx : Ctx) (op : Op) :
    InoInj (s.step ctx op).2 := by
  have hk := step_keep s ctx op
  obtain ⟨⟨hn1, hn2, _⟩, hold, hnew, _⟩ := hk
  intro p q hp hq he
  by_cases hp1 : p < s.next
  · by_cases hq1 : q < s.next
    · rw [(hold p hp1).1, (hold q hq1).1] at he
      exact hi p q hp1 hq1 he
    · have h1 := (hnew q (by omega) hq).1
      rw [(hold p hp1).1, h1] at he
      have := ho p
      omega
  · by_cases hq1 : q < s.next
    · have h1 := (hnew p (by omega) hp).1
      rw [(hold q hq1).1, h1] at he
      have := ho q
      omega
    · omega

theorem Reachable.inoInj {s : Memfs} (hs : Reachable s) : InoInj s := by
  induction hs with
  | init now =>
    intro p q hp hq _
    have hp1 : p < 1 := hp
    have hq1 : q < 1 := hq
    omega
  | step ctx op hs ih => exact inoInj_step ih hs.inoOK ctx op

theorem Run.reachable {s : Memfs} {out : Nat → Nat} (h : Run s out) : Reachable s := by
  induction h with
  | init now => exact Reachable.init now
  | step ctx op _ _ ih => exact Reachable.step ctx op ih

/-! ## `openNode` and `closeNode` -/

theorem openNode_eq {s : Memfs} {path : Bytes} {dir : Bool} {pr : Ptr} {nm : Bytes} {n : Nat}
    (hl : s.lookupNode path none = .ok (pr, nm, some n))
    (h1 : ¬(dir = false ∧ (s.heap n).isDir = true))
    (h2 : ¬(dir = true ∧ (s.heap n).isDir = false)) :
    s.openNode path dir = (.ok (0, (s.heap n).stat.Ino),
      if (s.heap n).opencnt + 1 = 1 then
        { s.upd n fun nd => { nd with opencnt := nd.opencnt + 1 } with
          openmap := mapSet s.openmap (s.heap n).stat.Ino n }
      else s.upd n fun nd => { nd with opencnt := nd.opencnt + 1 }) := by
  unfold Memfs.openNode
  rw [hl]
  dsimp only
  rw [if_neg h1, if_neg h2]
  simp only [upd_heap_same]
  by_cases hc : (s.heap n).opencnt + 1 = 1
  · rw [if_pos hc, if_pos hc]
    dsimp only
    rw [upd_heap_same]
    rfl
  · rw [if_neg hc, if_neg hc, upd_heap_same]

/-- The state after an `openNode` that returns the code 0, and the handle it returns. -/
theorem openNode_ok {s : Memfs} {path : Bytes} {dir : Bool} {c : Int} {fh : Nat}
    (h : (s.openNode path dir).1 = .ok (c, fh)) (hc : c = 0) :
    ∃ pr nm n, s.lookupNode path none = .ok (pr, nm, some n) ∧ fh = (s.heap n).stat.Ino ∧
      (s.openNode path dir).2 =
        if (s.heap n).opencnt + 1 = 1 then
          { s.upd n fun nd => { nd with opencnt := nd.opencnt + 1 } with
            openmap := mapSet s.openmap (s.heap n).stat.Ino n }
        else s.upd n fun nd => { nd with opencnt := nd.opencnt + 1 } := by
  subst hc
  cases hl : s.lookupNode path none with
  | error e =>
    unfold Memfs.openNode at h
    rw [hl] at h; cases h
  | ok r =>
    obtain ⟨pr, nm, node⟩ := r
    cases node with
    | none =>
      unfold Memfs.openNode at h
      rw [hl] at h
      exact absurd (show (_ : Int) = 0 from congrArg Prod.fst (Except.ok.inj h)) (by decide)
    | some n =>
      by_cases h1 : dir = false ∧ (s.heap n).isDir = true
      · unfold Memfs.openNode at h
        rw [hl] at h
        dsimp only at h
        rw [if_pos h1] at h
        exact absurd (show (_ : Int) = 0 from congrArg Prod.fst (Except.ok.inj h)) (by decide)
      · by_cases h2 : dir = true ∧ (s.heap n).isDir = false
        · unfold Memfs.openNode at h
          rw [hl] at h
          dsimp only at h
          rw [if_neg h1, if_pos h2] at h
          exact absurd (show (_ : Int) = 0 from congrArg Prod.fst (Except.ok.inj h)) (by decide)
        · rw [openNode_eq hl h1 h2] at h ⊢
          exact ⟨pr, nm, n, rfl, (congrArg Prod.snd (Except.ok.inj h)).symm, rfl⟩

/-- An `openNode` that does not return the code 0 leaves the state as it was. -/
theorem openNode_fail {s : Memfs} {path : Bytes} {dir : Bool}
    (h : ∀ fh, (s.openNode path dir).1 ≠ .ok (0, fh)) : (s.openNode path dir).2 = s := by
  cases hl : s.lookupNode path none with
  | error e =>
    unfold Memfs.openNode
    rw [hl]
  | ok r =>
    obtain ⟨pr, nm, node⟩ := r
    cases node with
    | none =>
      unfold Memfs.openNode
      rw [hl]
    | some n =>
      by_cases h1 : dir = false ∧ (s.heap n).isDir = true
      · unfold Memfs.openNode
        rw [hl]
        dsimp only
        rw [if_pos h1]
      · by_cases h2 : dir = true ∧ (s.heap n).isDir = false
        · unfold Memfs.openNode
          rw [hl]
          dsimp only
          rw [if_neg h1, if_pos h2]
        · have h3 := h (s.heap n).stat.Ino
          rw [openNode_eq hl h1 h2] at h3
          exact absurd rfl h3

/-- The state after `closeNode` of a handle that is in the table. -/
theorem closeNode_ok {s : Memfs} {fh n : Nat} (h : mapGet s.openmap fh = some n) :
    s.closeNode fh = (.ok 0,
      if (s.heap n).opencnt - 1 = 0 then
        { s.upd n fun nd => { nd with opencnt := nd.opencnt - 1 } with
          openmap := mapDel s.openmap (s.heap n).stat.Ino }
      else s.upd n fun nd => { nd with opencnt := nd.opencnt - 1 }) := by
  unfold Memfs.closeNode
  rw [h]
  dsimp only
  simp only [upd_heap_same]
  rfl

end Cgofuse

namespace Cgofuse

/-! ## The handle table -/

theorem HT_keep {d : Nat → Prop} {s s2 : Memfs} {out : Nat → Nat} (hio : InoOK s)
    (h : HT s out) (hk : Keep true d s s2) : HT s2 out := by
  obtain ⟨⟨hn1, _, _⟩, hold, hnew, hom⟩ := hk
  have hom2 := hom rfl
  obtain ⟨h1, h2, h3⟩ := h
  refine ⟨?_, ?_, ?_⟩
  · intro p hp
    by_cases hp1 : p < s.next
    · obtain ⟨a1, _, _, a4, _⟩ := hold p hp1
      rw [a1, a4 rfl, hom2]
      exact h1 p hp1
    · obtain ⟨b1, b2, _⟩ := hnew p (by omega) hp
      rw [b1, b2, hom2]
      have hout : out (s.ino + 1) = 0 := by
        by_contra hne
        obtain ⟨q, _, hq2⟩ := h2 (s.ino + 1) (by omega)
        have := hio q
        omega
      rw [hout]
      refine ⟨rfl, ?_⟩
      constructor
      · intro hm
        have := (h3 _ _ hm).1
        omega
      · intro hlt
        exact absurd hlt (by decide)
  · intro k hk
    obtain ⟨p, hp, hpk⟩ := h2 k hk
    exact ⟨p, by omega, by rw [(hold p hp).1]; exact hpk⟩
  · intro k p hm
    rw [hom2] at hm
    obtain ⟨hp, hpk⟩ := h3 k p hm
    exact ⟨by omega, by rw [(hold p hp).1]; exact hpk⟩

theorem HT_open {s s2 : Memfs} {out out2 : Nat → Nat} {n : Nat} (hi : InoInj s)
    (h : HT s out) (hn : n < s.next) (hnx : s2.next = s.next)
    (hheap : ∀ q, s2.heap q =
      if q = n then { s.heap n with opencnt := (s.heap n).opencnt + 1 } else s.heap q)
    (hom : s2.openmap =
      if (s.heap n).opencnt + 1 = 1 then mapSet s.openmap (s.heap n).stat.Ino n
      else s.openmap)
    (hout : ∀ k, out2 k = if k = (s.heap n).stat.Ino then out k + 1 else out k) :
    HT s2 out2 := by
  obtain ⟨h1, h2, h3⟩ := h
  have hino : ∀ q, (s2.heap q).stat.Ino = (s.heap q).stat.Ino := by
    intro q
    rw [hheap q]
    split
    · rename_i hq; subst hq; rfl
    · rfl
  have hcn := (h1 n hn).1
  refine ⟨?_, ?_, ?_⟩
  · intro p hp
    rw [hnx] at hp
    rw [hino p, hout]
    by_cases hpn : p = n
    · subst hpn
      rw [hheap p, if_pos rfl, if_pos rfl]
      dsimp only
      refine ⟨by rw [hcn]; push_cast; rfl, ?_⟩
      constructor
      · intro _; omega
      · intro _
        rw [hom]
        split
        · exact mapGet_mapSet_same _ _ _
        · exact ((h1 p hn).2).mpr (by omega)
    · have hne : (s.heap p).stat.Ino ≠ (s.heap n).stat.Ino := fun he => hpn (hi p n hp hn he)
      rw [hheap p, if_neg hpn, if_neg hne]
      refine ⟨(h1 p hp).1, ?_⟩
      rw [hom]
      split
      · rw [mapGet_mapSet_ne _ _ hne]
        exact (h1 p hp).2
      · exact (h1 p hp).2
  · intro k hk
    rw [hout] at hk
    by_cases hkn : k = (s.heap n).stat.Ino
    · exact ⟨n, by omega, by rw [hino]; exact hkn.symm⟩
    · rw [if_neg hkn] at hk
      obtain ⟨p, hp, hpk⟩ := h2 k hk
      exact ⟨p, by omega, by rw [hino]; exact hpk⟩
  · intro k p hm
    rw [hom] at hm
    rw [hino, hnx]
    split at hm
    · by_cases hkn : k = (s.heap n).stat.Ino
      · subst hkn
        rw [mapGet_mapSet_same] at hm
        cases hm
        exact ⟨hn, rfl⟩
      · rw [mapGet_mapSet_ne _ _ hkn] at hm
        exact h3 k p hm
    · exact h3 k p hm

theorem HT_close {s s2 : Memfs} {out out2 : Nat → Nat} {n : Nat} (hi : InoInj s)
    (h : HT s out) (hn : n < s.next) (hpos : 0 < out (s.heap n).stat.Ino)
    (hnx : s2.next = s.next)
    (hheap : ∀ q, s2.heap q =
      if q = n then { s.heap n with opencnt := (s.heap n).opencnt - 1 } else s.heap q)
    (hom : s2.openmap =
      if (s.heap n).opencnt - 1 = 0 then mapDel s.openmap (s.heap n).stat.Ino
      else s.openmap)
    (hout : ∀ k, out2 k = if k = (s.heap n).stat.Ino then out k - 1 else out k) :
    HT s2 out2 := by
  obtain ⟨h1, h2, h3⟩ := h
  have hino : ∀ q, (s2.heap q).stat.Ino = (s.heap q).stat.Ino := by
    intro q
    rw [hheap q]
    split
    · rename_i hq; subst hq; rfl
    · rfl
  have hcn := (h1 n hn).1
  refine ⟨?_, ?_, ?_⟩
  · intro p hp
    rw [hnx] at hp
    rw [hino p, hout]
    by_cases hpn : p = n
    · subst hpn
      rw [hheap p, if_pos rfl, if_pos rfl]
      dsimp only
      refine ⟨by rw [hcn]; omega, ?_⟩
      rw [hom]
      split
      · rename_i hc
        rw [mapGet_mapDel_same]
        constructor
        · intro hx; cases hx
        · intro hx; omega
      · rename_i hc
        constructor
        · intro _; omega
        · intro _; exact ((h1 p hn).2).mpr (by omega)
    · have hne : (s.heap p).stat.Ino ≠ (s.heap n).stat.Ino := fun he => hpn (hi p n hp hn he)
      rw [hheap p, if_neg hpn, if_neg hne]
      refine ⟨(h1 p hp).1, ?_⟩
      rw [hom]
      split
      · rw [mapGet_mapDel_ne _ hne]
        exact (h1 p hp).2
      · exact (h1 p hp).2
  · intro k hk
    rw [hout] at hk
    by_cases hkn : k = (s.heap n).stat.Ino
    · exact ⟨n, by omega, by rw [hino]; exact hkn.symm⟩
    · rw [if_neg hkn] at hk
      obtain ⟨p, hp, hpk⟩ := h2 k hk
      exact ⟨p, by omega, by rw [hino]; exact hpk⟩
  · intro k p hm
    rw [hom] at hm
    rw [hino, hnx]
    split at hm
    · by_cases hkn : k = (s.heap n).stat.Ino
      · subst hkn
        rw [mapGet_mapDel_same] at hm
        cases hm
      · rw [mapGet_mapDel_ne _ hkn] at hm
        exact h3 k p hm
    · exact h3 k p hm

end Cgofuse

namespace Cgofuse

theorem Memfs.eq_of_fields {s s2 : Memfs} (h1 : s2.ino = s.ino) (h2 : s2.root = s.root)
    (h3 : s2.openmap = s.openmap) (h4 : ∀ q, s2.heap q = s.heap q) (h5 : s2.next = s.next) :
    s2 = s := by
  cases s
  cases s2
  have h6 := funext h4
  simp only at h1 h2 h3 h5 h6
  simp only [Memfs.mk.injEq]
  exact ⟨h1, h2, h3, h6, h5⟩

theorem HT_openNode {s : Memfs} {out out2 : Nat → Nat} (hs : Reachable s) (h : HT s out)
    (path : Bytes) (dir : Bool) (oh : Option Nat)
    (hoh : ∀ fh, oh = some fh ↔ (s.openNode path dir).1 = .ok (0, fh))
    (hout : ∀ k, out2 k = if oh = some k then out k + 1 else out k) :
    HT (s.openNode path dir).2 out2 := by
  by_cases hf : ∀ fh, (s.openNode path dir).1 ≠ .ok (0, fh)
  · have hno : oh = none := by
      cases hx : oh with
      | none => rfl
      | some fh => exact absurd ((hoh fh).mp hx) (hf fh)
    have he : out2 = out := by
      funext k
      rw [hout k, hno, if_neg (by simp)]
    rw [openNode_fail hf, he]
    exact h
  · have hex : ∃ fh, (s.openNode path dir).1 = .ok (0, fh) := by
      by_contra hne
      exact hf (fun fh hx => hne ⟨fh, hx⟩)
    obtain ⟨fh, hr⟩ := hex
    obtain ⟨pr, nm, n, hl, hfh, hst⟩ := openNode_ok hr rfl
    have hn : n < s.next := (hs.wf.lookup_lt hl).2 n rfl
    have hsome : oh = some fh := (hoh fh).mpr hr
    refine HT_open hs.inoInj h hn ?_ ?_ ?_ ?_
    · rw [hst]; split <;> rfl
    · intro q
      rw [hst]
      split <;> rfl
    · rw [hst]
      split <;> rfl
    · intro k
      rw [hout k, hsome, ← hfh]
      by_cases hk : k = fh
      · subst hk; simp
      · have hk2 : ¬ some fh = some k := fun hx => hk (Option.some.inj hx).symm
        rw [if_neg hk2, if_neg hk]

theorem opened_Open (s : Memfs) (path : Bytes) (flags : Int) (fh : Nat) :
    s.opened (.Open path flags) = some fh ↔ (s.openNode path false).1 = .ok (0, fh) := by
  unfold Memfs.opened Memfs.Open
  dsimp only
  cases hr : (s.openNode path false).1 with
  | error e => simp
  | ok r =>
    obtain ⟨c, fh2⟩ := r
    by_cases hc : c = 0
    · subst hc; simp
    · simp [hc]

theorem opened_Opendir (s : Memfs) (path : Bytes) (fh : Nat) :
    s.opened (.Opendir path) = some fh ↔ (s.openNode path true).1 = .ok (0, fh) := by
  unfold Memfs.opened Memfs.Opendir
  dsimp only
  cases hr : (s.openNode path true).1 with
  | error e => simp
  | ok r =>
    obtain ⟨c, fh2⟩ := r
    by_cases hc : c = 0
    · subst hc; simp
    · simp [hc]

theorem HT_closeNode {s : Memfs} {out out2 : Nat → Nat} (hs : Reachable s) (h : HT s out)
    (fh : Nat) (hpos : 0 < out fh)
    (hout : ∀ k, out2 k = if fh = k then out k - 1 else out k) :
    (s.closeNode fh).1 = .ok 0 ∧ HT (s.closeNode fh).2 out2 := by
  obtain ⟨n, hn, hnfh⟩ := h.2.1 fh hpos
  have hcn := (h.1 n hn).1
  have hm : mapGet s.openmap fh = some n := by
    rw [← hnfh]
    exact ((h.1 n hn).2).mpr (by rw [hcn, hnfh]; omega)
  rw [closeNode_ok hm]
  refine ⟨rfl, ?_⟩
  dsimp only
  refine HT_close hs.inoInj h hn (by rw [hnfh]; exact hpos) ?_ ?_ ?_ ?_
  · split <;> rfl
  · intro q
    split <;> rfl
  · split <;> rfl
  · intro k
    rw [hout k, hnfh]
    by_cases hk : fh = k
    · rw [if_pos hk, if_pos hk.symm]
    · rw [if_neg hk, if_neg (fun hx => hk hx.symm)]

section
set_option linter.unusedTactic false
set_option linter.unreachableTactic false

/-- In a run that releases only outstanding handles, the handle table and the open counts
agree with the outstanding opens. -/
theorem Run.ht {s : Memfs} {out : Nat → Nat} (h : Run s out) : HT s out := by
  induction h with
  | init now =>
    refine ⟨?_, ?_, ?_⟩
    · intro p hp
      have hp1 : p < 1 := hp
      have hp0 : p = 0 := by omega
      subst hp0
      refine ⟨rfl, ?_⟩
      constructor
      · intro hx; cases hx
      · intro hx; exact absurd hx (Int.lt_irrefl 0)
    · intro k hk
      exact absurd hk (Nat.lt_irrefl 0)
    · intro k p hm
      cases hm
  | step ctx op hrun hrel ih =>
    rename_i s out
    have hs := hrun.reachable
    have hgen : ∀ op2 : Op, op2.keepsOpen = true → s.opened op2 = none → op2.released = none →
        HT (s.step ctx op2).2 (s.track out op2) := by
      intro op2 h1 h2 h3
      have he : s.track out op2 = out := by
        funext k
        simp [Memfs.track, h2, h3]
      rw [he]
      have hk := step_keep s ctx op2
      rw [h1] at hk
      exact HT_keep hs.inoOK ih hk
    cases op with
    | Open path flags =>
      refine HT_openNode hs ih path false (s.opened (.Open path flags))
        (opened_Open s path flags) ?_
      intro k
      simp [Memfs.track, Op.released]
    | Opendir path =>
      refine HT_openNode hs ih path true (s.opened (.Opendir path))
        (opened_Opendir s path) ?_
      intro k
      simp [Memfs.track, Op.released]
    | Release path fh =>
      refine (HT_closeNode hs ih fh (hrel fh rfl) ?_).2
      intro k
      simp [Memfs.track, Memfs.opened, Op.released]
    | Releasedir path fh =>
      refine (HT_closeNode hs ih fh (hrel fh rfl) ?_).2
      intro k
      simp [Memfs.track, Memfs.opened, Op.released]
    | _ => exact hgen _ rfl rfl rfl

end

end Cgofuse

namespace Cgofuse

theorem node_opencnt_restore (nd : node_t) :
    ({ ({ nd with opencnt := nd.opencnt + 1 } : node_t) with
        opencnt := ({ nd with opencnt := nd.opencnt + 1 } : node_t).opencnt - 1 } : node_t)
      = nd := by
  cases nd
  simp

theorem heap_open_close (s A : Memfs) (n q : Nat)
    (hA : A.heap = (s.upd n fun nd => { nd with opencnt := nd.opencnt + 1 }).heap) :
    (A.upd n fun nd => { nd with opencnt := nd.opencnt - 1 }).heap q = s.heap q := by
  rw [heap_upd, hA]
  by_cases hq : q = n
  · subst hq
    rw [if_pos rfl, upd_heap_same]
    exact node_opencnt_restore _
  · rw [if_neg hq, upd_heap_ne _ _ hq]

/-- An `openNode` that returns the code 0, followed by `closeNode` of the handle it returned,
gives back the state before the `openNode`. -/
theorem open_close_restores {s : Memfs} {out : Nat → Nat} (h : Run s out) {path : Bytes}
    {dir : Bool} {fh : Nat} (hr : (s.openNode path dir).1 = .ok (0, fh)) :
    (s.openNode path dir).2.closeNode fh = (.ok 0, s) := by
  have hs := h.reachable
  have hht := h.ht
  obtain ⟨pr, nm, n, hl, hfh, hst⟩ := openNode_ok hr rfl
  have hn : n < s.next := (hs.wf.lookup_lt hl).2 n rfl
  have hcn := (hht.1 n hn).1
  rw [hst, hfh]
  by_cases hc : (s.heap n).opencnt + 1 = 1
  · rw [if_pos hc]
    have hc0 : (s.heap n).opencnt = 0 := by omega
    have hnone : mapGet s.openmap (s.heap n).stat.Ino = none := by
      cases hm : mapGet s.openmap (s.heap n).stat.Ino with
      | none => rfl
      | some p =>
        obtain ⟨hp, hpi⟩ := hht.2.2 _ _ hm
        have hpn : p = n := hs.inoInj p n hp hn hpi
        subst hpn
        have := ((hht.1 p hn).2).mp hm
        omega
    rw [closeNode_ok (n := n) (mapGet_mapSet_same _ _ _)]
    refine Prod.ext rfl ?_
    dsimp only
    rw [upd_heap_same]
    dsimp only
    rw [if_pos (by omega)]
    refine Memfs.eq_of_fields rfl rfl ?_ ?_ rfl
    · show mapDel (mapSet s.openmap (s.heap n).stat.Ino n) (s.heap n).stat.Ino = s.openmap
      unfold mapSet
      unfold mapDel
      rw [if_pos rfl, mapDel_of_none hnone, mapDel_of_none hnone]
    · intro q
      exact heap_open_close s _ n q rfl
  · rw [if_neg hc]
    have hpos : 0 < (s.heap n).opencnt := by omega
    have hm : mapGet (s.upd n fun nd => { nd with opencnt := nd.opencnt + 1 }).openmap
        (s.heap n).stat.Ino = some n := ((hht.1 n hn).2).mpr hpos
    rw [closeNode_ok hm]
    refine Prod.ext rfl ?_
    dsimp only
    rw [upd_heap_same]
    dsimp only
    rw [if_neg (by omega)]
    refine Memfs.eq_of_fields rfl rfl rfl ?_ rfl
    intro q
    exact heap_open_close s _ n q rfl

/-- C12. In every state of a run in which `Release` and `Releasedir` are only called with an
outstanding handle (`out` counts the outstanding opens of every handle): every node is in the
handle table under its inode number exactly if its open count is positive, and its open
count is the number of outstanding opens of its handle. An `Open` that returns 0 followed by
`Release` of the handle it returned, and likewise `Opendir` and `Releasedir`, returns 0 and
leaves the engine state, open counts and handle table included, as it was before. -/
theorem handle_table_invariant {s : Memfs} {out : Nat → Nat} (h : Run s out) :
    (∀ p, p < s.next →
      (mapGet s.openmap (s.heap p).stat.Ino = some p ↔ 0 < (s.heap p).opencnt) ∧
      (s.heap p).opencnt = (out (s.heap p).stat.Ino : Int)) ∧
    (∀ path flags fh, (s.Open path flags).1 = .ok (0, fh) →
      (s.Open path flags).2.Release path fh = (.ok 0, s)) ∧
    (∀ path fh, (s.Opendir path).1 = .ok (0, fh) →
      (s.Opendir path).2.Releasedir path fh = (.ok 0, s)) := by
  refine ⟨fun p hp => ⟨(h.ht.1 p hp).2, (h.ht.1 p hp).1⟩, ?_, ?_⟩
  · intro path flags fh hr
    exact open_close_restores h hr
  · intro path fh hr
    exact open_close_restores h hr

/-- An instance of `handle_table_invariant`: in the example state, reached by a `Mknod`,
`Open("/a")` returns the handle 2, the inode number of the file, and `Release` of that handle
gives the example state back. -/
theorem handle_table_invariant_witness :
    (stA.Open (str "/a") 2).1 = .ok (0, 2) ∧
    (stA.Open (str "/a") 2).2.Release (str "/a") 2 = (.ok 0, stA) :=
  ⟨by decide,
   (handle_table_invariant
      (Run.step ctx0 (.Mknod (str "/a") 0o100644 0) (Run.init t0)
        (fun _ hx => Option.noConfusion hx))).2.1 (str "/a") 2 2 (by decide)⟩

end Cgofuse

namespace Cgofuse

/-! ## `Mkdir` followed by `Rmdir` -/

/-- Two heaps with the same children mappings below `nx` give the same walks. -/
theorem lookupLoop_congr_below {h h2 : Nat → node_t} {nx : Nat}
    (hch : ∀ p, (h p).chldOK nx) (hsame : ∀ q, q < nx → (h2 q).chld = (h q).chld)
    (anc : Ptr) (cs : List Bytes) (prnt : Ptr) (name : Bytes) {node : Ptr}
    (hn : ∀ n, node = some n → n < nx) :
    lookupLoop h2 anc cs prnt name node = lookupLoop h anc cs prnt name node := by
  induction cs generalizing prnt name node with
  | nil => rfl
  | cons c cs ih =>
    unfold lookupLoop
    by_cases hc0 : c ≠ []
    · rw [if_pos hc0, if_pos hc0]
      by_cases hl : 255 < c.length
      · rw [if_pos hl, if_pos hl]
      · rw [if_neg hl, if_neg hl]
        cases node with
        | none => rfl
        | some p =>
          dsimp only
          have hp : p < nx := hn p rfl
          rw [child_congr (hsame p hp) c]
          split
          · rfl
          · exact ih _ _ (fun n hn2 => child_lt (hch p) hn2)
    · rw [if_neg hc0, if_neg hc0]
      exact ih _ _ hn

theorem mapDel_mapSet {κ α : Type} [DecidableEq κ] (m : List (κ × α)) (k : κ) (v : α)
    (h : mapGet m k = none) : mapDel (mapSet m k v) k = m := by
  unfold mapSet
  unfold mapDel
  rw [if_pos rfl, mapDel_of_none h, mapDel_of_none h]

/-- What a `makeNode` that returns 0 found. -/
theorem makeNode_ok {s : Memfs} (hw : WF s) {ctx : Ctx} {path : Bytes} {mode dev : Nat}
    {data : Option Bytes} (h : (s.makeNode ctx path mode dev data).1 = .ok 0) :
    ∃ pp name m, s.lookupNode path none = .ok (some pp, name, none) ∧
      (s.heap pp).chld = some m := by
  unfold Memfs.makeNode at h
  cases hl : s.lookupNode path none with
  | error e => rw [hl] at h; cases h
  | ok r =>
    obtain ⟨prnt, name, node⟩ := r
    rw [hl] at h
    dsimp only at h
    cases prnt with
    | none => exact absurd (Except.ok.inj h) (by decide)
    | some pp =>
      dsimp only at h
      split at h
      · exact absurd (Except.ok.inj h) (by decide)
      · rename_i hnode
        have hnode2 : node = none := by
          by_contra hne; exact hnode hne
        subst hnode2
        have hpp : pp < s.next := (hw.lookup_lt hl).1 pp rfl
        cases hm : (s.heap pp).chld with
        | some m => exact ⟨pp, name, m, rfl, hm⟩
        | none =>
          exfalso
          dsimp only [Memfs.alloc] at h
          rw [if_neg (by omega), hm] at h
          cases h

/-- The nodes after a `makeNode` without data under a parent that has a children mapping. -/
theorem makeNode_heap {s : Memfs} (ctx : Ctx) {path : Bytes} (mode dev : Nat) {pp : Nat}
    {name : Bytes} {m : List (Bytes × Nat)}
    (hl : s.lookupNode path none = .ok (some pp, name, none))
    (hm : (s.heap pp).chld = some m) (hpp : pp < s.next) :
    (s.makeNode ctx path mode dev none).2.root = s.root ∧
    (s.makeNode ctx path mode dev none).2.openmap = s.openmap ∧
    (s.makeNode ctx path mode dev none).2.next = s.next + 1 ∧
    (s.makeNode ctx path mode dev none).2.heap s.next =
      newNode dev (s.ino + 1) mode ctx.uid ctx.gid ctx.now ∧
    (s.makeNode ctx path mode dev none).2.heap pp =
      { s.heap pp with chld := some (mapSet m name s.next)
                       stat := { (s.heap pp).stat with Ctim := ctx.now, Mtim := ctx.now } } ∧
    ∀ q, q ≠ pp → q ≠ s.next → (s.makeNode ctx path mode dev none).2.heap q = s.heap q := by
  have hne : s.next ≠ pp := by omega
  unfold Memfs.makeNode
  rw [hl]
  dsimp only [Memfs.alloc]
  rw [if_neg (by simp)]
  split
  · rename_i hx; rw [if_neg (Ne.symm hne), hm] at hx; cases hx
  · rename_i m2 hx
    rw [if_neg (Ne.symm hne), hm] at hx
    cases hx
    refine ⟨rfl, rfl, rfl, ?_, ?_, ?_⟩
    · rw [heap_upd, if_neg hne]
      dsimp only
      rw [if_pos rfl]
    · rw [heap_upd, if_pos rfl]
      dsimp only
      rw [if_neg (Ne.symm hne), if_pos rfl]
      rfl
    · intro q h1 h2
      rw [heap_upd, if_neg h1]
      dsimp only
      rw [if_neg h2]

/-- The state after a `removeNode` that passes its checks. -/
theorem removeNode_eq {s : Memfs} (ctx : Ctx) {path : Bytes} {dir : Bool} {pp n : Nat}
    {nm : Bytes} (hl : s.lookupNode path none = .ok (some pp, nm, some n))
    (h1 : ¬(dir = false ∧ (s.heap n).isDir = true))
    (h2 : ¬(dir = true ∧ (s.heap n).isDir = false)) (h3 : (s.heap n).nchld = 0) :
    s.removeNode ctx path dir = (.ok 0,
      (((s.upd n fun nd => { nd with stat := { nd.stat with Nlink := wrap32 (nd.stat.Nlink - 1) } }).upd
        pp fun nd => { nd with chld := nd.chld.map fun m => mapDel m nm }).upd
        n fun nd => { nd with stat := { nd.stat with Ctim := ctx.now } }).upd
        pp fun nd => { nd with stat := { nd.stat with Ctim := ctx.now, Mtim := ctx.now } }) := by
  unfold Memfs.removeNode
  rw [hl]
  dsimp only
  rw [if_neg h1, if_neg h2, if_neg (by omega)]

end Cgofuse

namespace Cgofuse

theorem upd4_heap (s : Memfs) (pp n : Nat) (f1 f2 f3 f4 : node_t → node_t) (hne : pp ≠ n) :
    ((((s.upd n f1).upd pp f2).upd n f3).upd pp f4).heap pp = f4 (f2 (s.heap pp)) ∧
    ∀ q, q ≠ pp → q ≠ n → ((((s.upd n f1).upd pp f2).upd n f3).upd pp f4).heap q = s.heap q := by
  constructor
  · rw [upd_heap_same, upd_heap_ne _ _ hne, upd_heap_same, upd_heap_ne _ _ hne]
  · intro q h1 h2
    rw [upd_heap_ne _ _ h1, upd_heap_ne _ _ h2, upd_heap_ne _ _ h1, upd_heap_ne _ _ h2]

/-- A node made under `pp` by `makeNode` and removed again by `removeNode`: what is left. -/
theorem make_remove_aux {s s1 : Memfs} (hw : WF s) (ctx ctx2 : Ctx) (path : Bytes)
    {pp : Nat} {name : Bytes} {m : List (Bytes × Nat)} (hpp : pp < s.next)
    (hm : (s.heap pp).chld = some m) (hmn : mapGet m name = none)
    (hroot : s1.root = s.root) (hopen : s1.openmap = s.openmap)
    (hisdir : (s1.heap s.next).isDir = true) (hnchld : (s1.heap s.next).nchld = 0)
    (hpar : s1.heap pp =
      { s.heap pp with chld := some (mapSet m name s.next)
                       stat := { (s.heap pp).stat with Ctim := ctx.now, Mtim := ctx.now } })
    (hoth : ∀ q, q ≠ pp → q ≠ s.next → s1.heap q = s.heap q)
    (hl1 : s1.lookupNode path none = .ok (some pp, name, some s.next)) :
    (s1.removeNode ctx2 path true).1 = .ok 0 ∧
    (s1.removeNode ctx2 path true).2.root = s.root ∧
    (s1.removeNode ctx2 path true).2.openmap = s.openmap ∧
    (∀ p anc, (s1.removeNode ctx2 path true).2.lookupNode p anc = s.lookupNode p anc) ∧
    (∀ q, q < s.next →
      ((s1.removeNode ctx2 path true).2.heap q).chld = (s.heap q).chld ∧
      ((s1.removeNode ctx2 path true).2.heap q).xatr = (s.heap q).xatr ∧
      ((s1.removeNode ctx2 path true).2.heap q).data = (s.heap q).data ∧
      ((s1.removeNode ctx2 path true).2.heap q).opencnt = (s.heap q).opencnt ∧
      ((s1.removeNode ctx2 path true).2.heap q).stat =
        { (s.heap q).stat with
          Ctim := ((s1.removeNode ctx2 path true).2.heap q).stat.Ctim
          Mtim := ((s1.removeNode ctx2 path true).2.heap q).stat.Mtim }) ∧
    ∃ pp, pp < s.next ∧ ∀ q, q < s.next → q ≠ pp →
      (s1.removeNode ctx2 path true).2.heap q = s.heap q := by
  have hne : pp ≠ s.next := by omega
  rw [@removeNode_eq s1 ctx2 path true pp s.next name hl1 (by simp) (by simp [hisdir]) hnchld]
  dsimp only
  obtain ⟨hh1, hh2⟩ := upd4_heap s1 pp s.next
    (fun nd => { nd with stat := { nd.stat with Nlink := wrap32 (nd.stat.Nlink - 1) } })
    (fun nd => { nd with chld := nd.chld.map fun m => mapDel m name })
    (fun nd => { nd with stat := { nd.stat with Ctim := ctx2.now } })
    (fun nd => { nd with stat := { nd.stat with Ctim := ctx2.now, Mtim := ctx2.now } }) hne
  have hr2 : ((((s1.upd s.next fun nd =>
        { nd with stat := { nd.stat with Nlink := wrap32 (nd.stat.Nlink - 1) } }).upd
        pp fun nd => { nd with chld := nd.chld.map fun m => mapDel m name }).upd
        s.next fun nd => { nd with stat := { nd.stat with Ctim := ctx2.now } }).upd
        pp fun nd => { nd with stat := { nd.stat with Ctim := ctx2.now, Mtim := ctx2.now } }).root
      = s.root := hroot
  have ho2 : ((((s1.upd s.next fun nd =>
        { nd with stat := { nd.stat with Nlink := wrap32 (nd.stat.Nlink - 1) } }).upd
        pp fun nd => { nd with chld := nd.chld.map fun m => mapDel m name }).upd
        s.next fun nd => { nd with stat := { nd.stat with Ctim := ctx2.now } }).upd
        pp fun nd => { nd with stat := { nd.stat with Ctim := ctx2.now, Mtim := ctx2.now } }).openmap
      = s.openmap := hopen
  generalize ((((s1.upd s.next fun nd =>
        { nd with stat := { nd.stat with Nlink := wrap32 (nd.stat.Nlink - 1) } }).upd
        pp fun nd => { nd with chld := nd.chld.map fun m => mapDel m name }).upd
        s.next fun nd => { nd with stat := { nd.stat with Ctim := ctx2.now } }).upd
        pp fun nd => { nd with stat := { nd.stat with Ctim := ctx2.now, Mtim := ctx2.now } })
      = s2 at hh1 hh2 hr2 ho2 ⊢
  have hfix : ∀ q, q < s.next → q ≠ pp → s2.heap q = s.heap q := by
    intro q hq hqp
    rw [hh2 q hqp (by omega), hoth q hqp (by omega)]
  have hall : ∀ q, q < s.next →
      (s2.heap q).chld = (s.heap q).chld ∧ (s2.heap q).xatr = (s.heap q).xatr ∧
      (s2.heap q).data = (s.heap q).data ∧ (s2.heap q).opencnt = (s.heap q).opencnt ∧
      (s2.heap q).stat = { (s.heap q).stat with
        Ctim := (s2.heap q).stat.Ctim, Mtim := (s2.heap q).stat.Mtim } := by
    intro q hq
    by_cases hqp : q = pp
    · subst hqp
      rw [hh1, hpar]
      dsimp only
      refine ⟨?_, rfl, rfl, rfl, rfl⟩
      rw [hm]
      show some (mapDel (mapSet m name s.next) name) = some m
      rw [mapDel_mapSet m name s.next hmn]
    · rw [hfix q hq hqp]
      exact ⟨rfl, rfl, rfl, rfl, rfl⟩
  refine ⟨rfl, hr2, ho2, ?_, hall, ⟨pp, hpp, hfix⟩⟩
  intro p anc
  unfold Memfs.lookupNode
  rw [hr2]
  exact lookupLoop_congr_below hw.chld (fun q hq => (hall q hq).1) anc (split p) _ _
    (fun n hn => by cases hn; exact hw.root_lt)

/-- C17. For every reachable state, path `p` and mode `m`: if `Mkdir(p, m)` returns 0, then
the `Rmdir(p)` that follows returns 0, and afterwards the root and the handle table are as
before the `Mkdir`, every path resolves as it did before, and every node that existed
before has the children mapping, attributes, payload, open count and stat block it had, with
the exception of the status-change and modification times of one node, the parent. (The
inode counter has advanced, and the node that was made and removed still takes up an
address.) -/
theorem Mkdir_Rmdir_identity {s : Memfs} (hs : Reachable s) (ctx ctx2 : Ctx) (path : Bytes)
    (mode : Nat) (h : (s.Mkdir ctx path mode).1 = .ok 0) :
    ((s.Mkdir ctx path mode).2.Rmdir ctx2 path).1 = .ok 0 ∧
    ((s.Mkdir ctx path mode).2.Rmdir ctx2 path).2.root = s.root ∧
    ((s.Mkdir ctx path mode).2.Rmdir ctx2 path).2.openmap = s.openmap ∧
    (∀ p anc, ((s.Mkdir ctx path mode).2.Rmdir ctx2 path).2.lookupNode p anc
      = s.lookupNode p anc) ∧
    (∀ q, q < s.next →
      (((s.Mkdir ctx path mode).2.Rmdir ctx2 path).2.heap q).chld = (s.heap q).chld ∧
      (((s.Mkdir ctx path mode).2.Rmdir ctx2 path).2.heap q).xatr = (s.heap q).xatr ∧
      (((s.Mkdir ctx path mode).2.Rmdir ctx2 path).2.heap q).data = (s.heap q).data ∧
      (((s.Mkdir ctx path mode).2.Rmdir ctx2 path).2.heap q).opencnt = (s.heap q).opencnt ∧
      (((s.Mkdir ctx path mode).2.Rmdir ctx2 path).2.heap q).stat =
        { (s.heap q).stat with
          Ctim := (((s.Mkdir ctx path mode).2.Rmdir ctx2 path).2.heap q).stat.Ctim
          Mtim := (((s.Mkdir ctx path mode).2.Rmdir ctx2 path).2.heap q).stat.Mtim }) ∧
    ∃ pp, pp < s.next ∧ ∀ q, q < s.next → q ≠ pp →
      ((s.Mkdir ctx path mode).2.Rmdir ctx2 path).2.heap q = s.heap q := by
  have hw := hs.wf
  have h' : (s.makeNode ctx path (S_IFDIR ||| (mode &&& 0o7777)) 0 none).1 = .ok 0 := h
  obtain ⟨pp, name, m, hl, hm⟩ := makeNode_ok hw h'
  have hpp : pp < s.next := (hw.lookup_lt hl).1 pp rfl
  obtain ⟨hroot, hopen, _, hnew, hpar, hoth⟩ :=
    makeNode_heap ctx (S_IFDIR ||| (mode &&& 0o7777)) 0 hl hm hpp
  have hl1 := (makeNode_under_directory hs ctx path (S_IFDIR ||| (mode &&& 0o7777)) 0 none
    hl hm).2.2.1
  have hmn : mapGet m name = none := by
    rcases lookupNode_slot hl with hx | hx
    · rcases hx with ⟨_, _, hx⟩ | ⟨_, p, hx1, hx2⟩
      · cases hx
      · cases hx1
        have hx3 : (s.heap pp).child name = none := hx2.symm
        unfold node_t.child at hx3
        rw [hm] at hx3
        exact hx3
    · cases hx.2.1
  have hdirbits := mkdir_mode_isDir mode
  have hisdir : ((s.makeNode ctx path (S_IFDIR ||| (mode &&& 0o7777)) 0 none).2.heap
      s.next).isDir = true := by
    rw [hnew]
    unfold node_t.isDir newNode
    simp [← hdirbits]
  have hnchld : ((s.makeNode ctx path (S_IFDIR ||| (mode &&& 0o7777)) 0 none).2.heap
      s.next).nchld = 0 := by
    rw [hnew]
    unfold node_t.nchld newNode
    dsimp only
    rw [if_pos hdirbits]
    rfl
  exact make_remove_aux hw ctx ctx2 path hpp hm hmn hroot hopen hisdir hnchld hpar hoth hl1

/-- An instance of `Mkdir_Rmdir_identity`: `Mkdir("/d", 0o755)` and `Rmdir("/d")` in the
example state. -/
theorem Mkdir_Rmdir_identity_witness :
    (stA.Mkdir ctx1 (str "/d") 0o755).1 = .ok 0 ∧
    ((stA.Mkdir ctx1 (str "/d") 0o755).2.Rmdir ctx1 (str "/d")).1 = .ok 0 ∧
    ∀ p anc, ((stA.Mkdir ctx1 (str "/d") 0o755).2.Rmdir ctx1 (str "/d")).2.lookupNode p anc
      = stA.lookupNode p anc :=
  have h := Mkdir_Rmdir_identity stA_reachable ctx1 ctx1 (str "/d") 0o755 (by decide)
  ⟨by decide, h.1, h.2.2.2.1⟩

end Cgofuse
